import Mathlib

/-!
# hnandag2/data-structs: a shallow embedding and its properties

The development embeds the five headers of the repository:

* `LockFreeStack.h`: a small-step machine whose steps are the shared-memory accesses of
  `push`, `pop`, `reclaim` and `chainPendingNodes`, run by any number of threads;
* `LockFreeStackMemLeak.h`: the same machine without the reclamation;
* `ThreadSafeQueue.h`: a `std::queue` behind one mutex, in sequential use;
* `ThreadSafeQueueFineGrained.h`: a linked list with a dummy tail node, on an explicit heap;
* `UnionFind.h`: two `std::unordered_map`s, with the inserting `operator[]`.

Definitions come first, lemmas and theorems after them.
-/

set_option autoImplicit false

/-! ## The free store -/

namespace Mem

/-- A pointer: `none` is `nullptr`, `some a` is the address of the cell number `a`. -/
abbrev Ptr := Option Nat

/-- One cell of the free store: its contents and how many times it was passed to `delete`.
A cell keeps its contents after `delete`. -/
structure Cell (N : Type) where
  val : N
  deleted : Nat

/-- The free store: every cell ever allocated, the address of a cell being its index, so
`new` never hands out an address twice. -/
structure Heap (N : Type) where
  cells : List (Cell N)

/-- The store before any allocation. -/
def Heap.empty {N : Type} : Heap N := ⟨[]⟩

/-- The expression `new N(...)`: the address of the new cell and the store holding it. -/
def Heap.alloc {N : Type} (h : Heap N) (n : N) : Nat × Heap N :=
  (h.cells.length, ⟨h.cells ++ [⟨n, 0⟩]⟩)

/-- Reading through a pointer to cell `a`: a fault (`none`) when the cell was deleted or never
allocated. -/
def Heap.read {N : Type} (h : Heap N) (a : Nat) : Option N :=
  match h.cells[a]? with
  | some c => if c.deleted = 0 then some c.val else none
  | none => none

/-- Writing through a pointer to cell `a`: a fault (`none`) when the cell was deleted or never
allocated. -/
def Heap.write {N : Type} (h : Heap N) (a : Nat) (n : N) : Option (Heap N) :=
  match h.cells[a]? with
  | some c => if c.deleted = 0 then some ⟨h.cells.set a ⟨n, 0⟩⟩ else none
  | none => none

/-- The statement `delete p`: nothing for `nullptr`, otherwise the cell counts one more
`delete`. Deleting a cell a second time is not a fault of the model: it shows in the count. -/
def Heap.delete {N : Type} (h : Heap N) : Ptr → Heap N
  | none => h
  | some a =>
      match h.cells[a]? with
      | some c => ⟨h.cells.set a { c with deleted := c.deleted + 1 }⟩
      | none => h

/-- How many times the cell `a` was passed to `delete`. -/
def Heap.deletes {N : Type} (h : Heap N) (a : Nat) : Nat :=
  match h.cells[a]? with
  | some c => c.deleted
  | none => 0

/-- The cells of `l` passed to `delete` one after the other. -/
def Heap.deleteAll {N : Type} (h : Heap N) (l : List Nat) : Heap N :=
  l.foldl (fun h a => h.delete (some a)) h

/-- The addresses met from `p` along `next`, at most `fuel` of them; the walk stops at
`nullptr` and at an address that was never allocated, and does not look at `delete`. -/
def Heap.walk {N : Type} (next : N → Ptr) (h : Heap N) : Nat → Ptr → List Nat
  | 0, _ => []
  | _ + 1, none => []
  | fuel + 1, some a =>
      a :: match h.cells[a]? with
        | some c => Heap.walk next h fuel (next c.val)
        | none => []

/-- The chain of cells that starts at `p` and follows `next` down to `nullptr` is `l`, each
entry the address of a cell and its contents; every cell of it is allocated and not deleted. -/
def Linked {N : Type} (next : N → Ptr) (h : Heap N) : Ptr → List (Nat × N) → Prop
  | p, [] => p = none
  | p, e :: l => p = some e.1 ∧ h.read e.1 = some e.2 ∧ Linked next h (next e.2) l

end Mem

/-! ## LockFreeStack.h -/

namespace LockFreeStack

open Mem

/-- The struct `StackNode` (lines 127-133). -/
structure StackNode (T : Type) where
  data : T
  next : Ptr
  deriving DecidableEq

/-- The width of `size_t`, the type of `poppingThreads`. -/
def sizeMax : Nat := 2 ^ 64

/-- The shared fields of the class (lines 135-137) and the free store. -/
structure Shared (T : Type) where
  heap : Heap (StackNode T)
  head : Ptr
  poppingThreads : Nat
  toBeDeleted : Ptr

/-- The two calls of `chainPendingNodes` in `reclaim`: line 93 (the claimed list is chained
back, `reclaim` returns after it) and line 101 (the popped node is chained, `--poppingThreads`
follows). -/
inductive CallSite where
  | claimed
  | deferred
  deriving DecidableEq, Repr

/-- Where a thread stands, with its local variables. Each constructor is the program point
just before one access to shared memory. -/
inductive Local (T : Type) where
  /-- outside `push` and `pop` -/
  | idle
  /-- line 28: `new StackNode(data)` -/
  | pushNew (data : T)
  /-- line 31: `newNode->next = head.load()` -/
  | pushLoad (newNode : Nat)
  /-- line 37: `head.compare_exchange_weak(newNode->next, newNode)` -/
  | pushCas (newNode : Nat)
  /-- line 42: `++poppingThreads` -/
  | popInc
  /-- line 45: `oldHead = head.load()` -/
  | popLoad
  /-- line 52: the test `oldHead &&` and the evaluation of the argument `oldHead->next` -/
  | popTest (oldHead : Ptr)
  /-- line 52: `head.compare_exchange_weak(oldHead, next)` -/
  | popCas (oldHead : Nat) (next : Ptr)
  /-- line 55: `T ret = oldHead ? oldHead->data : T()` -/
  | popRet (oldHead : Ptr)
  /-- line 68: `poppingThreads.load() == 1` -/
  | reclaimCheck (node : Ptr) (ret : T)
  /-- line 71: `delete node` -/
  | reclaimDelete (node : Ptr) (ret : T)
  /-- line 76: `delNodes = toBeDeleted.exchange(nullptr)` -/
  | reclaimExchange (ret : T)
  /-- line 79: `--poppingThreads == 0` -/
  | reclaimDec (delNodes : Ptr) (ret : T)
  /-- lines 82-84: the test `delNodes` and `temp = delNodes->next` -/
  | listTest (delNodes : Ptr) (ret : T)
  /-- lines 85-86: `delete delNodes; delNodes = temp` -/
  | listDelete (delNodes : Nat) (temp : Ptr) (ret : T)
  /-- line 111: the test `last->next != nullptr` -/
  | chainTest (site : CallSite) (node last : Ptr) (ret : T)
  /-- line 113: `last = last->next` -/
  | chainAdvance (site : CallSite) (node : Ptr) (last : Nat) (ret : T)
  /-- line 117: `last->next = toBeDeleted` -/
  | chainLink (site : CallSite) (node : Ptr) (last : Nat) (ret : T)
  /-- line 123: `toBeDeleted.compare_exchange_weak(last->next, node)` -/
  | chainCas (site : CallSite) (node : Ptr) (last : Nat) (ret : T)
  /-- line 102: `--poppingThreads` -/
  | elseDec (ret : T)
  /-- line 60: `return res` -/
  | popReturn (ret : T)
  deriving DecidableEq

/-- The thread is outside `push` and `pop`. -/
def Local.isIdle {T : Type} : Local T → Bool
  | .idle => true
  | _ => false

/-- The thread has incremented `poppingThreads` (line 42) and not yet decremented it (line 79
or line 102). -/
def Local.registered {T : Type} : Local T → Bool
  | .popLoad => true
  | .popTest _ => true
  | .popCas _ _ => true
  | .popRet _ => true
  | .reclaimCheck _ _ => true
  | .reclaimDelete _ _ => true
  | .reclaimExchange _ => true
  | .reclaimDec _ _ => true
  | .chainTest .deferred _ _ _ => true
  | .chainAdvance .deferred _ _ _ => true
  | .chainLink .deferred _ _ _ => true
  | .chainCas .deferred _ _ _ => true
  | .elseDec _ => true
  | _ => false

/-- The thread is inside `pop`. -/
def Local.inPop {T : Type} : Local T → Bool
  | .idle => false
  | .pushNew _ => false
  | .pushLoad _ => false
  | .pushCas _ => false
  | _ => true

/-- The thread is about to decrement `poppingThreads` (line 79 or line 102). -/
def Local.atDecrement {T : Type} : Local T → Bool
  | .reclaimDec _ _ => true
  | .elseDec _ => true
  | _ => false

/-- The thread is at the loop test of `chainPendingNodes` (line 111) with `last` null: its
next step evaluates `last->next` through `nullptr`. -/
def Local.derefsNull {T : Type} : Local T → Bool
  | .chainTest _ _ none _ => true
  | _ => false

/-- The thread is in the loop of `chainPendingNodes` (lines 111-114), on a cell. -/
def Local.inChainLoop {T : Type} : Local T → Bool
  | .chainTest _ _ (some _) _ => true
  | .chainAdvance _ _ _ _ => true
  | _ => false

/-- The operator `++` on a `size_t`. -/
def incr (n : Nat) : Nat := (n + 1) % sizeMax

/-- The operator `--` on a `size_t`. -/
def decr (n : Nat) : Nat := (n + sizeMax - 1) % sizeMax

/-- One step of one thread: the access to shared memory at its program point. `none` is a
fault: a read or write through `nullptr` or through a pointer to a deleted node, or a step of
an idle thread. `compare_exchange_weak` is taken without spurious failures: a spurious failure
reloads the expected value with the value it already has and repeats the same step. -/
def step {T : Type} [Inhabited T] (s : Shared T) : Local T → Option (Shared T × Local T)
  | .idle => none
  | .pushNew data =>
      let r := s.heap.alloc ⟨data, none⟩
      some ({ s with heap := r.2 }, .pushLoad r.1)
  | .pushLoad newNode =>
      (s.heap.read newNode).bind fun n =>
      (s.heap.write newNode { n with next := s.head }).map fun h =>
        ({ s with heap := h }, .pushCas newNode)
  | .pushCas newNode =>
      (s.heap.read newNode).bind fun n =>
        if s.head = n.next then some ({ s with head := some newNode }, .idle)
        else (s.heap.write newNode { n with next := s.head }).map fun h =>
          ({ s with heap := h }, .pushCas newNode)
  | .popInc => some ({ s with poppingThreads := incr s.poppingThreads }, .popLoad)
  | .popLoad => some (s, .popTest s.head)
  | .popTest none => some (s, .popRet none)
  | .popTest (some a) => (s.heap.read a).map fun n => (s, .popCas a n.next)
  | .popCas a next =>
      if s.head = some a then some ({ s with head := next }, .popRet (some a))
      else some (s, .popTest s.head)
  | .popRet none => some (s, .reclaimCheck none default)
  | .popRet (some a) => (s.heap.read a).map fun n => (s, .reclaimCheck (some a) n.data)
  | .reclaimCheck node ret =>
      if s.poppingThreads = 1 then some (s, .reclaimDelete node ret)
      else some (s, .chainTest .deferred node node ret)
  | .reclaimDelete node ret => some ({ s with heap := s.heap.delete node }, .reclaimExchange ret)
  | .reclaimExchange ret => some ({ s with toBeDeleted := none }, .reclaimDec s.toBeDeleted ret)
  | .reclaimDec delNodes ret =>
      if decr s.poppingThreads = 0 then
        some ({ s with poppingThreads := decr s.poppingThreads }, .listTest delNodes ret)
      else
        some ({ s with poppingThreads := decr s.poppingThreads },
          .chainTest .claimed delNodes delNodes ret)
  | .listTest none ret => some (s, .popReturn ret)
  | .listTest (some a) ret => (s.heap.read a).map fun n => (s, .listDelete a n.next ret)
  | .listDelete a temp ret => some ({ s with heap := s.heap.delete (some a) }, .listTest temp ret)
  | .chainTest _ _ none _ => none
  | .chainTest site node (some a) ret =>
      (s.heap.read a).map fun n =>
        if n.next ≠ none then (s, .chainAdvance site node a ret)
        else (s, .chainLink site node a ret)
  | .chainAdvance site node a ret =>
      (s.heap.read a).map fun n => (s, .chainTest site node n.next ret)
  | .chainLink site node a ret =>
      (s.heap.read a).bind fun n =>
      (s.heap.write a { n with next := s.toBeDeleted }).map fun h =>
        ({ s with heap := h }, .chainCas site node a ret)
  | .chainCas site node a ret =>
      (s.heap.read a).bind fun n =>
        if s.toBeDeleted = n.next then
          some ({ s with toBeDeleted := node },
            match site with
            | .claimed => .popReturn ret
            | .deferred => .elseDec ret)
        else (s.heap.write a { n with next := s.toBeDeleted }).map fun h =>
          ({ s with heap := h }, .chainCas site node a ret)
  | .elseDec ret => some ({ s with poppingThreads := decr s.poppingThreads }, .popReturn ret)
  | .popReturn _ => some (s, .idle)

/-- The whole system: the shared state, the local state of every thread, and two logs that
the code does not have: the values passed to `push`, in call order, and the value of the local
`ret` of every `pop` that returned, in the order of the returns. -/
structure Config (T : Type) where
  shared : Shared T
  locals : Nat → Local T
  pushes : List T
  pops : List T

/-- Thread `t` moves to `l`. -/
def setLocal {T : Type} (f : Nat → Local T) (t : Nat) (l : Local T) : Nat → Local T :=
  fun u => if u = t then l else f u

/-- What a scheduler can do: let an idle thread call `push(v)` or `pop()`, or let a thread
inside a call take its next step. -/
inductive Action (T : Type) where
  | push (t : Nat) (v : T)
  | pop (t : Nat)
  | step (t : Nat)

/-- The log of returned pops after a step taken from the program point `l`: the step at
line 60 adds the value of `ret`. -/
def logPop {T : Type} (l : Local T) (pops : List T) : List T :=
  match l with
  | .popReturn ret => pops ++ [ret]
  | _ => pops

/-- The effect of one action; `none` when the action is not enabled or the step faults. -/
def exec {T : Type} [Inhabited T] (c : Config T) : Action T → Option (Config T)
  | .push t v =>
      if (c.locals t).isIdle then
        some { c with locals := setLocal c.locals t (.pushNew v), pushes := c.pushes ++ [v] }
      else none
  | .pop t =>
      if (c.locals t).isIdle then some { c with locals := setLocal c.locals t .popInc }
      else none
  | .step t =>
      (step c.shared (c.locals t)).map fun r =>
        { shared := r.1
          locals := setLocal c.locals t r.2
          pushes := c.pushes
          pops := logPop (c.locals t) c.pops }

/-- A schedule, run from left to right. -/
def run {T : Type} [Inhabited T] : Config T → List (Action T) → Option (Config T)
  | c, [] => some c
  | c, a :: as => (exec c a).bind fun c1 => run c1 as

/-- The stack after construction, with `head` and `toBeDeleted` null (the value-initialisation
of `std::atomic` since C++20) and no thread inside a call. -/
def init {T : Type} : Config T :=
  { shared := { heap := Heap.empty, head := none, poppingThreads := 0, toBeDeleted := none }
    locals := fun _ => .idle
    pushes := []
    pops := [] }

/-- Thread `t` runs alone until it is idle again, for at most `fuel` steps. -/
def runAlone {T : Type} [Inhabited T] (t : Nat) : Nat → Config T → Option (Config T)
  | 0, c => if (c.locals t).isIdle then some c else none
  | fuel + 1, c =>
      if (c.locals t).isIdle then some c
      else (exec c (.step t)).bind fun c1 => runAlone t fuel c1

/-- An uncontended `push(v)` by thread `t`: the call and all its steps with no step of another
thread in between. -/
def pushAlone {T : Type} [Inhabited T] (t : Nat) (v : T) (fuel : Nat) (c : Config T) :
    Option (Config T) :=
  (exec c (.push t v)).bind fun c1 => runAlone t fuel c1

/-- An uncontended `pop()` by thread `t`. -/
def popAlone {T : Type} [Inhabited T] (t : Nat) (fuel : Nat) (c : Config T) :
    Option (Config T) :=
  (exec c (.pop t)).bind fun c1 => runAlone t fuel c1

/-- Thread `t` calls `push(v)` for every `v` of the list, in order, each call uncontended. -/
def pushAll {T : Type} [Inhabited T] (t fuel : Nat) : Config T → List T → Option (Config T)
  | c, [] => some c
  | c, v :: vs => (pushAlone t v fuel c).bind fun c1 => pushAll t fuel c1 vs

/-- Thread `t` calls `pop()` `n` times, each call uncontended. -/
def popTimes {T : Type} [Inhabited T] (t fuel : Nat) : Nat → Config T → Option (Config T)
  | 0, c => some c
  | n + 1, c => (popAlone t fuel c).bind fun c1 => popTimes t fuel n c1

/-- The value a call of `pop` returns when its local `ret` holds `ret`. Line 60 is
`return res`: the function declares `ret` and no `res`, so the name stands for whatever the
program around the class binds it to, here the parameter `res`, and `ret` is not used. -/
def popResult {T : Type} (res : T) (_ret : T) : T := res

/-- The chain that starts at `p` holds the values `vs`, the first one on top. -/
def holds {T : Type} (h : Heap (StackNode T)) (p : Ptr) (vs : List T) : Prop :=
  ∃ l, Linked StackNode.next h p l ∧ l.map (fun e => e.2.data) = vs

/-- The values the pops that returned have returned, oldest first. -/
def Config.returned {T : Type} (res : T) (c : Config T) : List T := c.pops.map (popResult res)

/-- No thread is inside `push` or `pop`. -/
def Config.quiescent {T : Type} (c : Config T) : Prop := ∀ t, (c.locals t).isIdle = true

/-- The state between two calls of a thread that uses the stack alone: the thread is idle, no
popper is registered, the limbo list is empty and the chain from `head` is `l`. -/
def Sequential {T : Type} (c : Config T) (t : Nat) (l : List (Nat × StackNode T)) : Prop :=
  c.locals t = .idle ∧ c.shared.poppingThreads = 0 ∧ c.shared.toBeDeleted = none ∧
    Linked StackNode.next c.shared.heap c.shared.head l

/-- The balance of the counter: it is the number of registered threads, modulo the width of
`size_t`. -/
def Balanced {T : Type} (c : Config T) (ts : List Nat) : Prop :=
  c.shared.poppingThreads = (ts.countP fun t => (c.locals t).registered) % sizeMax

/-- The next `n` steps of thread `t`. -/
def steps (t n : Nat) : List (Action Nat) := List.replicate n (.step t)

/-- A whole call `push(v)` by thread `t`: the call and its three steps. -/
def pushCall (t v : Nat) : List (Action Nat) := .push t v :: steps t 3

/-- Thread `t` enters `pop` and increments `poppingThreads`. -/
def popEnter (t : Nat) : List (Action Nat) := [.pop t, .step t]

/-- Thread `t`, past the increment, unlinks the top node and computes `ret`: the load of
`head`, the loop test, the exchange and line 55. -/
def popUnlink (t : Nat) : List (Action Nat) := steps t 4

/-- A schedule of three pushes and two overlapping pops, up to the last step but three.
Thread 0 pushes 1, 2, 3 into the cells 0, 1, 2. Threads 1 and 2 enter `pop`; thread 2 unlinks
cell 2 and thread 1 unlinks cell 1, so `head` is cell 0. Thread 1 sees the counter at 2 and
runs `chainPendingNodes` on cell 1, whose `next` is still cell 0: the walk ends on cell 0 and
`toBeDeleted` becomes cell 1, followed by cell 0. Thread 1 returns. Thread 2 sees the counter
at 1, deletes cell 2, claims the list, decrements to 0, deletes cell 1 and reads the `next` of
cell 0. -/
def liveFreePrefix : List (Action Nat) :=
  pushCall 0 1 ++ pushCall 0 2 ++ pushCall 0 3 ++ popEnter 1 ++ popEnter 2 ++
    popUnlink 2 ++ popUnlink 1 ++ steps 1 8 ++ steps 2 7

/-- The schedule to its end: thread 2 deletes cell 0, leaves the loop and returns. -/
def liveFreeSchedule : List (Action Nat) := liveFreePrefix ++ steps 2 3

/-- The schedule `liveFreePrefix`, then thread 3 enters `pop`, unlinks cell 0 and sees the
counter at 1; thread 2 deletes cell 0, and thread 3 deletes it again at line 71. -/
def doubleFreeSchedule : List (Action Nat) :=
  liveFreePrefix ++ popEnter 3 ++ popUnlink 3 ++ steps 3 1 ++ steps 2 1 ++ steps 3 1

/-- Thread 0 pushes 1, 2, 3 into the cells 0, 1, 2; thread 1 enters `pop`, increments the
counter and stops; thread 2 enters `pop` and unlinks cell 2 (value 3), so `head` is cell 1
and thread 2 is at the call `reclaim(oldHead)` with the counter at 2. -/
def deferStart : List (Action Nat) :=
  pushCall 0 1 ++ pushCall 0 2 ++ pushCall 0 3 ++ popEnter 1 ++ popEnter 2 ++ popUnlink 2

/-- The schedule `deferStart`, then thread 2 runs `reclaim` to its end, alone: the check of
line 68, the walk of `chainPendingNodes` over the cells 2, 1, 0, lines 117 and 123, and the
decrement of line 102. -/
def deferOnce : List (Action Nat) := deferStart ++ steps 2 9

/-- The schedule `deferOnce`, then thread 2 returns, enters `pop` again and unlinks cell 1
(value 2), so `head` is cell 0 and thread 2 is at the call `reclaim(oldHead)` with the counter
at 2. -/
def deferAgain : List (Action Nat) := deferOnce ++ steps 2 1 ++ popEnter 2 ++ popUnlink 2

/-- The schedule `deferAgain`, then thread 2 runs `reclaim` to its end, alone: the walk goes
over the cells 1 and 0, and line 117 sets the `next` of cell 0 to `toBeDeleted`, cell 2. -/
def deferTwice : List (Action Nat) := deferAgain ++ steps 2 7

/-- The schedule `deferTwice`, in which no cell is deleted, then thread 2 returns, enters
`pop` a third time, increments the counter to 2 and unlinks cell 0 (value 1), whose `next` is
cell 2 since the second pop; it sees the counter at 2 and is at the first loop test of
`chainPendingNodes(node)` with `node` and `last` on cell 0. -/
def deferThird : List (Action Nat) :=
  deferTwice ++ steps 2 1 ++ popEnter 2 ++ popUnlink 2 ++ steps 2 1

/-- Thread 0 pushes 1, 2, 3 into the cells 0, 1, 2; threads 1 and 2 enter `pop`; thread 1
unlinks cell 2, sees the counter at 2, chains cell 2 (the walk goes on over the cells 1 and 0)
and returns; thread 2 unlinks cell 1 and is at the call `reclaim(oldHead)` with the counter at
1, no other thread inside `pop`, and the limbo list made of the cells 2, 1, 0. -/
def soleStart : List (Action Nat) :=
  pushCall 0 1 ++ pushCall 0 2 ++ pushCall 0 3 ++ popEnter 1 ++ popEnter 2 ++
    popUnlink 1 ++ steps 1 10 ++ popUnlink 2

/-- The schedule `soleStart`, then thread 2 runs `reclaim` alone: it sees the counter at 1,
deletes cell 1, claims the list, decrements to 0, and deletes cell 2 in the loop; `delNodes`
is then cell 1. -/
def soleSchedule : List (Action Nat) := soleStart ++ steps 2 6

/-- Two threads enter `pop` on the empty stack after construction; thread 1 finds `head` null
and calls `reclaim(nullptr)`; the counter is 2, so it calls `chainPendingNodes(nullptr)`. -/
def nullDeferred : List (Action Nat) := popEnter 1 ++ popEnter 2 ++ steps 1 4

/-- Thread 1 enters `pop` on the empty stack after construction, finds `head` null, sees the
counter at 1 and runs `delete nullptr`; thread 2 enters `pop`; thread 1 claims the empty limbo
list and decrements the counter to 1, so it calls `chainPendingNodes(nullptr)`. -/
def nullReattach : List (Action Nat) := popEnter 1 ++ steps 1 5 ++ popEnter 2 ++ steps 1 2

/-- The action is a call of `push`. -/
def Action.isPush {T : Type} : Action T → Bool
  | .push _ _ => true
  | _ => false

/-- The action is a call of `pop`. -/
def Action.isPop {T : Type} : Action T → Bool
  | .pop _ => true
  | _ => false

/-- The threads a schedule lets act. -/
def actors {T : Type} : List (Action T) → List Nat
  | [] => []
  | .push t _ :: as => t :: actors as
  | .pop t :: as => t :: actors as
  | .step t :: as => t :: actors as

/-- A schedule of two pushes and two overlapping pops that ends with no thread inside a call.
Thread 0 pushes 1; threads 1 and 2 enter `pop`; thread 1 unlinks cell 0; thread 0 pushes 2;
thread 2 unlinks cell 1. Both see the counter at 2, both chain their node to `toBeDeleted`,
both decrement and return. -/
def leakSchedule : List (Action Nat) :=
  pushCall 0 1 ++ popEnter 1 ++ popEnter 2 ++ popUnlink 1 ++ pushCall 0 2 ++ popUnlink 2 ++
    steps 1 1 ++ steps 2 1 ++ steps 1 5 ++ steps 2 5

/-- A schedule of four pushes and four pops in which no step faults. Thread 0 pushes 1;
threads 1 and 2 enter `pop`; thread 1 unlinks cell 0 (value 1); thread 0 pushes 2 and 3;
thread 2 unlinks cell 2 (value 3), so `head` is cell 1. Both see the counter at 2. Thread 1
chains cell 0, thread 2 runs `chainPendingNodes` on cell 2, whose `next` is still cell 1: the
walk ends on the live cell 1 and sets its `next` to `toBeDeleted`, which is cell 0. Both
return. Threads 3 and 4 enter `pop`; thread 3 unlinks cell 1 (value 2), thread 4 unlinks
cell 0 (value 1) a second time, chains it and returns. Thread 0 pushes 4. -/
def duplicateSchedule : List (Action Nat) :=
  pushCall 0 1 ++ popEnter 1 ++ popEnter 2 ++ popUnlink 1 ++ pushCall 0 2 ++ pushCall 0 3 ++
    popUnlink 2 ++ steps 1 1 ++ steps 2 1 ++ steps 1 5 ++ steps 2 7 ++
    popEnter 3 ++ popEnter 4 ++ popUnlink 3 ++ popUnlink 4 ++ steps 4 6 ++ pushCall 0 4

end LockFreeStack


/-! ## LockFreeStackMemLeak.h -/

namespace LockFreeStackMemLeak

open Mem

/-- The struct `StackNode` (lines 55-61). -/
structure StackNode (T : Type) where
  data : T
  next : Ptr
  deriving DecidableEq

/-- The shared field of the class (line 63) and the free store. -/
structure Shared (T : Type) where
  heap : Heap (StackNode T)
  head : Ptr

/-- Where a thread stands, with its local variables. -/
inductive Local (T : Type) where
  /-- outside `push` and `pop` -/
  | idle
  /-- line 24: `new StackNode(data)` -/
  | pushNew (data : T)
  /-- line 27: `newNode->next = head.load()` -/
  | pushLoad (newNode : Nat)
  /-- line 32: `head.compare_exchange_weak(newNode->next, newNode)` -/
  | pushCas (newNode : Nat)
  /-- line 38: `oldHead = head.load()` -/
  | popLoad
  /-- line 44: the test `oldHead &&` and the evaluation of the argument `oldHead->next` -/
  | popTest (oldHead : Ptr)
  /-- line 44: `head.compare_exchange_weak(oldHead, next)` -/
  | popCas (oldHead : Nat) (next : Ptr)
  /-- line 51: `return (oldHead ? oldHead->data : T())` -/
  | popReturn (oldHead : Ptr)
  deriving DecidableEq

/-- The thread is outside `push` and `pop`. -/
def Local.isIdle {T : Type} : Local T → Bool
  | .idle => true
  | _ => false

/-- One step of one thread: the shared state and the program point after it, and the value
returned when the step is the `return` of `pop`. `none` is a fault. `compare_exchange_weak` is
taken without spurious failures, as for `LockFreeStack`. -/
def step {T : Type} [Inhabited T] (s : Shared T) :
    Local T → Option (Shared T × Local T × Option T)
  | .idle => none
  | .pushNew data =>
      let r := s.heap.alloc ⟨data, none⟩
      some ({ s with heap := r.2 }, .pushLoad r.1, none)
  | .pushLoad newNode =>
      (s.heap.read newNode).bind fun n =>
      (s.heap.write newNode { n with next := s.head }).map fun h =>
        ({ s with heap := h }, .pushCas newNode, none)
  | .pushCas newNode =>
      (s.heap.read newNode).bind fun n =>
        if s.head = n.next then some ({ s with head := some newNode }, .idle, none)
        else (s.heap.write newNode { n with next := s.head }).map fun h =>
          ({ s with heap := h }, .pushCas newNode, none)
  | .popLoad => some (s, .popTest s.head, none)
  | .popTest none => some (s, .popReturn none, none)
  | .popTest (some a) => (s.heap.read a).map fun n => (s, .popCas a n.next, none)
  | .popCas a next =>
      if s.head = some a then some ({ s with head := next }, .popReturn (some a), none)
      else some (s, .popTest s.head, none)
  | .popReturn none => some (s, .idle, some default)
  | .popReturn (some a) => (s.heap.read a).map fun n => (s, .idle, some n.data)

/-- The whole system: the shared state, the local state of every thread, and the log of the
values returned by `pop`, in the order of the returns. -/
structure Config (T : Type) where
  shared : Shared T
  locals : Nat → Local T
  returns : List T

/-- Thread `t` moves to `l`. -/
def setLocal {T : Type} (f : Nat → Local T) (t : Nat) (l : Local T) : Nat → Local T :=
  fun u => if u = t then l else f u

/-- The log of returned values after a step that returned `r`. -/
def logReturn {T : Type} (r : Option T) (returns : List T) : List T :=
  match r with
  | some v => returns ++ [v]
  | none => returns

/-- Thread `t` calls `push(v)`; `none` when it is inside a call. -/
def callPush {T : Type} (c : Config T) (t : Nat) (v : T) : Option (Config T) :=
  if (c.locals t).isIdle then some { c with locals := setLocal c.locals t (.pushNew v) }
  else none

/-- Thread `t` calls `pop()`; `none` when it is inside a call. -/
def callPop {T : Type} (c : Config T) (t : Nat) : Option (Config T) :=
  if (c.locals t).isIdle then some { c with locals := setLocal c.locals t .popLoad }
  else none

/-- Thread `t` takes its next step; `none` when the step faults. -/
def stepThread {T : Type} [Inhabited T] (c : Config T) (t : Nat) : Option (Config T) :=
  (step c.shared (c.locals t)).map fun r =>
    { shared := r.1
      locals := setLocal c.locals t r.2.1
      returns := logReturn r.2.2 c.returns }

/-- The stack after construction, with `head` null and no thread inside a call. -/
def init {T : Type} : Config T :=
  { shared := { heap := Heap.empty, head := none }
    locals := fun _ => .idle
    returns := [] }

/-- Thread `t` runs alone until it is idle again, for at most `fuel` steps. -/
def runAlone {T : Type} [Inhabited T] (t : Nat) : Nat → Config T → Option (Config T)
  | 0, c => if (c.locals t).isIdle then some c else none
  | fuel + 1, c =>
      if (c.locals t).isIdle then some c
      else (stepThread c t).bind fun c1 => runAlone t fuel c1

/-- An uncontended `push(v)` by thread `t`. -/
def pushAlone {T : Type} [Inhabited T] (t : Nat) (v : T) (fuel : Nat) (c : Config T) :
    Option (Config T) :=
  (callPush c t v).bind fun c1 => runAlone t fuel c1

/-- An uncontended `pop()` by thread `t`. -/
def popAlone {T : Type} [Inhabited T] (t : Nat) (fuel : Nat) (c : Config T) :
    Option (Config T) :=
  (callPop c t).bind fun c1 => runAlone t fuel c1

/-- The state between two calls of a thread that uses the stack alone: the thread is idle and
the chain from `head` is `l`. -/
def Sequential {T : Type} (c : Config T) (t : Nat) (l : List (Nat × StackNode T)) : Prop :=
  c.locals t = .idle ∧ Linked StackNode.next c.shared.heap c.shared.head l

end LockFreeStackMemLeak

/-! ## The two stacks in sequential use -/

/-- An operation of a stack: `push(v)` or `pop()`. -/
inductive StackOp (T : Type) where
  | push (v : T)
  | pop

namespace StackOp

/-- A stack as a list, the top first: the stack after a sequence of operations and the values
the pops deliver, `T()` for a `pop` of the empty stack. -/
def eval {T : Type} [Inhabited T] : List T → List (StackOp T) → List T × List T
  | st, [] => (st, [])
  | st, .push v :: ops => eval (v :: st) ops
  | [], .pop :: ops => ((eval [] ops).1, default :: (eval [] ops).2)
  | v :: st, .pop :: ops => ((eval st ops).1, v :: (eval st ops).2)

end StackOp

namespace LockFreeStack

/-- Thread `t` runs a sequence of operations on the `LockFreeStack`, each call uncontended. -/
def runOps {T : Type} [Inhabited T] (t fuel : Nat) :
    Config T → List (StackOp T) → Option (Config T)
  | c, [] => some c
  | c, .push v :: ops => (pushAlone t v fuel c).bind fun c1 => runOps t fuel c1 ops
  | c, .pop :: ops => (popAlone t fuel c).bind fun c1 => runOps t fuel c1 ops

end LockFreeStack

namespace LockFreeStackMemLeak

/-- Thread `t` runs a sequence of operations on the `LockFreeStackMemLeak`, each call
uncontended. -/
def runOps {T : Type} [Inhabited T] (t fuel : Nat) :
    Config T → List (StackOp T) → Option (Config T)
  | c, [] => some c
  | c, .push v :: ops => (pushAlone t v fuel c).bind fun c1 => runOps t fuel c1 ops
  | c, .pop :: ops => (popAlone t fuel c).bind fun c1 => runOps t fuel c1 ops

end LockFreeStackMemLeak

/-! ## ThreadSafeQueue.h -/

/-- The class `ThreadSafeQueue` in sequential use: the member `mDataQueue`, a `std::queue`
whose front is the head of the list. The mutex `mLock` is free whenever a call starts and is
released when it returns, and `notify_one` has no waiter to wake, so neither has a field. -/
structure ThreadSafeQueue (T : Type) where
  mDataQueue : List T

namespace ThreadSafeQueue

/-- The constructor (line 25). -/
def new {T : Type} : ThreadSafeQueue T := ⟨[]⟩

/-- The method `tryPop` (lines 27-34): the returned flag, the reference argument `value` after
the call, and the queue after the call. -/
def tryPop {T : Type} (q : ThreadSafeQueue T) (value : T) : Bool × T × ThreadSafeQueue T :=
  match q.mDataQueue with
  | [] => (false, value, q)
  | front :: rest => (true, front, ⟨rest⟩)

/-- The method `waitAndPop` (lines 36-42): the reference argument after the call and the queue
after it; `none` when the queue is empty, where a single thread waits forever. -/
def waitAndPop {T : Type} (q : ThreadSafeQueue T) (_value : T) : Option (T × ThreadSafeQueue T) :=
  match q.mDataQueue with
  | [] => none
  | front :: rest => some (front, ⟨rest⟩)

/-- The method `push` (lines 44-49). -/
def push {T : Type} (q : ThreadSafeQueue T) (val : T) : ThreadSafeQueue T :=
  ⟨q.mDataQueue ++ [val]⟩

/-- The method `empty` (lines 51-55). -/
def empty {T : Type} (q : ThreadSafeQueue T) : Bool := q.mDataQueue.isEmpty

/-- A call of `push` or of `tryPop`, the latter with the value its argument holds. -/
inductive Call (T : Type) where
  | push (val : T)
  | tryPop (value : T)

/-- The queue after a sequence of calls, and how many of the `tryPop` calls returned true. -/
def runCalls {T : Type} : ThreadSafeQueue T → List (Call T) → ThreadSafeQueue T × Nat
  | q, [] => (q, 0)
  | q, .push v :: cs => runCalls (q.push v) cs
  | q, .tryPop x :: cs =>
      let r := q.tryPop x
      let rest := runCalls r.2.2 cs
      (rest.1, (if r.1 then 1 else 0) + rest.2)

/-- The values pushed by a sequence of calls, oldest first. -/
def pushed {T : Type} : List (Call T) → List T
  | [] => []
  | .push v :: cs => v :: pushed cs
  | .tryPop _ :: cs => pushed cs

end ThreadSafeQueue

/-! ## ThreadSafeQueueFineGrained.h -/

namespace ThreadSafeQueueFineGrained

open Mem

/-- The struct `Node` (lines 67-73). -/
structure Node (T : Type) where
  data : T
  next : Ptr
  deriving DecidableEq

end ThreadSafeQueueFineGrained

/-- The class `ThreadSafeQueueFineGrained` in sequential use: the members `head` and `tail`
and the free store. The two mutexes are free whenever a call starts and are released when it
returns, so they have no field. -/
structure ThreadSafeQueueFineGrained (T : Type) where
  heap : Mem.Heap (ThreadSafeQueueFineGrained.Node T)
  head : Mem.Ptr
  tail : Mem.Ptr

namespace ThreadSafeQueueFineGrained

open Mem

/-- The constructor (line 29): `head(new Node(T())), tail(head)`. -/
def new {T : Type} [Inhabited T] : ThreadSafeQueueFineGrained T :=
  let r := (Heap.empty : Heap (Node T)).alloc ⟨default, none⟩
  { heap := r.2, head := some r.1, tail := some r.1 }

/-- The method `getTail` (lines 75-79). -/
def getTail {T : Type} (q : ThreadSafeQueueFineGrained T) : Ptr := q.tail

/-- The method `push` (lines 32-40); `none` is a fault (an access through `nullptr` or to a
deleted node). -/
def push {T : Type} [Inhabited T] (q : ThreadSafeQueueFineGrained T) (newVal : T) :
    Option (ThreadSafeQueueFineGrained T) :=
  let r := q.heap.alloc ⟨default, none⟩
  let newTail := r.1
  match q.tail with
  | none => none
  | some t =>
      (r.2.read t).bind fun n1 =>
      (r.2.write t { n1 with data := newVal }).bind fun h1 =>
      (h1.read t).bind fun n2 =>
      (h1.write t { n2 with next := some newTail }).map fun h2 =>
        { heap := h2, head := q.head, tail := some newTail }

/-- The method `tryPop` (lines 42-64): the returned flag, the reference argument `value` after
the call, and the queue after the call; `none` is a fault. -/
def tryPop {T : Type} (q : ThreadSafeQueueFineGrained T) (value : T) :
    Option (Bool × T × ThreadSafeQueueFineGrained T) :=
  if q.head = q.getTail then some (false, value, q)
  else
    match q.head with
    | none => none
    | some temp =>
        (q.heap.read temp).bind fun n =>
        let q1 : ThreadSafeQueueFineGrained T := { q with head := n.next }
        (q1.heap.read temp).map fun m =>
          (true, m.data, { q1 with heap := q1.heap.delete (some temp) })

/-- The calls `push(v1)`, ..., `push(vn)` in this order. -/
def pushAll {T : Type} [Inhabited T] :
    ThreadSafeQueueFineGrained T → List T → Option (ThreadSafeQueueFineGrained T)
  | q, [] => some q
  | q, v :: vs => (q.push v).bind fun q1 => pushAll q1 vs

/-- One call of `tryPop` for every element of `args`, the element being the value the
argument holds before the call: the flags and arguments after the calls, and the queue. -/
def tryPops {T : Type} :
    ThreadSafeQueueFineGrained T → List T →
      Option (List (Bool × T) × ThreadSafeQueueFineGrained T)
  | q, [] => some ([], q)
  | q, x :: xs =>
      (q.tryPop x).bind fun r =>
      (tryPops r.2.2 xs).map fun rest => ((r.1, r.2.1) :: rest.1, rest.2)

/-- A call of `push` or of `tryPop`, the latter with the value its argument holds. -/
inductive Call (T : Type) where
  | push (newVal : T)
  | tryPop (value : T)

/-- The queue after a sequence of calls, and how many of the `tryPop` calls returned true;
`none` when a call faults. -/
def runCalls {T : Type} [Inhabited T] :
    ThreadSafeQueueFineGrained T → List (Call T) → Option (ThreadSafeQueueFineGrained T × Nat)
  | q, [] => some (q, 0)
  | q, .push v :: cs => (q.push v).bind fun q1 => runCalls q1 cs
  | q, .tryPop x :: cs =>
      (q.tryPop x).bind fun r =>
      (runCalls r.2.2 cs).map fun rest => (rest.1, (if r.1 then 1 else 0) + rest.2)

/-- The values pushed by a sequence of calls, oldest first. -/
def pushed {T : Type} : List (Call T) → List T
  | [] => []
  | .push v :: cs => v :: pushed cs
  | .tryPop _ :: cs => pushed cs

/-- The queue holds the values `vs`, oldest first: the chain from `head` carries them in its
nodes and ends with the node `tail` points to. -/
def holds {T : Type} (q : ThreadSafeQueueFineGrained T) (vs : List T) : Prop :=
  ∃ l t d, Linked Node.next q.heap q.head (l ++ [(t, d)]) ∧ q.tail = some t ∧
    l.map (fun e => e.2.data) = vs

end ThreadSafeQueueFineGrained

/-! ## UnionFind.h -/

namespace UnionFind

/-- A `std::unordered_map`: its entries, at most one for a key. The order of the entries is
not observable through the members used by the class. -/
abbrev UMap (K V : Type) := List (K × V)

/-- The member `find` of the map: the value stored under `k`, `none` standing for `end()`. -/
def UMap.find {K V : Type} [DecidableEq K] (m : UMap K V) (k : K) : Option V :=
  match m with
  | [] => none
  | e :: rest => if e.1 = k then some e.2 else UMap.find rest k

/-- The member `insert` of the map: no effect when the key is present. -/
def UMap.insert {K V : Type} [DecidableEq K] (m : UMap K V) (k : K) (v : V) : UMap K V :=
  match m.find k with
  | some _ => m
  | none => (k, v) :: m

/-- The expression `m[k]` read: the value under `k` and the map afterwards, which has gained
the entry `(k, V())` when the key was absent. -/
def UMap.index {K V : Type} [DecidableEq K] [Inhabited V] (m : UMap K V) (k : K) : V × UMap K V :=
  match m.find k with
  | some v => (v, m)
  | none => (default, (k, default) :: m)

/-- The statement `m[k] = v`. -/
def UMap.assign {K V : Type} [DecidableEq K] (m : UMap K V) (k : K) (v : V) : UMap K V :=
  (k, v) :: m.filter fun e => decide (e.1 ≠ k)

end UnionFind

/-- The class `UnionFind` (lines 92-94). The sizes are of type `int`; they are taken in the
integers, the sum of two sizes staying below `2 ^ 31` for every map that fits in memory. -/
structure UnionFind (T : Type) where
  rootMap : UnionFind.UMap T T
  sizeMap : UnionFind.UMap T Int

namespace UnionFind

/-- The default constructor (lines 25-28). -/
def new {T : Type} : UnionFind T := ⟨[], []⟩

/-- The method `insert` (lines 39-43). -/
def insert {T : Type} [DecidableEq T] (u : UnionFind T) (element : T) : UnionFind T :=
  { rootMap := u.rootMap.insert element element
    sizeMap := u.sizeMap.insert element 1 }

/-- The constructor from a vector (lines 30-37). -/
def ofVector {T : Type} [DecidableEq T] (elements : List T) : UnionFind T :=
  elements.foldl insert new

/-- The loop of `find` (lines 51-54), for at most `fuel` evaluations of its test; `none` when
the fuel runs out. Both `rootMap[root]` of an iteration are evaluated, each one inserting a
default entry when `root` is not a key. -/
def findLoop {T : Type} [DecidableEq T] [Inhabited T] :
    Nat → UMap T T → T → Option (T × UMap T T)
  | 0, _, _ => none
  | fuel + 1, m, root =>
      let test := m.index root
      if test.1 ≠ root then
        let body := test.2.index root
        findLoop fuel body.2 body.1
      else some (root, test.2)

/-- The method `find` (lines 45-58): the returned root and the structure afterwards. -/
def find {T : Type} [DecidableEq T] [Inhabited T] (fuel : Nat) (u : UnionFind T) (element : T) :
    Option (T × UnionFind T) :=
  match u.rootMap.find element with
  | some _ => (findLoop fuel u.rootMap element).map fun r => (r.1, { u with rootMap := r.2 })
  | none => some (element, u)

/-- The body of `unionize` after the two calls of `find` (lines 65-81), `root1` and `root2`
being what they returned. -/
def link {T : Type} [DecidableEq T] (u : UnionFind T) (root1 root2 : T) : UnionFind T :=
  if root1 = root2 then u
  else
    let s1 := u.sizeMap.index root1
    let s2 := s1.2.index root2
    if s1.1 ≥ s2.1 then
      let rm := u.rootMap.assign root2 root1
      let a := s2.2.index root2
      let b := a.2.index root1
      { rootMap := rm, sizeMap := b.2.assign root1 (b.1 + a.1) }
    else
      let rm := u.rootMap.assign root1 root2
      let a := s2.2.index root1
      let b := a.2.index root2
      { rootMap := rm, sizeMap := b.2.assign root2 (b.1 + a.1) }

/-- The method `unionize` (lines 60-82). -/
def unionize {T : Type} [DecidableEq T] [Inhabited T] (fuel : Nat) (u : UnionFind T)
    (element1 element2 : T) : Option (UnionFind T) :=
  (find fuel u element1).bind fun f1 =>
  (find fuel f1.2 element2).map fun f2 => link f2.2 f1.1 f2.1

/-- The value `find` returns, without the structure. -/
def findRoot {T : Type} [DecidableEq T] [Inhabited T] (fuel : Nat) (u : UnionFind T)
    (element : T) : Option T :=
  (find fuel u element).map Prod.fst

/-- A call of `insert` or of `unionize`. -/
inductive Call (T : Type) where
  | insert (element : T)
  | unionize (element1 element2 : T)

/-- The structure after a sequence of calls, each `find` running on `fuel`. -/
def runCalls {T : Type} [DecidableEq T] [Inhabited T] (fuel : Nat) :
    UnionFind T → List (Call T) → Option (UnionFind T)
  | u, [] => some u
  | u, .insert x :: cs => runCalls fuel (u.insert x) cs
  | u, .unionize a b :: cs => (unionize fuel u a b).bind fun u1 => runCalls fuel u1 cs

/-- The elements a sequence of calls has passed to `insert`. -/
def inserted {T : Type} : List (Call T) → List T
  | [] => []
  | .insert x :: cs => x :: inserted cs
  | .unionize _ _ :: cs => inserted cs

/-- Every `unionize` of the sequence is called on two elements that were passed to `insert`
before it; `seen` are the elements inserted before the sequence starts. -/
def onInserted {T : Type} [DecidableEq T] : List T → List (Call T) → Bool
  | _, [] => true
  | seen, .insert x :: cs => onInserted (x :: seen) cs
  | seen, .unionize a b :: cs => decide (a ∈ seen) && decide (b ∈ seen) && onInserted seen cs

/-- The chain of parents that starts at `k` in the map ends at `r`, which is its own
parent. -/
inductive RootOf {T : Type} [DecidableEq T] (m : UMap T T) : T → T → Prop where
  | root (r : T) : m.find r = some r → RootOf m r r
  | step (k p r : T) : m.find k = some p → p ≠ k → RootOf m p r → RootOf m k r

/-- Every key of the map has a chain of parents that ends at a root. -/
def Forest {T : Type} [DecidableEq T] (m : UMap T T) : Prop :=
  ∀ k p, m.find k = some p → ∃ r, RootOf m k r

/-- The invariant of the structure under calls on inserted elements: the parent map has one
entry for a key and is a forest, the two maps have the same keys, and the size stored for a
root is the number of keys whose chain of parents ends at it, `ρ` giving the root of a key. -/
def Sized {T : Type} [DecidableEq T] (u : UnionFind T) : Prop :=
  (u.rootMap.map Prod.fst).Nodup ∧ Forest u.rootMap ∧
  (∀ x, (∃ p, u.rootMap.find x = some p) ↔ ∃ s, u.sizeMap.find x = some s) ∧
  ∃ ρ : T → T, (∀ k p, u.rootMap.find k = some p → RootOf u.rootMap k (ρ k)) ∧
    ∀ r, u.rootMap.find r = some r →
      u.sizeMap.find r =
        some (((u.rootMap.map Prod.fst).countP fun k => decide (ρ k = r) : Nat) : Int)

/-- The calls `unionize(9, 0)`, `insert(0)`, `insert(5)`. -/
def strayCalls : List (Call Nat) := [.unionize 9 0, .insert 0, .insert 5]

end UnionFind

/-! # Lemmas and theorems -/

/-! ## The free store -/

namespace Mem

theorem Heap.read_eq_some {N : Type} {h : Heap N} {a : Nat} {n : N} :
    h.read a = some n ↔ h.cells[a]? = some ⟨n, 0⟩ := by
  unfold Heap.read
  cases hc : h.cells[a]? with
  | none => simp
  | some c =>
      obtain ⟨v, d⟩ := c
      by_cases hd : d = 0 <;> simp [hd]

theorem Heap.read_lt {N : Type} {h : Heap N} {a : Nat} {n : N} (hr : h.read a = some n) :
    a < h.cells.length := by
  rw [Heap.read_eq_some] at hr
  exact (List.getElem?_eq_some_iff.mp hr).1

theorem Heap.alloc_fst {N : Type} (h : Heap N) (n : N) : (h.alloc n).1 = h.cells.length := rfl

theorem Heap.delete_none {N : Type} (h : Heap N) : h.delete none = h := rfl

theorem Heap.read_alloc_new {N : Type} (h : Heap N) (n : N) :
    (h.alloc n).2.read h.cells.length = some n := by
  simp [Heap.read_eq_some, Heap.alloc]

theorem Heap.read_alloc_old {N : Type} {h : Heap N} {a : Nat} {m : N} (n : N)
    (hr : h.read a = some m) : (h.alloc n).2.read a = some m := by
  have hlt := Heap.read_lt hr
  rw [Heap.read_eq_some] at hr ⊢
  simp [Heap.alloc, List.getElem?_append_left hlt, hr]

theorem Heap.read_alloc_lt {N : Type} {h : Heap N} {a : Nat} (n : N)
    (hlt : a < h.cells.length) : (h.alloc n).2.read a = h.read a := by
  simp [Heap.read, Heap.alloc, List.getElem?_append_left hlt]
theorem Heap.write_alloc_new {N : Type} (h : Heap N) (n m : N) :
    (h.alloc n).2.write h.cells.length m = some (h.alloc m).2 := by
  simp [Heap.write, Heap.alloc]

theorem Heap.write_eq_some {N : Type} {h : Heap N} {a : Nat} {n : N} (m : N)
    (hr : h.read a = some n) : h.write a m = some ⟨h.cells.set a ⟨m, 0⟩⟩ := by
  rw [Heap.read_eq_some] at hr
  simp [Heap.write, hr]

theorem Heap.read_set_ne {N : Type} {h : Heap N} {a b : Nat} (c : Cell N) (hab : a ≠ b) :
    (Heap.mk (h.cells.set a c)).read b = h.read b := by
  simp [Heap.read, List.getElem?_set_ne hab]

theorem Heap.read_set_same {N : Type} {h : Heap N} {a : Nat} {n : N} (m : N)
    (hr : h.read a = some n) : (Heap.mk (h.cells.set a ⟨m, 0⟩)).read a = some m := by
  have hlt := Heap.read_lt hr
  simp [Heap.read_eq_some, List.getElem?_set_self hlt]

theorem Heap.delete_eq {N : Type} {h : Heap N} {a : Nat} {n : N} (hr : h.read a = some n) :
    h.delete (some a) = ⟨h.cells.set a ⟨n, 1⟩⟩ := by
  rw [Heap.read_eq_some] at hr
  simp [Heap.delete, hr]

theorem Heap.read_delete_ne {N : Type} {h : Heap N} {a b : Nat} (hab : a ≠ b) :
    (h.delete (some a)).read b = h.read b := by
  simp only [Heap.delete]
  cases hc : h.cells[a]? <;> simp [Heap.read, List.getElem?_set_ne hab]

theorem Heap.deletes_delete_ne {N : Type} {h : Heap N} {a b : Nat} (hab : a ≠ b) :
    (h.delete (some a)).deletes b = h.deletes b := by
  simp only [Heap.delete]
  cases hc : h.cells[a]? <;> simp [Heap.deletes, List.getElem?_set_ne hab]

theorem Heap.deletes_delete_same {N : Type} {h : Heap N} {a : Nat} {n : N}
    (hr : h.read a = some n) : (h.delete (some a)).deletes a = 1 := by
  have hlt := Heap.read_lt hr
  rw [Heap.delete_eq hr]
  simp [Heap.deletes, List.getElem?_set_self hlt]

theorem Heap.deletes_of_read {N : Type} {h : Heap N} {a : Nat} {n : N}
    (hr : h.read a = some n) : h.deletes a = 0 := by
  rw [Heap.read_eq_some] at hr
  simp [Heap.deletes, hr]

/-- A chain is determined by its first pointer. -/
theorem Linked.unique {N : Type} {next : N → Ptr} {h : Heap N} :
    ∀ {p : Ptr} {l1 l2 : List (Nat × N)}, Linked next h p l1 → Linked next h p l2 → l1 = l2
  | _, [], [], _, _ => rfl
  | _, [], _ :: _, h1, h2 => by
      simp only [Linked] at h1 h2
      rw [h1] at h2; exact absurd h2.1 (by simp)
  | _, _ :: _, [], h1, h2 => by
      simp only [Linked] at h1 h2
      rw [h2] at h1; exact absurd h1.1 (by simp)
  | _, e1 :: l1, e2 :: l2, h1, h2 => by
      simp only [Linked] at h1 h2
      obtain ⟨hp1, hr1, hc1⟩ := h1
      obtain ⟨hp2, hr2, hc2⟩ := h2
      have ha : e1.1 = e2.1 := by
        rw [hp1] at hp2; exact Option.some.inj hp2
      have hn : e1.2 = e2.2 := by
        rw [ha, hr2] at hr1; exact (Option.some.inj hr1).symm
      have he : e1 = e2 := Prod.ext ha hn
      subst he
      rw [Linked.unique hc1 hc2]

/-- The part of a chain from one of its cells on is the chain of that cell. -/
theorem Linked.suffix {N : Type} {next : N → Ptr} {h : Heap N} :
    ∀ {p : Ptr} {l : List (Nat × N)} {a : Nat}, Linked next h p l → a ∈ l.map Prod.fst →
      ∃ l1 l2, l = l1 ++ l2 ∧ l2 ≠ [] ∧ Linked next h (some a) l2
  | _, [], _, _, hm => by simp at hm
  | p, e :: l, a, hc, hm => by
      by_cases hae : a = e.1
      · refine ⟨[], e :: l, rfl, by simp, ?_⟩
        have hc2 := hc
        simp only [Linked] at hc2
        rw [hae, ← hc2.1]; exact hc
      · have hm2 : a ∈ l.map Prod.fst := by
          simp only [List.map_cons, List.mem_cons] at hm
          rcases hm with hm | hm
          · exact absurd hm hae
          · exact hm
        simp only [Linked] at hc
        obtain ⟨l1, l2, hl, hne, hc2⟩ := Linked.suffix hc.2.2 hm2
        exact ⟨e :: l1, l2, by simp [hl], hne, hc2⟩

/-- A chain that ends in `nullptr` does not come back to its first cell. -/
theorem Linked.head_not_mem {N : Type} {next : N → Ptr} {h : Heap N} {p : Ptr}
    {e : Nat × N} {l : List (Nat × N)} (hc : Linked next h p (e :: l)) :
    e.1 ∉ l.map Prod.fst := by
  intro hm
  have hc2 := hc
  simp only [Linked] at hc2
  obtain ⟨l1, l2, hl, _, hs⟩ := Linked.suffix hc2.2.2 hm
  have hfull : Linked next h (some e.1) (e :: l) := by rw [← hc2.1]; exact hc
  have heq := Linked.unique hs hfull
  have hlen : l.length = l1.length + l2.length := by rw [hl, List.length_append]
  rw [heq] at hlen
  simp at hlen
  omega

/-- A chain is not affected by a change of the store that keeps its cells readable. -/
theorem Linked.frame {N : Type} {next : N → Ptr} {h1 h2 : Heap N} :
    ∀ {p : Ptr} {l : List (Nat × N)}, Linked next h1 p l →
      (∀ a ∈ l.map Prod.fst, h2.read a = h1.read a) → Linked next h2 p l
  | _, [], hc, _ => hc
  | _, e :: l, hc, hf => by
      simp only [Linked] at hc ⊢
      refine ⟨hc.1, ?_, Linked.frame hc.2.2 fun a ha => hf a (by simp [ha])⟩
      rw [hf e.1 (by simp)]; exact hc.2.1

/-- The cells of a chain are allocated. -/
theorem Linked.lt_length {N : Type} {next : N → Ptr} {h : Heap N} :
    ∀ {p : Ptr} {l : List (Nat × N)}, Linked next h p l →
      ∀ a ∈ l.map Prod.fst, a < h.cells.length
  | _, [], _, a, ha => by simp at ha
  | _, e :: l, hc, a, ha => by
      simp only [Linked] at hc
      simp only [List.map_cons, List.mem_cons] at ha
      rcases ha with ha | ha
      · rw [ha]; exact Heap.read_lt hc.2.1
      · exact Linked.lt_length hc.2.2 a ha

theorem Heap.length_delete {N : Type} (h : Heap N) (p : Ptr) :
    (h.delete p).cells.length = h.cells.length := by
  cases p with
  | none => rfl
  | some a =>
      simp only [Heap.delete]
      cases h.cells[a]? <;> simp

theorem Heap.cells_delete_ne {N : Type} {h : Heap N} {a b : Nat} (hab : a ≠ b) :
    (h.delete (some a)).cells[b]? = h.cells[b]? := by
  simp only [Heap.delete]
  cases h.cells[a]? <;> simp [List.getElem?_set_ne hab]

theorem Heap.length_deleteAll {N : Type} :
    ∀ (l : List Nat) (h : Heap N), (h.deleteAll l).cells.length = h.cells.length
  | [], _ => rfl
  | a :: l, h => by
      rw [Heap.deleteAll, List.foldl_cons]
      exact (Heap.length_deleteAll l (h.delete (some a))).trans (Heap.length_delete h _)

theorem Heap.cells_deleteAll {N : Type} :
    ∀ (l : List Nat) (h : Heap N) (b : Nat), b ∉ l → (h.deleteAll l).cells[b]? = h.cells[b]?
  | [], _, _, _ => rfl
  | a :: l, h, b, hb => by
      rw [Heap.deleteAll, List.foldl_cons]
      have h1 : a ≠ b := fun e => hb (by simp [e])
      have h2 : b ∉ l := fun e => hb (by simp [e])
      exact (Heap.cells_deleteAll l (h.delete (some a)) b h2).trans (Heap.cells_delete_ne h1)

theorem Heap.deletes_congr {N : Type} {h1 h2 : Heap N} {a : Nat}
    (h : h1.cells[a]? = h2.cells[a]?) : h1.deletes a = h2.deletes a := by
  simp [Heap.deletes, h]

/-- Deleting the cells of a chain deletes each of them once. -/
theorem Linked.deletes_deleteAll {N : Type} {next : N → Ptr} :
    ∀ {l : List (Nat × N)} {h : Heap N} {p : Ptr}, Linked next h p l →
      ∀ a ∈ l.map Prod.fst, (h.deleteAll (l.map Prod.fst)).deletes a = 1
  | [], _, _, _, a, ha => by simp at ha
  | e :: l, h, p, hc, a, ha => by
      have hnot := Linked.head_not_mem hc
      obtain ⟨_, hr, hrest⟩ := hc
      have hrest2 : Linked next (h.delete (some e.1)) (next e.2) l :=
        Linked.frame hrest fun b hb => Heap.read_delete_ne (fun h => hnot (h ▸ hb))
      rw [List.map_cons, Heap.deleteAll, List.foldl_cons]
      simp only [List.map_cons, List.mem_cons] at ha
      rcases ha with ha | ha
      · rw [ha]
        exact (Heap.deletes_congr (Heap.cells_deleteAll _ _ _ hnot)).trans
          (Heap.deletes_delete_same hr)
      · exact Linked.deletes_deleteAll hrest2 a ha

/-- The cells of a chain that ends in `nullptr` are pairwise distinct. -/
theorem Linked.nodup {N : Type} {next : N → Ptr} {h : Heap N} :
    ∀ {p : Ptr} {l : List (Nat × N)}, Linked next h p l → (l.map Prod.fst).Nodup
  | _, [], _ => List.nodup_nil
  | _, _ :: _, hc => by
      rw [List.map_cons, List.nodup_cons]
      exact ⟨Linked.head_not_mem hc, Linked.nodup hc.2.2⟩

/-- The last cell of a chain is replaced and the chain prolonged: the cells before it are
not affected. -/
theorem Linked.replace_last {N : Type} {next : N → Ptr} {h1 h2 : Heap N} {t : Nat} {d d2 : N}
    {l2 : List (Nat × N)} :
    ∀ {p : Ptr} {l : List (Nat × N)}, Linked next h1 p (l ++ [(t, d)]) →
      (∀ a ∈ l.map Prod.fst, h2.read a = h1.read a) → h2.read t = some d2 →
      Linked next h2 (next d2) l2 → Linked next h2 p (l ++ (t, d2) :: l2)
  | _, [], hc, _, hr, hl => ⟨hc.1, hr, hl⟩
  | _, e :: l, hc, hf, hr, hl => by
      obtain ⟨hp, hre, hrest⟩ := hc
      refine ⟨hp, ?_, Linked.replace_last hrest (fun a ha => hf a (by simp [ha])) hr hl⟩
      rw [hf e.1 (by simp)]; exact hre

/-- The last cell of a chain is readable and its `next` is `nullptr`. -/
theorem Linked.last {N : Type} {next : N → Ptr} {h : Heap N} {t : Nat} {d : N} :
    ∀ {p : Ptr} {l : List (Nat × N)}, Linked next h p (l ++ [(t, d)]) →
      h.read t = some d ∧ next d = none
  | _, [], hc => ⟨hc.2.1, hc.2.2⟩
  | _, _ :: _, hc => Linked.last hc.2.2

end Mem

/-! ## LockFreeStack.h: a thread that runs alone -/

namespace LockFreeStack
open Mem

@[simp] theorem setLocal_same {T : Type} (f : Nat → Local T) (t : Nat) (l : Local T) :
    setLocal f t l t = l := by simp [setLocal]

@[simp] theorem setLocal_setLocal {T : Type} (f : Nat → Local T) (t : Nat) (a b : Local T) :
    setLocal (setLocal f t a) t b = setLocal f t b := by
  funext u; by_cases hu : u = t <;> simp [setLocal, hu]

theorem setLocal_self {T : Type} {f : Nat → Local T} {t : Nat} {l : Local T} (h : f t = l) :
    setLocal f t l = f := by
  funext u; by_cases hu : u = t
  · simp [setLocal, hu, h]
  · simp [setLocal, hu]

theorem runAlone_idle {T : Type} [Inhabited T] (t fuel : Nat) (c : Config T)
    (h : c.locals t = .idle) : runAlone t fuel c = some c := by
  cases fuel <;> simp [runAlone, h, Local.isIdle]

theorem incr_zero : incr 0 = 1 := by decide

theorem decr_one : decr 1 = 0 := by decide

/-- One step of a thread that runs alone. -/
theorem runAlone_next {T : Type} [Inhabited T] (t fuel : Nat) (s : Shared T)
    (f : Nat → Local T) (l : Local T) (ps qs : List T) :
    runAlone t (fuel + 1) ⟨s, setLocal f t l, ps, qs⟩ =
      if l.isIdle = true then some ⟨s, setLocal f t l, ps, qs⟩
      else (step s l).bind fun r =>
        runAlone t fuel ⟨r.1, setLocal f t r.2, ps, logPop l qs⟩ := by
  rw [runAlone]
  simp only [setLocal_same, exec, setLocal_setLocal]
  cases step s l <;> rfl

/-- An uncontended `push` returns after three steps, with the new node on top. -/
theorem pushAlone_eq {T : Type} [Inhabited T] (c : Config T) (t : Nat) (v : T) (fuel : Nat)
    (hidle : c.locals t = .idle) :
    pushAlone t v (fuel + 3) c = some
      { shared := { c.shared with
          heap := (c.shared.heap.alloc ⟨v, c.shared.head⟩).2
          head := some c.shared.heap.cells.length }
        locals := c.locals
        pushes := c.pushes ++ [v]
        pops := c.pops } := by
  obtain ⟨⟨heap, head, cnt, lim⟩, locals, pushes, pops⟩ := c
  simp only at hidle
  simp only [pushAlone, exec, hidle, Local.isIdle, if_true, Option.some_bind]
  iterate 3
    rw [runAlone_next]
    simp only [Local.isIdle, Bool.false_eq_true, if_false, step, logPop, Option.some_bind,
      Option.map_some', if_true, Heap.alloc_fst, Heap.read_alloc_new, Heap.write_alloc_new]
  rw [runAlone_idle _ _ _ (by simp), setLocal_self hidle]

/-- An uncontended `pop` of a non-empty stack, with no other popper and an empty limbo list,
returns after eleven steps: the top node is unlinked, read and deleted. -/
theorem popAlone_eq {T : Type} [Inhabited T] (c : Config T) (t : Nat) (fuel : Nat) (a : Nat)
    (n : StackNode T) (hidle : c.locals t = .idle) (hcount : c.shared.poppingThreads = 0)
    (hlimbo : c.shared.toBeDeleted = none) (hhead : c.shared.head = some a)
    (hread : c.shared.heap.read a = some n) :
    popAlone t (fuel + 11) c = some
      { shared :=
          { heap := c.shared.heap.delete (some a)
            head := n.next
            poppingThreads := 0
            toBeDeleted := none }
        locals := c.locals
        pushes := c.pushes
        pops := c.pops ++ [n.data] } := by
  obtain ⟨⟨heap, head, cnt, lim⟩, locals, pushes, pops⟩ := c
  simp only at hidle hcount hlimbo hhead hread
  subst hcount hlimbo hhead
  simp only [popAlone, exec, hidle, Local.isIdle, if_true, Option.some_bind]
  iterate 11
    rw [runAlone_next]
    simp only [Local.isIdle, Bool.false_eq_true, if_false, step, logPop,
      Option.some_bind, Option.map_some', hread, incr_zero, decr_one, if_true]
  rw [runAlone_idle _ _ _ (by simp), setLocal_self hidle]

/-- The loop of lines 82-87 on a chain that ends in `nullptr` deletes every cell of it. -/
theorem listLoop {T : Type} [Inhabited T] (t : Nat) (fuel : Nat) (ret : T)
    (f : Nat → Local T) (ps qs : List T) :
    ∀ (l : List (Nat × StackNode T)) (s : Shared T) (p : Ptr),
      Linked StackNode.next s.heap p l →
      runAlone t (fuel + 2 * l.length + 2) ⟨s, setLocal f t (.listTest p ret), ps, qs⟩ = some
        { shared := { s with heap := s.heap.deleteAll (l.map Prod.fst) }
          locals := setLocal f t .idle
          pushes := ps
          pops := qs ++ [ret] }
  | [], s, p, hc => by
      simp only [Linked] at hc
      subst hc
      simp only [List.length_nil, Nat.mul_zero, Nat.add_zero]
      iterate 2
        rw [runAlone_next]
        simp only [Local.isIdle, Bool.false_eq_true, if_false, step, logPop,
          Option.some_bind, Option.map_some', if_true]
      rw [runAlone_idle _ _ _ (by simp)]
      rfl
  | e :: l, s, p, hc => by
      have hnot := Linked.head_not_mem hc
      simp only [Linked] at hc
      obtain ⟨hp, hr, hrest⟩ := hc
      subst hp
      have hfuel : fuel + 2 * (e :: l).length + 2 = (fuel + 2 * l.length + 2) + 1 + 1 := by
        simp only [List.length_cons]; omega
      rw [hfuel]
      iterate 2
        rw [runAlone_next]
        simp only [Local.isIdle, Bool.false_eq_true, if_false, step, logPop,
          Option.some_bind, Option.map_some', if_true, hr]
      have hrest2 : Linked StackNode.next (s.heap.delete (some e.1)) e.2.next l :=
        Linked.frame hrest fun a ha => Heap.read_delete_ne (fun h => hnot (h ▸ ha))
      rw [listLoop t fuel ret f ps qs l _ e.2.next hrest2]
      rfl

/-- An uncontended `pop` of an empty stack, with no other popper, returns: it claims the limbo
list and deletes every node of it. -/
theorem popAlone_empty {T : Type} [Inhabited T] (c : Config T) (t : Nat) (fuel : Nat)
    (l : List (Nat × StackNode T)) (hidle : c.locals t = .idle)
    (hcount : c.shared.poppingThreads = 0) (hhead : c.shared.head = none)
    (hlimbo : Linked StackNode.next c.shared.heap c.shared.toBeDeleted l) :
    popAlone t (fuel + 2 * l.length + 10) c = some
      { shared :=
          { heap := c.shared.heap.deleteAll (l.map Prod.fst)
            head := none
            poppingThreads := 0
            toBeDeleted := none }
        locals := c.locals
        pushes := c.pushes
        pops := c.pops ++ [default] } := by
  obtain ⟨⟨heap, head, cnt, lim⟩, locals, pushes, pops⟩ := c
  simp only at hidle hcount hhead hlimbo
  subst hcount hhead
  have hfuel : fuel + 2 * l.length + 10 = (fuel + 2 * l.length + 2) + 8 := by omega
  rw [hfuel]
  simp only [popAlone, exec, hidle, Local.isIdle, if_true, Option.some_bind]
  iterate 8
    rw [runAlone_next]
    simp only [Local.isIdle, Bool.false_eq_true, if_false, step, logPop,
      Option.some_bind, Option.map_some', incr_zero, decr_one, if_true, Heap.delete_none]
  rw [listLoop t fuel default locals pushes pops l _ lim hlimbo, setLocal_self hidle]
theorem pushAll_spec {T : Type} [Inhabited T] (t fuel : Nat) :
    ∀ (vs : List T) (c : Config T) (l : List (Nat × StackNode T)), Sequential c t l →
      ∃ c1 l1, pushAll t (fuel + 3) c vs = some c1 ∧ Sequential c1 t l1 ∧
        l1.map (fun e => e.2.data) = vs.reverse ++ l.map (fun e => e.2.data) ∧
        c1.pops = c.pops ∧ c1.pushes = c.pushes ++ vs
  | [], c, l, h => ⟨c, l, rfl, h, by simp, rfl, by simp⟩
  | v :: vs, c, l, h => by
      obtain ⟨hidle, hcount, hlimbo, hchain⟩ := h
      have hlink : Linked StackNode.next (c.shared.heap.alloc ⟨v, c.shared.head⟩).2
          (some c.shared.heap.cells.length)
          ((c.shared.heap.cells.length, ⟨v, c.shared.head⟩) :: l) := by
        refine ⟨rfl, Heap.read_alloc_new _ _, ?_⟩
        exact Linked.frame hchain fun a ha =>
          Heap.read_alloc_lt _ (Linked.lt_length hchain a ha)
      obtain ⟨c1, l1, hrun, hseq, hvals, hpops, hpushes⟩ :=
        pushAll_spec t fuel vs _ _
          (show Sequential
            { shared := { c.shared with
                heap := (c.shared.heap.alloc ⟨v, c.shared.head⟩).2
                head := some c.shared.heap.cells.length }
              locals := c.locals
              pushes := c.pushes ++ [v]
              pops := c.pops } t _ from ⟨hidle, hcount, hlimbo, hlink⟩)
      refine ⟨c1, l1, ?_, hseq, ?_, hpops, ?_⟩
      · rw [pushAll, pushAlone_eq c t v fuel hidle]; exact hrun
      · rw [hvals]; simp
      · rw [hpushes]; simp

theorem popTimes_spec {T : Type} [Inhabited T] (t fuel : Nat) :
    ∀ (l : List (Nat × StackNode T)) (c : Config T), Sequential c t l →
      ∃ c1, popTimes t (fuel + 11) l.length c = some c1 ∧ Sequential c1 t [] ∧
        c1.pops = c.pops ++ l.map (fun e => e.2.data) ∧ c1.pushes = c.pushes
  | [], c, h => ⟨c, rfl, h, by simp, rfl⟩
  | e :: l, c, h => by
      obtain ⟨hidle, hcount, hlimbo, hchain⟩ := h
      have hnot := Linked.head_not_mem hchain
      obtain ⟨hhead, hread, hrest⟩ := hchain
      have hrest2 : Linked StackNode.next (c.shared.heap.delete (some e.1)) e.2.next l :=
        Linked.frame hrest fun a ha => Heap.read_delete_ne (fun h => hnot (h ▸ ha))
      obtain ⟨c1, hrun, hseq, hpops, hpushes⟩ :=
        popTimes_spec t fuel l
          { shared :=
              { heap := c.shared.heap.delete (some e.1)
                head := e.2.next
                poppingThreads := 0
                toBeDeleted := none }
            locals := c.locals
            pushes := c.pushes
            pops := c.pops ++ [e.2.data] } ⟨hidle, rfl, rfl, hrest2⟩
      refine ⟨c1, ?_, hseq, ?_, hpushes⟩
      · rw [List.length_cons, popTimes, popAlone_eq c t fuel e.1 e.2 hidle hcount hlimbo hhead hread]
        exact hrun
      · rw [hpops]; simp

theorem map_popResult {T : Type} (res : T) :
    ∀ l : List T, l.map (popResult res) = List.replicate l.length res
  | [] => rfl
  | _ :: l => by
      rw [List.map_cons, map_popResult res l, List.length_cons, List.replicate_succ]
      rfl

theorem sequential_init {T : Type} (t : Nat) : Sequential (init : Config T) t [] :=
  ⟨rfl, rfl, rfl, rfl⟩

/-- C1 (the code departs from it): after `push(v1)`, ..., `push(vn)` on an empty stack, `n`
uncontended pops all return; the values they extract into `ret` are `vn`, ..., `v1`, but each
call returns the value of `res` (line 60), not the value it extracted. -/
theorem pops_return_res {T : Type} [Inhabited T] (vs : List T) (res : T) (t fuel : Nat) :
    ∃ c, (pushAll t (fuel + 11) init vs).bind (popTimes t (fuel + 11) vs.length) = some c ∧
      c.pops = vs.reverse ∧ c.returned res = List.replicate vs.length res := by
  obtain ⟨c1, l1, hrun1, hseq1, hvals, hpops1, _⟩ :=
    pushAll_spec t (fuel + 8) vs init [] (sequential_init t)
  obtain ⟨c2, hrun2, _, hpops2, _⟩ := popTimes_spec t fuel l1 c1 hseq1
  have hlen : l1.length = vs.length := by
    have := congrArg List.length hvals
    simpa using this
  refine ⟨c2, ?_, ?_, ?_⟩
  · rw [show fuel + 11 = fuel + 8 + 3 from rfl, hrun1, Option.some_bind,
      show fuel + 8 + 3 = fuel + 11 from rfl, ← hlen]
    exact hrun2
  · rw [hpops2, hpops1, hvals]; simp [init]
  · rw [Config.returned, hpops2, hpops1, hvals]
    simp [init, map_popResult]
theorem exec_locals {T : Type} [Inhabited T] {c c1 : Config T} {a : Action T} {t : Nat}
    (h : exec c a = some c1) (ht : t ∉ actors [a]) : c1.locals t = c.locals t := by
  cases a with
  | push u v =>
      simp only [actors, List.mem_singleton] at ht
      simp only [exec] at h
      split at h
      · cases h; simp [setLocal, ht]
      · cases h
  | pop u =>
      simp only [actors, List.mem_singleton] at ht
      simp only [exec] at h
      split at h
      · cases h; simp [setLocal, ht]
      · cases h
  | step u =>
      simp only [actors, List.mem_singleton] at ht
      simp only [exec] at h
      cases hs : step c.shared (c.locals u) with
      | none => rw [hs] at h; cases h
      | some r => rw [hs] at h; cases h; simp [setLocal, ht]

/-- A thread that a schedule does not let act stays where it is. -/
theorem run_locals {T : Type} [Inhabited T] :
    ∀ (as : List (Action T)) (c c1 : Config T) (t : Nat),
      run c as = some c1 → t ∉ actors as → c1.locals t = c.locals t
  | [], c, c1, t, h, _ => by cases h; rfl
  | a :: as, c, c1, t, h, ht => by
      simp only [run] at h
      cases he : exec c a with
      | none => rw [he] at h; cases h
      | some c2 =>
          rw [he, Option.some_bind] at h
          have h1 : t ∉ actors [a] := by
            intro hm; apply ht
            cases a <;> simp_all [actors]
          have h2 : t ∉ actors as := by
            intro hm; apply ht
            cases a <;> simp [actors, hm]
          rw [run_locals as c2 c1 t h h2, exec_locals he h1]

/-- The schedule `leakSchedule` runs without a fault and ends with every thread outside a
call, the counter at 0, an empty stack and the two popped cells 1 and 0 in the limbo list,
neither of them deleted. -/
theorem leak_state :
    ∃ c : Config Nat, run init leakSchedule = some c ∧ c.quiescent ∧
      c.shared.head = none ∧ c.shared.poppingThreads = 0 ∧ c.shared.toBeDeleted = some 1 ∧
      c.shared.heap.read 1 = some ⟨2, some 0⟩ ∧ c.shared.heap.read 0 = some ⟨1, none⟩ ∧
      c.pushes = [1, 2] ∧ c.pops = [1, 2] := by
  have hsome : (run (init : Config Nat) leakSchedule).isSome = true := by decide
  obtain ⟨c, hc⟩ := Option.isSome_iff_exists.mp hsome
  have h1 : (run (init : Config Nat) leakSchedule).map (fun c =>
      (c.shared.head, c.shared.poppingThreads, c.shared.toBeDeleted)) =
      some (none, 0, some 1) := by decide
  have h2 : (run (init : Config Nat) leakSchedule).map (fun c =>
      (c.shared.heap.read 1, c.shared.heap.read 0)) =
      some (some ⟨2, some 0⟩, some ⟨1, none⟩) := by decide
  have h3 : (run (init : Config Nat) leakSchedule).map (fun c => (c.pushes, c.pops)) =
      some ([1, 2], [1, 2]) := by decide
  have h4 : (run (init : Config Nat) leakSchedule).map (fun c =>
      ((c.locals 0).isIdle, (c.locals 1).isIdle, (c.locals 2).isIdle)) =
      some (true, true, true) := by decide
  rw [hc] at h1 h2 h3 h4
  simp only [Option.map_some', Option.some.injEq, Prod.mk.injEq] at h1 h2 h3 h4
  refine ⟨c, hc, ?_, h1.1, h1.2.1, h1.2.2, h2.1, h2.2, h3.1, h3.2⟩
  intro t
  by_cases ht : t ∈ actors leakSchedule
  · have hsub : ∀ u ∈ actors leakSchedule, u = 0 ∨ u = 1 ∨ u = 2 := by decide
    rcases hsub t ht with h | h | h
    · rw [h]; exact h4.1
    · rw [h]; exact h4.2.1
    · rw [h]; exact h4.2.2
  · rw [run_locals _ _ _ t hc ht]; rfl

theorem isIdle_iff {T : Type} {l : Local T} : l.isIdle = true ↔ l = .idle := by
  cases l <;> simp [Local.isIdle]

/-- C2 (the claim as stated fails): the schedule `leakSchedule` ends with `head` null and no
thread inside a call, the cells 1 and 0 in the limbo list; the uncontended `pop` that follows
empties the limbo list and deletes both cells. -/
theorem empty_pop_frees_limbo :
    ∃ c c1 : Config Nat, run init leakSchedule = some c ∧ c.quiescent ∧
      c.shared.head = none ∧ c.shared.toBeDeleted = some 1 ∧
      c.shared.heap.deletes 1 = 0 ∧ c.shared.heap.deletes 0 = 0 ∧
      popAlone 3 14 c = some c1 ∧ c1.shared.toBeDeleted = none ∧
      c1.shared.heap.deletes 1 = 1 ∧ c1.shared.heap.deletes 0 = 1 := by
  obtain ⟨c, hrun, hq, hhead, hcount, hlimbo, hr1, hr0, _, _⟩ := leak_state
  have hchain : Linked StackNode.next c.shared.heap c.shared.toBeDeleted
      [(1, ⟨2, some 0⟩), (0, ⟨1, none⟩)] := ⟨hlimbo, hr1, rfl, hr0, rfl⟩
  have hpop := popAlone_empty c 3 0 _ (isIdle_iff.mp (hq 3)) hcount hhead hchain
  refine ⟨c, _, hrun, hq, hhead, hlimbo, Heap.deletes_of_read hr1, Heap.deletes_of_read hr0,
    hpop, rfl, ?_, ?_⟩
  · exact Linked.deletes_deleteAll hchain 1 (by simp)
  · exact Linked.deletes_deleteAll hchain 0 (by simp)

/-- C2 (as amended): an uncontended `pop` on a state with `head` null, no popper registered
and a limbo list that is a chain ending in `nullptr` returns; it sets its local `ret` to
`T()`, leaves `head` null and the counter at 0, allocates nothing, empties the limbo list and
deletes every node of it once, touching no other cell. -/
theorem empty_pop_alone {T : Type} [Inhabited T] (c : Config T) (t fuel : Nat)
    (l : List (Nat × StackNode T)) (hidle : c.locals t = .idle)
    (hcount : c.shared.poppingThreads = 0) (hhead : c.shared.head = none)
    (hlimbo : Linked StackNode.next c.shared.heap c.shared.toBeDeleted l) :
    ∃ c1, popAlone t (fuel + 2 * l.length + 10) c = some c1 ∧
      c1.pops = c.pops ++ [default] ∧ c1.shared.head = none ∧
      c1.shared.poppingThreads = 0 ∧ c1.shared.toBeDeleted = none ∧
      c1.shared.heap.cells.length = c.shared.heap.cells.length ∧
      (∀ a ∈ l.map Prod.fst, c.shared.heap.deletes a = 0 ∧ c1.shared.heap.deletes a = 1) ∧
      (∀ a, a ∉ l.map Prod.fst → c1.shared.heap.cells[a]? = c.shared.heap.cells[a]?) ∧
      c1.locals = c.locals ∧ c1.pushes = c.pushes := by
  refine ⟨_, popAlone_empty c t fuel l hidle hcount hhead hlimbo, rfl, rfl, rfl, rfl,
    Heap.length_deleteAll _ _, ?_, fun a ha => Heap.cells_deleteAll _ _ a ha, rfl, rfl⟩
  intro a ha
  refine ⟨?_, Linked.deletes_deleteAll hlimbo a ha⟩
  obtain ⟨l1, l2, _, hne, hs⟩ := Linked.suffix hlimbo ha
  cases l2 with
  | nil => exact absurd rfl hne
  | cons e l3 =>
      obtain ⟨he, hr, _⟩ := hs
      rw [Option.some.inj he]
      exact Heap.deletes_of_read hr

/-- The amended C2 at the stack after construction. -/
theorem empty_pop_alone_witness :
    ((init : Config Nat).locals 0 = .idle ∧ (init : Config Nat).shared.poppingThreads = 0 ∧
      (init : Config Nat).shared.head = none ∧
      Linked StackNode.next (init : Config Nat).shared.heap
        (init : Config Nat).shared.toBeDeleted []) ∧
    ∃ c1, popAlone 0 10 (init : Config Nat) = some c1 ∧
      c1.pops = [0] ∧ c1.shared.head = none ∧ c1.shared.poppingThreads = 0 ∧
      c1.shared.toBeDeleted = none := by
  refine ⟨⟨rfl, rfl, rfl, rfl⟩, ?_⟩
  obtain ⟨c1, h1, h2, h3, h4, h5, _⟩ :=
    empty_pop_alone (init : Config Nat) 0 0 [] rfl rfl rfl rfl
  exact ⟨c1, h1, h2, h3, h4, h5⟩

/-- C3 (the code departs from it): the schedule `duplicateSchedule` of four pushes and four
pops runs without a fault; the pushed values are 1, 2, 3, 4 and the three pops that have
returned have extracted 1, 3 and 1 from the nodes they unlinked: the value 1, pushed once, is
taken by two pops. -/
theorem pushed_value_popped_twice :
    (duplicateSchedule.filter Action.isPush).length = 4 ∧
      (duplicateSchedule.filter Action.isPop).length = 4 ∧
      (run (init : Config Nat) duplicateSchedule).map (fun c => (c.pushes, c.pops)) =
        some ([1, 2, 3, 4], [1, 3, 1]) := by
  decide

/-- C4 (the code departs from it): the schedule `liveFreePrefix` runs without a fault and
ends with cell 0 on top of the stack and not deleted; the next step of thread 2 deletes it,
and `head` still points to it when every thread has returned. In `doubleFreeSchedule` the
cell 0 is passed to `delete` twice. -/
theorem live_node_freed_and_double_free :
    (run (init : Config Nat) liveFreePrefix).map
        (fun c => (c.shared.head, c.shared.heap.deletes 0)) = some (some 0, 0) ∧
      (run (init : Config Nat) (liveFreePrefix ++ steps 2 1)).map
        (fun c => (c.shared.head, c.shared.heap.deletes 0)) = some (some 0, 1) ∧
      (run (init : Config Nat) liveFreeSchedule).map
        (fun c => (c.shared.head, c.shared.heap.deletes 0, (c.locals 2).isIdle)) =
        some (some 0, 1, true) ∧
      (run (init : Config Nat) doubleFreeSchedule).map
        (fun c => c.shared.heap.deletes 0) = some 2 := by
  decide

/-- C5 (the code departs from it): the schedule `leakSchedule` ends with no thread inside
`pop` and the counter at 0, both pops having returned, and the two unlinked cells 1 and 0 are
in the limbo list, not deleted. -/
theorem quiescent_with_limbo :
    ∃ c : Config Nat, run init leakSchedule = some c ∧ c.quiescent ∧
      c.shared.poppingThreads = 0 ∧ c.pops.length = 2 ∧ c.shared.toBeDeleted = some 1 ∧
      c.shared.heap.deletes 1 = 0 ∧ c.shared.heap.deletes 0 = 0 := by
  obtain ⟨c, hrun, hq, _, hcount, hlimbo, hr1, hr0, _, hpops⟩ := leak_state
  exact ⟨c, hrun, hq, hcount, by rw [hpops]; rfl, hlimbo, Heap.deletes_of_read hr1,
    Heap.deletes_of_read hr0⟩

theorem popTimes_empty {T : Type} [Inhabited T] (t fuel : Nat) :
    ∀ (k : Nat) (c : Config T), Sequential c t [] →
      ∃ c1, popTimes t (fuel + 10) k c = some c1 ∧ Sequential c1 t [] ∧
        c1.pops = c.pops ++ List.replicate k default ∧
        c1.shared.heap = c.shared.heap
  | 0, c, h => ⟨c, rfl, h, by simp, rfl⟩
  | k + 1, c, h => by
      obtain ⟨hidle, hcount, hlimbo, hhead⟩ := h
      have hchain : Linked StackNode.next c.shared.heap c.shared.toBeDeleted [] := hlimbo
      have hpop := popAlone_empty c t fuel [] hidle hcount hhead hchain
      obtain ⟨c1, hrun, hseq, hpops, hheap⟩ := popTimes_empty t fuel k
        { shared :=
            { heap := c.shared.heap.deleteAll (List.map Prod.fst ([] : List (Nat × StackNode T)))
              head := none
              poppingThreads := 0
              toBeDeleted := none }
          locals := c.locals
          pushes := c.pushes
          pops := c.pops ++ [default] } ⟨hidle, rfl, rfl, rfl⟩
      refine ⟨c1, ?_, hseq, ?_, hheap⟩
      · rw [popTimes]
        rw [show fuel + 2 * ([] : List (Nat × StackNode T)).length + 10 = fuel + 10 from rfl]
          at hpop
        rw [hpop]; exact hrun
      · rw [hpops, List.replicate_succ]; simp

/-- C6 (the code departs from it): `k` uncontended pops on the stack after construction all
return, each with its local `ret` equal to `T()` and with the counter back at 0 and `head`
null, but each call returns the value of `res` (line 60). -/
theorem empty_pops_return_res {T : Type} [Inhabited T] (k : Nat) (res : T) (t fuel : Nat) :
    ∃ c, popTimes t (fuel + 10) k (init : Config T) = some c ∧
      c.shared.poppingThreads = 0 ∧ c.shared.head = none ∧
      c.pops = List.replicate k default ∧ c.returned res = List.replicate k res := by
  obtain ⟨c, hrun, hseq, hpops, _⟩ := popTimes_empty t fuel k (init : Config T) (sequential_init t)
  have hp : c.pops = List.replicate k default := by rw [hpops]; rfl
  refine ⟨c, hrun, hseq.2.1, hseq.2.2.2, hp, ?_⟩
  rw [Config.returned, hp, map_popResult, List.length_replicate]

/-- C11 (the code departs from it): after `deferOnce`, which runs without a fault, the chain
from `head` is made of the cells 1, 0 and the chain from `toBeDeleted` of the cells 2, 1, 0:
the live cells 1 and 0 are in the limbo chain. After `deferTwice` the walk from `toBeDeleted`
meets the cells 1, 0, 2 and then 1, 0, 2 again: the limbo chain is a cycle. -/
theorem limbo_chain_meets_live_chain :
    (run (init : Config Nat) deferOnce).map (fun c =>
        (Heap.walk StackNode.next c.shared.heap 6 c.shared.head,
          Heap.walk StackNode.next c.shared.heap 6 c.shared.toBeDeleted)) =
        some ([1, 0], [2, 1, 0]) ∧
      (run (init : Config Nat) deferTwice).map (fun c =>
        Heap.walk StackNode.next c.shared.heap 6 c.shared.toBeDeleted) =
        some [1, 0, 2, 1, 0, 2] := by
  decide

/-- C12 (the code departs from it): in `deferStart` thread 2 is at `reclaim(oldHead)` with the
cell 2 it has just unlinked, the counter at 2, an empty limbo list and the cells 1, 0 under
`head`; after its `reclaim` (`deferOnce`) the counter is 1 and no cell is deleted, but the
limbo chain is 2, 1, 0 and not the cell 2 alone. In `deferAgain` it is at `reclaim(oldHead)`
with cell 1, the counter at 2, the limbo chain 2, 1, 0 and the cell 0 under `head`; after its
`reclaim` (`deferTwice`) the chain from `head` is no longer the cell 0 alone: it goes on over
the cells 2, 1 and comes back to 0. -/
theorem deferred_node_drags_live_chain :
    (run (init : Config Nat) deferStart).map (fun c => (c.locals 2, c.shared.poppingThreads)) =
        some (.reclaimCheck (some 2) 3, 2) ∧
      (run (init : Config Nat) deferStart).map (fun c =>
        (Heap.walk StackNode.next c.shared.heap 6 c.shared.head,
          Heap.walk StackNode.next c.shared.heap 6 c.shared.toBeDeleted)) =
        some ([1, 0], []) ∧
      (run (init : Config Nat) deferOnce).map (fun c => (c.locals 2, c.shared.poppingThreads)) =
        some (.popReturn 3, 1) ∧
      (run (init : Config Nat) deferOnce).map (fun c =>
        (Heap.walk StackNode.next c.shared.heap 6 c.shared.head,
          Heap.walk StackNode.next c.shared.heap 6 c.shared.toBeDeleted)) =
        some ([1, 0], [2, 1, 0]) ∧
      (run (init : Config Nat) deferAgain).map (fun c => (c.locals 2, c.shared.poppingThreads)) =
        some (.reclaimCheck (some 1) 2, 2) ∧
      (run (init : Config Nat) deferAgain).map (fun c =>
        (Heap.walk StackNode.next c.shared.heap 6 c.shared.head,
          Heap.walk StackNode.next c.shared.heap 6 c.shared.toBeDeleted)) =
        some ([0], [2, 1, 0]) ∧
      (run (init : Config Nat) deferTwice).map (fun c => (c.locals 2, c.shared.poppingThreads)) =
        some (.popReturn 2, 1) ∧
      (run (init : Config Nat) deferTwice).map (fun c =>
        (Heap.walk StackNode.next c.shared.heap 6 c.shared.head,
          Heap.walk StackNode.next c.shared.heap 6 c.shared.toBeDeleted)) =
        some ([0, 2, 1, 0, 2, 1], [1, 0, 2, 1, 0, 2]) := by
  refine ⟨by decide, by decide, by decide, by decide, by decide, by decide, by decide,
    by decide⟩

/-- The sole-popper branch of `reclaim` on a well-formed state: the thread is at line 68 with a
node that is null or readable, the counter is 1, and the limbo list is a chain that ends in
`nullptr` and does not hold the node. Running alone, the thread returns; the node and every
node of the limbo list are deleted once, the limbo list is empty and the counter is 0. -/
theorem reclaim_sole_popper {T : Type} [Inhabited T] (t fuel : Nat) (s : Shared T)
    (f : Nat → Local T) (ps qs : List T) (node : Ptr) (ret : T)
    (l : List (Nat × StackNode T)) (hcount : s.poppingThreads = 1)
    (hlimbo : Linked StackNode.next s.heap s.toBeDeleted l)
    (hnode : ∀ a, node = some a → a ∉ l.map Prod.fst) :
    runAlone t (fuel + 2 * l.length + 6) ⟨s, setLocal f t (.reclaimCheck node ret), ps, qs⟩ =
      some
        { shared :=
            { heap := (s.heap.delete node).deleteAll (l.map Prod.fst)
              head := s.head
              poppingThreads := 0
              toBeDeleted := none }
          locals := setLocal f t .idle
          pushes := ps
          pops := qs ++ [ret] } := by
  obtain ⟨heap, head, cnt, lim⟩ := s
  simp only at hcount hlimbo
  subst hcount
  have hfuel : fuel + 2 * l.length + 6 = (fuel + 2 * l.length + 2) + 4 := by omega
  rw [hfuel]
  iterate 4
    rw [runAlone_next]
    simp only [Local.isIdle, Bool.false_eq_true, if_false, step, logPop,
      Option.some_bind, Option.map_some', decr_one, if_true]
  have hlimbo2 : Linked StackNode.next (heap.delete node) lim l := by
    cases node with
    | none => exact hlimbo
    | some a =>
        exact Linked.frame hlimbo fun b hb =>
          Heap.read_delete_ne (fun h => hnode a rfl (h ▸ hb))
  rw [listLoop t fuel ret f ps qs l _ lim hlimbo2]

/-- C13 (the code departs from it): in `soleStart` thread 2 is at `reclaim(oldHead)` with the
cell 1 it has just unlinked, the counter at 1 and thread 1 outside `pop`, and the limbo chain
is 2, 1, 0, no cell deleted. In `soleSchedule` thread 2 has deleted cell 1 (line 71), claimed
the list, decremented the counter to 0 and deleted cell 2; it is at the loop test with
`delNodes` the cell 1, already deleted, and its next step, the read of `delNodes->next`, is a
fault. -/
theorem sole_popper_reads_freed_node :
    (run (init : Config Nat) soleStart).map (fun c =>
        (c.locals 2, (c.locals 1).isIdle, c.shared.poppingThreads,
          Heap.walk StackNode.next c.shared.heap 6 c.shared.toBeDeleted)) =
        some (.reclaimCheck (some 1) 2, true, 1, [2, 1, 0]) ∧
      (run (init : Config Nat) soleStart).map (fun c =>
        (c.shared.heap.deletes 2, c.shared.heap.deletes 1, c.shared.heap.deletes 0)) =
        some (0, 0, 0) ∧
      (run (init : Config Nat) soleSchedule).map (fun c =>
        (c.locals 2, c.shared.poppingThreads, c.shared.toBeDeleted)) =
        some (.listTest (some 1) 2, 0, none) ∧
      (run (init : Config Nat) soleSchedule).map (fun c =>
        (c.shared.heap.deletes 2, c.shared.heap.deletes 1, c.shared.heap.deletes 0)) =
        some (1, 1, 0) ∧
      (run (init : Config Nat) (soleSchedule ++ steps 2 1)).isNone = true := by
  refine ⟨by decide, by decide, by decide, by decide, by decide⟩

/-- C14 (the code departs from it): in `nullDeferred` and in `nullReattach`, both on the empty
stack after construction, thread 1 is at the loop test of `chainPendingNodes` with `last`
null, the counter at 2 and at 1; its next step, the read of `last->next`, is a fault. -/
theorem chain_pending_nodes_null :
    (run (init : Config Nat) nullDeferred).map (fun c =>
        (c.locals 1, c.shared.poppingThreads)) =
        some (.chainTest .deferred none none 0, 2) ∧
      (run (init : Config Nat) (nullDeferred ++ steps 1 1)).isNone = true ∧
      (run (init : Config Nat) nullReattach).map (fun c =>
        (c.locals 1, c.shared.poppingThreads)) =
        some (.chainTest .claimed none none 0, 1) ∧
      (run (init : Config Nat) (nullReattach ++ steps 1 1)).isNone = true := by
  refine ⟨by decide, by decide, by decide, by decide⟩

theorem incr_mod (n : Nat) : incr (n % sizeMax) = (n + 1) % sizeMax := by
  simp only [incr, sizeMax, Nat.reducePow]
  omega

theorem decr_mod (n : Nat) : decr ((n + 1) % sizeMax) = n % sizeMax := by
  simp only [decr, sizeMax, Nat.reducePow]
  omega

/-- What one step does to the counter and to the registration of the thread that takes it. -/
theorem step_registered {T : Type} [Inhabited T] {s s1 : Shared T} {l l1 : Local T}
    (h : step s l = some (s1, l1)) :
    (s1.poppingThreads = incr s.poppingThreads ∧ l.registered = false ∧ l1.registered = true) ∨
    (s1.poppingThreads = decr s.poppingThreads ∧ l.registered = true ∧ l1.registered = false ∧
      l.atDecrement = true) ∨
    (s1.poppingThreads = s.poppingThreads ∧ l1.registered = l.registered ∧
      l.atDecrement = false) := by
  cases l with
  | idle => simp [step] at h
  | pushNew data =>
      simp only [step, Option.some.injEq, Prod.mk.injEq] at h
      obtain ⟨h1, h2⟩ := h
      subst h1 h2
      exact Or.inr (Or.inr ⟨rfl, rfl, rfl⟩)
  | pushLoad a =>
      simp only [step] at h
      cases hr : s.heap.read a with
      | none => rw [hr] at h; cases h
      | some n =>
          rw [hr, Option.some_bind] at h
          cases hw : s.heap.write a { n with next := s.head } with
          | none => rw [hw] at h; cases h
          | some h2 =>
              rw [hw] at h
              cases h
              exact Or.inr (Or.inr ⟨rfl, rfl, rfl⟩)
  | pushCas a =>
      simp only [step] at h
      cases hr : s.heap.read a with
      | none => rw [hr] at h; cases h
      | some n =>
          rw [hr, Option.some_bind] at h
          split at h
          · cases h; exact Or.inr (Or.inr ⟨rfl, rfl, rfl⟩)
          · cases hw : s.heap.write a { n with next := s.head } with
            | none => rw [hw] at h; cases h
            | some h2 =>
                rw [hw] at h
                cases h
                exact Or.inr (Or.inr ⟨rfl, rfl, rfl⟩)
  | popInc =>
      simp only [step, Option.some.injEq, Prod.mk.injEq] at h
      obtain ⟨h1, h2⟩ := h
      subst h1 h2
      exact Or.inl ⟨rfl, rfl, rfl⟩
  | popLoad =>
      simp only [step, Option.some.injEq, Prod.mk.injEq] at h
      obtain ⟨h1, h2⟩ := h
      subst h1 h2
      exact Or.inr (Or.inr ⟨rfl, rfl, rfl⟩)
  | popTest p =>
      cases p with
      | none =>
          simp only [step, Option.some.injEq, Prod.mk.injEq] at h
          obtain ⟨h1, h2⟩ := h
          subst h1 h2
          exact Or.inr (Or.inr ⟨rfl, rfl, rfl⟩)
      | some a =>
          simp only [step] at h
          cases hr : s.heap.read a with
          | none => rw [hr] at h; cases h
          | some n =>
              rw [hr] at h
              cases h
              exact Or.inr (Or.inr ⟨rfl, rfl, rfl⟩)
  | popCas a nx =>
      simp only [step] at h
      split at h <;> cases h <;> exact Or.inr (Or.inr ⟨rfl, rfl, rfl⟩)
  | popRet p =>
      cases p with
      | none =>
          simp only [step, Option.some.injEq, Prod.mk.injEq] at h
          obtain ⟨h1, h2⟩ := h
          subst h1 h2
          exact Or.inr (Or.inr ⟨rfl, rfl, rfl⟩)
      | some a =>
          simp only [step] at h
          cases hr : s.heap.read a with
          | none => rw [hr] at h; cases h
          | some n =>
              rw [hr] at h
              cases h
              exact Or.inr (Or.inr ⟨rfl, rfl, rfl⟩)
  | reclaimCheck node ret =>
      simp only [step] at h
      split at h <;> cases h <;> exact Or.inr (Or.inr ⟨rfl, rfl, rfl⟩)
  | reclaimDelete node ret =>
      simp only [step, Option.some.injEq, Prod.mk.injEq] at h
      obtain ⟨h1, h2⟩ := h
      subst h1 h2
      exact Or.inr (Or.inr ⟨rfl, rfl, rfl⟩)
  | reclaimExchange ret =>
      simp only [step, Option.some.injEq, Prod.mk.injEq] at h
      obtain ⟨h1, h2⟩ := h
      subst h1 h2
      exact Or.inr (Or.inr ⟨rfl, rfl, rfl⟩)
  | reclaimDec d ret =>
      simp only [step] at h
      split at h <;> cases h <;> exact Or.inr (Or.inl ⟨rfl, rfl, rfl, rfl⟩)
  | listTest p ret =>
      cases p with
      | none =>
          simp only [step, Option.some.injEq, Prod.mk.injEq] at h
          obtain ⟨h1, h2⟩ := h
          subst h1 h2
          exact Or.inr (Or.inr ⟨rfl, rfl, rfl⟩)
      | some a =>
          simp only [step] at h
          cases hr : s.heap.read a with
          | none => rw [hr] at h; cases h
          | some n =>
              rw [hr] at h
              cases h
              exact Or.inr (Or.inr ⟨rfl, rfl, rfl⟩)
  | listDelete a temp ret =>
      simp only [step, Option.some.injEq, Prod.mk.injEq] at h
      obtain ⟨h1, h2⟩ := h
      subst h1 h2
      exact Or.inr (Or.inr ⟨rfl, rfl, rfl⟩)
  | chainTest site node last ret =>
      cases last with
      | none => simp [step] at h
      | some a =>
          simp only [step] at h
          cases hr : s.heap.read a with
          | none => rw [hr] at h; cases h
          | some n =>
              rw [hr, Option.map_some'] at h
              split at h <;> cases h <;> cases site <;> exact Or.inr (Or.inr ⟨rfl, rfl, rfl⟩)
  | chainAdvance site node a ret =>
      simp only [step] at h
      cases hr : s.heap.read a with
      | none => rw [hr] at h; cases h
      | some n =>
          rw [hr] at h
          cases h
          cases site <;> exact Or.inr (Or.inr ⟨rfl, rfl, rfl⟩)
  | chainLink site node a ret =>
      simp only [step] at h
      cases hr : s.heap.read a with
      | none => rw [hr] at h; cases h
      | some n =>
          rw [hr, Option.some_bind] at h
          cases hw : s.heap.write a { n with next := s.toBeDeleted } with
          | none => rw [hw] at h; cases h
          | some h2 =>
              rw [hw] at h
              cases h
              cases site <;> exact Or.inr (Or.inr ⟨rfl, rfl, rfl⟩)
  | chainCas site node a ret =>
      simp only [step] at h
      cases hr : s.heap.read a with
      | none => rw [hr] at h; cases h
      | some n =>
          rw [hr, Option.some_bind] at h
          split at h
          · cases h
            cases site <;> exact Or.inr (Or.inr ⟨rfl, rfl, rfl⟩)
          · cases hw : s.heap.write a { n with next := s.toBeDeleted } with
            | none => rw [hw] at h; cases h
            | some h2 =>
                rw [hw] at h
                cases h
                cases site <;> exact Or.inr (Or.inr ⟨rfl, rfl, rfl⟩)
  | elseDec ret =>
      simp only [step, Option.some.injEq, Prod.mk.injEq] at h
      obtain ⟨h1, h2⟩ := h
      subst h1 h2
      exact Or.inr (Or.inl ⟨rfl, rfl, rfl, rfl⟩)
  | popReturn ret =>
      simp only [step, Option.some.injEq, Prod.mk.injEq] at h
      obtain ⟨h1, h2⟩ := h
      subst h1 h2
      exact Or.inr (Or.inr ⟨rfl, rfl, rfl⟩)

/-- The number of threads of a list with a property, when one thread of the list moves. -/
theorem countP_setLocal {T : Type} (P : Local T → Bool) (f : Nat → Local T) (t : Nat)
    (l : Local T) :
    ∀ ts : List Nat, ts.Nodup → t ∈ ts →
      (ts.countP fun u => P (setLocal f t l u)) + (if P (f t) then 1 else 0) =
        (ts.countP fun u => P (f u)) + (if P l then 1 else 0)
  | [], _, h => by cases h
  | x :: ts, hnd, hmem => by
      rw [List.nodup_cons] at hnd
      rw [List.countP_cons, List.countP_cons]
      by_cases hx : x = t
      · subst hx
        have hrest : (ts.countP fun u => P (setLocal f x l u)) = ts.countP fun u => P (f u) := by
          apply List.countP_congr
          intro u hu
          have hne : u ≠ x := fun e => hnd.1 (e ▸ hu)
          simp [setLocal, hne]
        rw [hrest]
        simp only [setLocal, if_true]
        omega
      · have hmem2 : t ∈ ts := by
          rcases List.mem_cons.mp hmem with e | h
          · exact absurd e.symm hx
          · exact h
        have ih := countP_setLocal P f t l ts hnd.2 hmem2
        simp only [setLocal, hx, if_false]
        simp only [setLocal] at ih
        omega

theorem countP_setLocal_same {T : Type} (P : Local T → Bool) (f : Nat → Local T) (t : Nat)
    (l : Local T) (ts : List Nat) (h : P l = P (f t)) :
    (ts.countP fun u => P (setLocal f t l u)) = ts.countP fun u => P (f u) := by
  apply List.countP_congr
  intro u _
  by_cases hu : u = t
  · simp [setLocal, hu, h]
  · simp [setLocal, hu]

theorem exec_balanced {T : Type} [Inhabited T] {c c1 : Config T} {a : Action T}
    {ts : List Nat} (hnd : ts.Nodup) (ha : ∀ t ∈ actors [a], t ∈ ts)
    (he : exec c a = some c1) (hb : Balanced c ts) : Balanced c1 ts := by
  unfold Balanced at hb ⊢
  cases a with
  | push t v =>
      simp only [exec] at he
      split at he
      · rename_i hidle
        cases he
        have : (Local.pushNew v : Local T).registered = (c.locals t).registered := by
          rw [isIdle_iff.mp hidle]; rfl
        simp only
        rw [countP_setLocal_same Local.registered c.locals t _ ts this]
        exact hb
      · cases he
  | pop t =>
      simp only [exec] at he
      split at he
      · rename_i hidle
        cases he
        have : (Local.popInc : Local T).registered = (c.locals t).registered := by
          rw [isIdle_iff.mp hidle]; rfl
        simp only
        rw [countP_setLocal_same Local.registered c.locals t _ ts this]
        exact hb
      · cases he
  | step t =>
      have ht : t ∈ ts := ha t (by simp [actors])
      simp only [exec] at he
      cases hs : step c.shared (c.locals t) with
      | none => rw [hs] at he; cases he
      | some r =>
          obtain ⟨s1, l1⟩ := r
          rw [hs] at he
          cases he
          have hcount := countP_setLocal Local.registered c.locals t l1 ts hnd ht
          simp only
          rcases step_registered hs with ⟨h1, h2, h3⟩ | ⟨h1, h2, h3, _⟩ | ⟨h1, h2, _⟩
          · rw [h2, h3] at hcount
            simp only [if_true, Bool.false_eq_true, if_false, Nat.add_zero] at hcount
            rw [h1, hb, hcount, incr_mod]
          · rw [h2, h3] at hcount
            simp only [if_true, Bool.false_eq_true, if_false, Nat.add_zero] at hcount
            rw [h1, hb, ← hcount, decr_mod]
          · rw [h2] at hcount
            rw [h1, hb]
            congr 1
            omega

theorem run_balanced {T : Type} [Inhabited T] {ts : List Nat} (hnd : ts.Nodup) :
    ∀ (as : List (Action T)) (c c1 : Config T), (∀ t ∈ actors as, t ∈ ts) →
      run c as = some c1 → Balanced c ts → Balanced c1 ts
  | [], c, c1, _, h, hb => by cases h; exact hb
  | a :: as, c, c1, ha, h, hb => by
      simp only [run] at h
      cases he : exec c a with
      | none => rw [he] at h; cases h
      | some c2 =>
          rw [he, Option.some_bind] at h
          have h1 : ∀ t ∈ actors [a], t ∈ ts := by
            intro t ht; apply ha
            cases a <;> simp_all [actors]
          have h2 : ∀ t ∈ actors as, t ∈ ts := by
            intro t ht; apply ha
            cases a <;> simp [actors, ht]
          exact run_balanced hnd as c2 c1 h2 h (exec_balanced hnd h1 he hb)

theorem registered_inPop {T : Type} (l : Local T) (h : l.registered = true) :
    l.inPop = true := by
  cases l <;> first | rfl | simp [Local.registered] at h

/-- The balance of the counter in every state reached from the stack after construction
without a fault, `ts` being the threads of the system: the counter is the number of threads between their increment
and their decrement modulo the width of `size_t`, and that number is at most the number of
threads inside `pop`; with fewer threads than `size_t` has values the counter is that number
itself, and it is at least 1 whenever a thread is about to decrement it. -/
theorem counter_balance {T : Type} [Inhabited T] (as : List (Action T)) (c : Config T)
    (ts : List Nat) (hrun : run init as = some c) (hnd : ts.Nodup)
    (hall : ∀ t ∈ actors as, t ∈ ts) :
    c.shared.poppingThreads = (ts.countP fun t => (c.locals t).registered) % sizeMax ∧
    (ts.countP fun t => (c.locals t).registered) ≤ (ts.countP fun t => (c.locals t).inPop) ∧
    (ts.length < sizeMax →
      c.shared.poppingThreads = (ts.countP fun t => (c.locals t).registered) ∧
      ∀ t, (c.locals t).atDecrement = true → 1 ≤ c.shared.poppingThreads) := by
  have hinit : Balanced (init : Config T) ts := by
    unfold Balanced
    have : (ts.countP fun t => ((init : Config T).locals t).registered) = 0 := by
      rw [List.countP_eq_zero]
      intro t _
      simp [init, Local.registered]
    rw [this]; rfl
  have hb : Balanced c ts := run_balanced hnd as init c hall hrun hinit
  unfold Balanced at hb
  refine ⟨hb, ?_, fun hlen => ?_⟩
  · exact List.countP_mono_left fun t _ h => registered_inPop _ h
  · have hle : (ts.countP fun t => (c.locals t).registered) ≤ ts.length := List.countP_le_length _
    have heq : c.shared.poppingThreads = ts.countP fun t => (c.locals t).registered := by
      rw [hb, Nat.mod_eq_of_lt (lt_of_le_of_lt hle hlen)]
    refine ⟨heq, fun t ht => ?_⟩
    have hreg : (c.locals t).registered = true := by
      cases hl : c.locals t <;> rw [hl] at ht <;> first | rfl | simp [Local.atDecrement] at ht
    have hmem : t ∈ ts := by
      by_contra hn
      have hidle : c.locals t = (init : Config T).locals t :=
        run_locals as init c t hrun fun hm => hn (hall t hm)
      rw [hidle] at hreg
      simp [init, Local.registered] at hreg
    rw [heq]
    exact List.countP_pos_iff.mpr ⟨t, hmem, hreg⟩

/-- The balance of the counter on two threads that have entered `pop` and incremented the
counter. -/
theorem counter_balance_witness :
    (∃ c : Config Nat, run init (popEnter 1 ++ popEnter 2) = some c ∧
      [0, 1, 2].Nodup ∧ (∀ t ∈ actors (popEnter 1 ++ popEnter 2 : List (Action Nat)),
        t ∈ [0, 1, 2]) ∧
      c.shared.poppingThreads = ([0, 1, 2].countP fun t => (c.locals t).registered) % sizeMax) := by
  have hsome : (run (init : Config Nat) (popEnter 1 ++ popEnter 2)).isSome = true := by decide
  obtain ⟨c, hc⟩ := Option.isSome_iff_exists.mp hsome
  have hnd : [0, 1, 2].Nodup := by decide
  have hall : ∀ t ∈ actors (popEnter 1 ++ popEnter 2 : List (Action Nat)), t ∈ [0, 1, 2] := by
    decide
  exact ⟨c, hc, hnd, hall, (counter_balance _ c [0, 1, 2] hc hnd hall).1⟩

/-- The entry of `pop` (line 42): the call and its first step increment the counter once and
leave the thread between its increment and its decrement. -/
theorem pop_entry_increments {T : Type} [Inhabited T] (c : Config T) (t : Nat)
    (hidle : (c.locals t).isIdle = true) :
    ∃ c1, run c [.pop t, .step t] = some c1 ∧
      c1.shared.poppingThreads = incr c.shared.poppingThreads ∧
      c1.locals t = .popLoad ∧ (c1.locals t).registered = true := by
  refine ⟨{ shared := { c.shared with poppingThreads := incr c.shared.poppingThreads }
            locals := setLocal (setLocal c.locals t .popInc) t .popLoad
            pushes := c.pushes
            pops := c.pops }, ?_, rfl, ?_, ?_⟩
  · simp [run, exec, hidle, setLocal, step, logPop]
  · simp [setLocal]
  · simp [setLocal, Local.registered]

theorem run_append {T : Type} [Inhabited T] :
    ∀ (as bs : List (Action T)) (c : Config T),
      run c (as ++ bs) = (run c as).bind fun c1 => run c1 bs
  | [], _, _ => rfl
  | a :: as, bs, c => by
      simp only [List.cons_append, run]
      cases exec c a with
      | none => rfl
      | some c1 => simp only [Option.some_bind]; exact run_append as bs c1

/-- One step of the loop of `chainPendingNodes` (lines 111-113) on a set of cells whose `next`
fields lead from the set into the set: the step does not fault, leaves the shared state as it
is, and the thread is in the loop again, on a cell of the set. -/
theorem chain_loop_step {T : Type} [Inhabited T] (c : Config T) (t : Nat) (cyc : List Nat)
    (hc : ∀ a ∈ cyc, ∃ n, c.shared.heap.read a = some n ∧ ∃ b ∈ cyc, n.next = some b)
    (site : CallSite) (node : Ptr) (ret : T) (a : Nat) (ha : a ∈ cyc)
    (hl : c.locals t = .chainTest site node (some a) ret ∨
      c.locals t = .chainAdvance site node a ret) :
    ∃ c1, exec c (.step t) = some c1 ∧ c1.shared = c.shared ∧
      ∃ b ∈ cyc, c1.locals t = .chainTest site node (some b) ret ∨
        c1.locals t = .chainAdvance site node b ret := by
  obtain ⟨n, hr, b, hb, hn⟩ := hc a ha
  rcases hl with hl | hl
  · refine ⟨{ c with locals := setLocal c.locals t (.chainAdvance site node a ret)
                     pops := c.pops }, ?_, rfl, a, ha, Or.inr ?_⟩
    · simp [exec, hl, step, hr, hn, logPop]
    · simp [setLocal]
  · refine ⟨{ c with locals := setLocal c.locals t (.chainTest site node (some b) ret)
                     pops := c.pops }, ?_, rfl, b, hb, Or.inl ?_⟩
    · simp [exec, hl, step, hr, hn, logPop]
    · simp [setLocal]

/-- The loop of `chainPendingNodes` on such a set of cells never ends: after any number of
steps the thread is still in the loop and the shared state is as it was. -/
theorem chain_loop_forever {T : Type} [Inhabited T] (t : Nat) (cyc : List Nat)
    (site : CallSite) (node : Ptr) (ret : T) :
    ∀ (n : Nat) (c : Config T) (a : Nat),
      (∀ a ∈ cyc, ∃ n, c.shared.heap.read a = some n ∧ ∃ b ∈ cyc, n.next = some b) →
      a ∈ cyc →
      (c.locals t = .chainTest site node (some a) ret ∨
        c.locals t = .chainAdvance site node a ret) →
      ∃ c1, run c (List.replicate n (.step t)) = some c1 ∧ c1.shared = c.shared ∧
        ∃ b ∈ cyc, c1.locals t = .chainTest site node (some b) ret ∨
          c1.locals t = .chainAdvance site node b ret
  | 0, c, a, _, ha, hl => ⟨c, rfl, rfl, a, ha, hl⟩
  | n + 1, c, a, hc, ha, hl => by
      obtain ⟨c1, he, hs, b, hb, hl1⟩ := chain_loop_step c t cyc hc site node ret a ha hl
      have hc1 : ∀ a ∈ cyc, ∃ n, c1.shared.heap.read a = some n ∧ ∃ b ∈ cyc, n.next = some b := by
        rw [hs]; exact hc
      obtain ⟨c2, hr, hs2, b2, hb2, hl2⟩ := chain_loop_forever t cyc site node ret n c1 b hc1 hb hl1
      refine ⟨c2, ?_, hs2.trans hs, b2, hb2, hl2⟩
      simp only [List.replicate_succ, run, he, Option.some_bind]
      exact hr

/-- C15 (the code departs from it): two executions of `pop` that increment the counter and
never decrement it. In `nullDeferred` thread 1 has incremented, is in the deferred branch of
`reclaim` with a null node and the counter at 2, and its next step, before the decrement of
line 102, is a fault. In `deferThird`, where no cell has been deleted, thread 2 has
incremented and is at the loop of `chainPendingNodes(node)` on cell 0 with the counter at 2;
the `next` fields lead from cell 0 to cell 2, cell 1 and cell 0 again, and after any number
of further steps thread 2 is still in that loop, before the decrement of line 102, with the
counter at 2. -/
theorem deferred_pop_never_decrements :
    (run (init : Config Nat) nullDeferred).map (fun c =>
        ((c.locals 1).registered, (c.locals 1).derefsNull, c.shared.poppingThreads)) =
        some (true, true, 2) ∧
      (run (init : Config Nat) (nullDeferred ++ steps 1 1)).isNone = true ∧
      (run (init : Config Nat) deferThird).map (fun c =>
        (c.locals 2, c.shared.poppingThreads)) =
        some (.chainTest .deferred (some 0) (some 0) 1, 2) ∧
      (run (init : Config Nat) deferThird).map (fun c =>
        (c.shared.heap.walk StackNode.next 7 (some 0),
          [0, 1, 2].map c.shared.heap.deletes)) =
        some ([0, 2, 1, 0, 2, 1, 0], [0, 0, 0]) ∧
      ∀ n, ∃ c, run (init : Config Nat) (deferThird ++ steps 2 n) = some c ∧
        (c.locals 2).inChainLoop = true ∧ (c.locals 2).registered = true ∧
        (c.locals 2).atDecrement = false ∧ c.shared.poppingThreads = 2 := by
  refine ⟨by decide, by decide, by decide, by decide, fun n => ?_⟩
  have hsome : (run (init : Config Nat) deferThird).isSome = true := by decide
  obtain ⟨c0, h0⟩ := Option.isSome_iff_exists.mp hsome
  have hl : (run (init : Config Nat) deferThird).map (fun c => c.locals 2) =
      some (.chainTest .deferred (some 0) (some 0) 1) := by decide
  have hp : (run (init : Config Nat) deferThird).map (fun c => c.shared.poppingThreads) =
      some 2 := by decide
  have hh : (run (init : Config Nat) deferThird).map (fun c =>
      [0, 2, 1].map c.shared.heap.read) =
      some [some ⟨1, some 2⟩, some ⟨3, some 1⟩, some ⟨2, some 0⟩] := by decide
  rw [h0] at hl hp hh
  simp only [Option.map_some', Option.some.injEq, List.map_cons, List.map_nil, List.cons.injEq,
    and_true] at hl hp hh
  obtain ⟨hr0, hr2, hr1⟩ := hh
  have hc : ∀ a ∈ [0, 2, 1], ∃ n, c0.shared.heap.read a = some n ∧
      ∃ b ∈ [0, 2, 1], n.next = some b := by
    intro a ha
    simp only [List.mem_cons, List.mem_singleton, List.not_mem_nil, or_false] at ha
    rcases ha with rfl | rfl | rfl
    · exact ⟨_, hr0, 2, by simp, rfl⟩
    · exact ⟨_, hr2, 1, by simp, rfl⟩
    · exact ⟨_, hr1, 0, by simp, rfl⟩
  obtain ⟨c1, hrun, hs, b, _, hb⟩ :=
    chain_loop_forever 2 [0, 2, 1] .deferred (some 0) 1 n c0 0 hc (by simp) (Or.inl hl)
  refine ⟨c1, ?_, ?_, ?_, ?_, ?_⟩
  · rw [run_append, h0, Option.some_bind]
    exact hrun
  · rcases hb with hb | hb <;> rw [hb] <;> rfl
  · rcases hb with hb | hb <;> rw [hb] <;> rfl
  · rcases hb with hb | hb <;> rw [hb] <;> rfl
  · rw [hs, hp]

end LockFreeStack

/-! ## ThreadSafeQueue.h: first in, first out -/

namespace ThreadSafeQueue

theorem runCalls_spec {T : Type} :
    ∀ (cs : List (Call T)) (q : ThreadSafeQueue T),
      (runCalls q cs).2 ≤ (q.mDataQueue ++ pushed cs).length ∧
      (runCalls q cs).1.mDataQueue = (q.mDataQueue ++ pushed cs).drop (runCalls q cs).2
  | [], q => by simp [runCalls, pushed]
  | .push v :: cs, q => by
      have ih := runCalls_spec cs (q.push v)
      simp only [push, List.append_assoc, List.singleton_append] at ih
      simpa [runCalls, pushed, push] using ih
  | .tryPop x :: cs, q => by
      obtain ⟨l⟩ := q
      cases l with
      | nil =>
          have ih := runCalls_spec cs (⟨[]⟩ : ThreadSafeQueue T)
          simpa [runCalls, pushed, tryPop] using ih
      | cons y ys =>
          have ih := runCalls_spec cs (⟨ys⟩ : ThreadSafeQueue T)
          obtain ⟨ih1, ih2⟩ := ih
          simp only at ih1 ih2
          simp only [runCalls, pushed, tryPop, if_true, List.cons_append, List.length_cons]
          refine ⟨by omega, ?_⟩
          rw [Nat.add_comm 1, List.drop_succ_cons]
          exact ih2

/-- C8: after any sequence of `push` and `tryPop` calls on a new queue, `k` of the `tryPop`
calls having returned true, the queue holds the pushed values from number `k` on. A further
`tryPop` returns false and leaves its argument and the queue as they are when the queue is
empty, and otherwise returns true, stores the pushed value number `k` (the oldest one not yet
popped) in its argument and removes it; the queue is empty, and `empty()` true, exactly when
every pushed value has been popped. -/
theorem fifo_sequential {T : Type} (cs : List (Call T)) (x : T) :
    (runCalls new cs).2 ≤ (pushed cs).length ∧
    (runCalls new cs).1.mDataQueue = (pushed cs).drop (runCalls new cs).2 ∧
    ((runCalls new cs).1.mDataQueue = [] →
      (runCalls new cs).1.tryPop x = (false, x, (runCalls new cs).1)) ∧
    ((runCalls new cs).1.mDataQueue ≠ [] →
      ∃ v, (pushed cs)[(runCalls new cs).2]? = some v ∧
        (runCalls new cs).1.tryPop x =
          (true, v, ⟨(pushed cs).drop ((runCalls new cs).2 + 1)⟩)) ∧
    ((runCalls new cs).1.mDataQueue = [] ↔ (runCalls new cs).2 = (pushed cs).length) ∧
    ((runCalls new cs).1.empty = true ↔ (runCalls new cs).2 = (pushed cs).length) := by
  obtain ⟨hle, hq⟩ := runCalls_spec cs (new : ThreadSafeQueue T)
  rw [show (new : ThreadSafeQueue T).mDataQueue = [] from rfl, List.nil_append] at hle hq
  have hiff : (runCalls new cs).1.mDataQueue = [] ↔ (runCalls new cs).2 = (pushed cs).length := by
    rw [hq, List.drop_eq_nil_iff]
    constructor
    · intro h; exact Nat.le_antisymm hle h
    · intro h; rw [h]
  refine ⟨hle, hq, ?_, ?_, hiff, ?_⟩
  · intro h
    simp [tryPop, h]
  · intro h
    have hlt : (runCalls new cs).2 < (pushed cs).length := by
      rcases Nat.lt_or_ge (runCalls new cs).2 (pushed cs).length with h1 | h1
      · exact h1
      · exact absurd (hiff.mpr (Nat.le_antisymm hle h1)) h
    refine ⟨(pushed cs)[(runCalls new cs).2], List.getElem?_eq_getElem hlt, ?_⟩
    have hd : (runCalls new cs).1.mDataQueue =
        (pushed cs)[(runCalls new cs).2] :: (pushed cs).drop ((runCalls new cs).2 + 1) := by
      rw [hq]; exact List.drop_eq_getElem_cons hlt
    rw [tryPop, hd]
  · rw [← hiff]
    simp [empty, List.isEmpty_iff]

/-- C8 on the calls `push(1)`, `push(2)`, `tryPop`: a further `tryPop` delivers 2. -/
theorem fifo_sequential_witness :
    (runCalls new [Call.push 1, .push 2, .tryPop 0]).1.mDataQueue ≠ [] ∧
    ∃ v, (pushed [Call.push 1, .push 2, .tryPop 0])[
        (runCalls new [Call.push 1, .push 2, .tryPop 0]).2]? = some v ∧
      (runCalls new [Call.push 1, .push 2, .tryPop 0]).1.tryPop 7 =
        (true, v, ⟨(pushed [Call.push 1, .push 2, .tryPop 0]).drop
          ((runCalls new [Call.push 1, .push 2, .tryPop 0]).2 + 1)⟩) :=
  ⟨by decide, (fifo_sequential [Call.push 1, .push 2, .tryPop 0] 7).2.2.2.1 (by decide)⟩

end ThreadSafeQueue

/-! ## ThreadSafeQueueFineGrained.h: first in, first out -/

namespace ThreadSafeQueueFineGrained
open Mem

theorem tryPops_append {T : Type} :
    ∀ {xs ys : List T} {q q1 q2 : ThreadSafeQueueFineGrained T} {r1 r2 : List (Bool × T)},
      tryPops q xs = some (r1, q1) → tryPops q1 ys = some (r2, q2) →
      tryPops q (xs ++ ys) = some (r1 ++ r2, q2)
  | [], _, _, _, _, _, _, h1, h2 => by
      cases h1; exact h2
  | x :: xs, ys, q, q1, q2, r1, r2, h1, h2 => by
      rw [tryPops] at h1
      rw [List.cons_append, tryPops]
      cases hp : q.tryPop x with
      | none => rw [hp] at h1; cases h1
      | some r =>
          rw [hp, Option.some_bind] at h1
          rw [Option.some_bind]
          cases hr : tryPops r.2.2 xs with
          | none => rw [hr] at h1; cases h1
          | some rest =>
              rw [hr, Option.map_some'] at h1
              cases h1
              rw [tryPops_append hr h2]
              rfl

theorem holds_new {T : Type} [Inhabited T] : holds (new : ThreadSafeQueueFineGrained T) [] :=
  ⟨[], 0, ⟨default, none⟩, ⟨rfl, rfl, rfl⟩, rfl, rfl⟩

/-- A `push` on a queue that holds `vs` returns and leaves a queue that holds `vs` followed by
the new value. -/
theorem push_holds {T : Type} [Inhabited T] {q : ThreadSafeQueueFineGrained T} {vs : List T}
    (v : T) (hq : holds q vs) : ∃ q1, q.push v = some q1 ∧ holds q1 (vs ++ [v]) := by
  obtain ⟨l, t, d, hchain, htail, hvals⟩ := hq
  obtain ⟨heap, head, tail⟩ := q
  simp only at hchain htail
  subst htail
  have hlt : ∀ a ∈ (l ++ [(t, d)]).map Prod.fst, a < heap.cells.length :=
    Linked.lt_length hchain
  have htl : t ∉ l.map Prod.fst := by
    have hnd := Linked.nodup hchain
    rw [List.map_append, List.nodup_append] at hnd
    intro ht
    exact hnd.2.2 ht (by simp)
  obtain ⟨hrt, hnext⟩ := Linked.last hchain
  have hr1 : (heap.alloc (⟨default, none⟩ : Node T)).2.read t = some d :=
    Heap.read_alloc_old _ hrt
  have hw1 := Heap.write_eq_some ({ d with data := v } : Node T) hr1
  have hr2 := Heap.read_set_same ({ d with data := v } : Node T) hr1
  have hw2 := Heap.write_eq_some
    ({ ({ d with data := v } : Node T) with next := some heap.cells.length } : Node T) hr2
  have hr3 := Heap.read_set_same
    ({ ({ d with data := v } : Node T) with next := some heap.cells.length } : Node T) hr2
  refine ⟨⟨⟨(List.set (heap.alloc (⟨default, none⟩ : Node T)).2.cells t
      ⟨{ d with data := v }, 0⟩).set t
      ⟨{ ({ d with data := v } : Node T) with next := some heap.cells.length }, 0⟩⟩,
      head, some heap.cells.length⟩, ?_,
    l ++ [(t, ⟨v, some heap.cells.length⟩)], heap.cells.length, ⟨default, none⟩,
    ?_, rfl, by simp [hvals]⟩
  · simp only [push, Heap.alloc_fst, hr1, hw1, hr2, hw2, Option.some_bind, Option.map_some']
  · rw [List.append_assoc, List.singleton_append]
    have hne : ∀ a ∈ l.map Prod.fst, t ≠ a := fun a ha e => htl (e ▸ ha)
    have hlen : t ≠ heap.cells.length := fun e => by
      have := hlt t (by simp)
      omega
    refine Linked.replace_last hchain ?_ hr3 ?_
    · intro a ha
      rw [Heap.read_set_ne _ (hne a ha), Heap.read_set_ne _ (hne a ha)]
      exact Heap.read_alloc_lt _ (hlt a (by simp [ha]))
    · refine ⟨rfl, ?_, rfl⟩
      rw [Heap.read_set_ne _ hlen, Heap.read_set_ne _ hlen]
      exact Heap.read_alloc_new _ _

/-- A `tryPop` on a queue that holds `v`, followed by `vs`, returns true with `v` in its
argument and leaves a queue that holds `vs`. -/
theorem tryPop_holds {T : Type} {q : ThreadSafeQueueFineGrained T} {v : T} {vs : List T}
    (x : T) (hq : holds q (v :: vs)) :
    ∃ q1, q.tryPop x = some (true, v, q1) ∧ holds q1 vs := by
  obtain ⟨l, t, d, hchain, htail, hvals⟩ := hq
  obtain ⟨heap, head, tail⟩ := q
  simp only at hchain htail
  subst htail
  cases l with
  | nil => simp at hvals
  | cons e l =>
      simp only [List.map_cons, List.cons.injEq] at hvals
      have hnot := Linked.head_not_mem hchain
      obtain ⟨hhead, hread, hrest⟩ := hchain
      subst hhead
      have het : e.1 ≠ t := fun h => hnot (by simp [h])
      refine ⟨⟨heap.delete (some e.1), e.2.next, some t⟩, ?_, l, t, d, ?_, rfl, hvals.2⟩
      · simp only [tryPop, getTail, Option.some.injEq, het, if_false, hread, Option.some_bind,
          Option.map_some', hvals.1]
      · exact Linked.frame hrest fun a ha => Heap.read_delete_ne (fun h => hnot (h ▸ ha))

/-- A `tryPop` on a queue that holds nothing returns false and changes neither its argument
nor the queue. -/
theorem tryPop_empty {T : Type} {q : ThreadSafeQueueFineGrained T} (x : T) (hq : holds q []) :
    q.tryPop x = some (false, x, q) := by
  obtain ⟨l, t, d, hchain, htail, hvals⟩ := hq
  cases l with
  | nil =>
      have hhead : q.head = some t := hchain.1
      simp [tryPop, getTail, hhead, htail]
  | cons e l => simp at hvals

theorem pushAll_holds {T : Type} [Inhabited T] :
    ∀ (vs : List T) (q : ThreadSafeQueueFineGrained T) (ws : List T), holds q ws →
      ∃ q1, pushAll q vs = some q1 ∧ holds q1 (ws ++ vs)
  | [], q, ws, h => ⟨q, rfl, by simpa using h⟩
  | v :: vs, q, ws, h => by
      obtain ⟨q1, hp, h1⟩ := push_holds v h
      obtain ⟨q2, hp2, h2⟩ := pushAll_holds vs q1 (ws ++ [v]) h1
      refine ⟨q2, ?_, by simpa using h2⟩
      rw [pushAll, hp]; exact hp2

theorem tryPops_holds {T : Type} :
    ∀ (vs xs : List T) (q : ThreadSafeQueueFineGrained T), holds q vs →
      xs.length = vs.length →
      ∃ q1, tryPops q xs = some (vs.map (fun v => (true, v)), q1) ∧ holds q1 []
  | [], [], q, h, _ => ⟨q, rfl, h⟩
  | [], _ :: _, _, _, hl => by simp at hl
  | _ :: _, [], _, _, hl => by simp at hl
  | v :: vs, x :: xs, q, h, hl => by
      obtain ⟨q1, hp, h1⟩ := tryPop_holds x h
      obtain ⟨q2, hp2, h2⟩ := tryPops_holds vs xs q1 h1 (by simpa using hl)
      refine ⟨q2, ?_, h2⟩
      rw [tryPops, hp, Option.some_bind, hp2]
      rfl

/-- C9: after `push(v1)`, ..., `push(vn)` on a new queue, `n` calls of `tryPop` return true
and deliver `v1`, ..., `vn` in this order, whatever their arguments held, and one more call
returns false and leaves its argument as it was; no call faults. -/
theorem fifo_fine_grained {T : Type} [Inhabited T] (vs xs : List T) (x : T)
    (hlen : xs.length = vs.length) :
    ∃ q1 q2, pushAll new vs = some q1 ∧
      tryPops q1 (xs ++ [x]) = some (vs.map (fun v => (true, v)) ++ [(false, x)], q2) := by
  obtain ⟨q1, hp, h1⟩ := pushAll_holds vs (new : ThreadSafeQueueFineGrained T) [] holds_new
  rw [List.nil_append] at h1
  obtain ⟨q2, hp2, h2⟩ := tryPops_holds vs xs q1 h1 hlen
  refine ⟨q1, q2, hp, ?_⟩
  exact tryPops_append hp2 (by rw [tryPops, tryPop_empty x h2]; rfl)

/-- C9 on the values 4, 5, 6. -/
theorem fifo_fine_grained_witness :
    [0, 0, 0].length = [4, 5, 6].length ∧
    ∃ q1 q2, pushAll (new : ThreadSafeQueueFineGrained Nat) [4, 5, 6] = some q1 ∧
      tryPops q1 ([0, 0, 0] ++ [9]) =
        some ([(true, 4), (true, 5), (true, 6)] ++ [(false, 9)], q2) :=
  ⟨rfl, fifo_fine_grained [4, 5, 6] [0, 0, 0] 9 rfl⟩

theorem runCalls_holds {T : Type} [Inhabited T] :
    ∀ (cs : List (Call T)) (q : ThreadSafeQueueFineGrained T) (vs : List T), holds q vs →
      ∃ q1 k, runCalls q cs = some (q1, k) ∧ k ≤ (vs ++ pushed cs).length ∧
        holds q1 ((vs ++ pushed cs).drop k)
  | [], q, vs, h => ⟨q, 0, rfl, Nat.zero_le _, by simpa [pushed] using h⟩
  | .push v :: cs, q, vs, h => by
      obtain ⟨q1, hp, h1⟩ := push_holds v h
      obtain ⟨q2, k, hr, hk, h2⟩ := runCalls_holds cs q1 (vs ++ [v]) h1
      refine ⟨q2, k, ?_, ?_, ?_⟩
      · rw [runCalls, hp]; exact hr
      · simpa [pushed] using hk
      · simpa [pushed] using h2
  | .tryPop x :: cs, q, vs, h => by
      cases vs with
      | nil =>
          obtain ⟨q2, k, hr, hk, h2⟩ := runCalls_holds cs q [] h
          refine ⟨q2, k, ?_, ?_, ?_⟩
          · rw [runCalls, tryPop_empty x h, Option.some_bind, hr]
            simp
          · simpa [pushed] using hk
          · simpa [pushed] using h2
      | cons v vs =>
          obtain ⟨q1, hp, h1⟩ := tryPop_holds x h
          obtain ⟨q2, k, hr, hk, h2⟩ := runCalls_holds cs q1 vs h1
          refine ⟨q2, 1 + k, ?_, ?_, ?_⟩
          · rw [runCalls, hp, Option.some_bind, hr]
            simp
          · simp only [pushed, List.cons_append, List.length_cons]
            omega
          · simp only [pushed, List.cons_append]
            rw [Nat.add_comm 1, List.drop_succ_cons]
            exact h2

/-- C16: after construction and after every sequence of `push` and `tryPop` calls, none of
which faults, the chain from `head` ends with the node `tail` points to, whose `next` is
null; the data of the nodes before it are the pushed values that were not popped, oldest
first; and `head` equals `tail` exactly when there is no such value. -/
theorem dummy_node_invariant {T : Type} [Inhabited T] (cs : List (Call T)) :
    ∃ q k l t d, runCalls new cs = some (q, k) ∧ k ≤ (pushed cs).length ∧
      Linked Node.next q.heap q.head (l ++ [(t, d)]) ∧ q.tail = some t ∧
      q.heap.read t = some d ∧ d.next = none ∧
      l.map (fun e => e.2.data) = (pushed cs).drop k ∧
      (q.head = q.tail ↔ (pushed cs).drop k = []) := by
  obtain ⟨q, k, hr, hk, l, t, d, hchain, htail, hvals⟩ :=
    runCalls_holds cs (new : ThreadSafeQueueFineGrained T) [] holds_new
  rw [List.nil_append] at hk hvals
  obtain ⟨hread, hnext⟩ := Linked.last hchain
  refine ⟨q, k, l, t, d, hr, hk, hchain, htail, hread, hnext, hvals, ?_⟩
  rw [← hvals]
  cases l with
  | nil =>
      have hhead : q.head = some t := hchain.1
      simp [hhead, htail]
  | cons e l =>
      have hnot := Linked.head_not_mem hchain
      have hhead : q.head = some e.1 := hchain.1
      have hne : e.1 ≠ t := fun h => hnot (by simp [h])
      simp [hhead, htail, hne]

end ThreadSafeQueueFineGrained

/-! ## UnionFind.h: the parent map is a forest -/

namespace UnionFind

theorem UMap.find_filter_ne {K V : Type} [DecidableEq K] (k : K) :
    ∀ (m : UMap K V) (j : K), j ≠ k →
      UMap.find (List.filter (fun e => decide (e.1 ≠ k)) m) j = UMap.find m j
  | [], _, _ => rfl
  | e :: m, j, hj => by
      by_cases he : e.1 = k
      · have hej : ¬ e.1 = j := fun h => hj (h ▸ he)
        have h1 : UMap.find (e :: m) j = UMap.find m j := by
          simp only [UMap.find, hej, if_false]
        rw [h1, List.filter_cons_of_neg (by simpa using he)]
        exact UMap.find_filter_ne k m j hj
      · rw [List.filter_cons_of_pos (by simpa using he)]
        simp only [UMap.find]
        rw [UMap.find_filter_ne k m j hj]

theorem UMap.find_assign {K V : Type} [DecidableEq K] (m : UMap K V) (k j : K) (v : V) :
    (m.assign k v).find j = if k = j then some v else m.find j := by
  by_cases h : k = j
  · simp [UMap.assign, UMap.find, h]
  · simp only [UMap.assign, UMap.find, h, if_false]
    exact UMap.find_filter_ne k m j (fun e => h e.symm)

theorem UMap.insert_of_find {K V : Type} [DecidableEq K] {m : UMap K V} {k : K} {w : V}
    (v : V) (h : m.find k = some w) : m.insert k v = m := by
  simp [UMap.insert, h]

theorem UMap.insert_of_absent {K V : Type} [DecidableEq K] {m : UMap K V} {k : K}
    (v : V) (h : m.find k = none) : m.insert k v = (k, v) :: m := by
  simp [UMap.insert, h]

theorem UMap.index_of_find {K V : Type} [DecidableEq K] [Inhabited V] {m : UMap K V} {k : K}
    {v : V} (h : m.find k = some v) : m.index k = (v, m) := by
  simp [UMap.index, h]

theorem UMap.mem_keys_of_find {K V : Type} [DecidableEq K] :
    ∀ {m : UMap K V} {k : K} {v : V}, m.find k = some v → k ∈ m.map Prod.fst
  | [], _, _, h => by cases h
  | e :: m, k, v, h => by
      by_cases he : e.1 = k
      · simp [he]
      · simp only [UMap.find, he, if_false] at h
        simp [UMap.mem_keys_of_find h]

theorem RootOf.same_root {T : Type} [DecidableEq T] {m : UMap T T} {k r1 r2 : T}
    (h1 : RootOf m k r1) (h2 : RootOf m k r2) : r1 = r2 := by
  induction h1 with
  | root r hr =>
      cases h2 with
      | root _ _ => rfl
      | step _ p _ hp hne _ =>
          rw [hr] at hp
          exact absurd (Option.some.inj hp).symm hne
  | step k p r hp hne _ ih =>
      cases h2 with
      | root _ hr =>
          rw [hr] at hp
          exact absurd (Option.some.inj hp).symm hne
      | step _ p2 _ hp2 _ h3 =>
          rw [hp] at hp2
          cases hp2
          exact ih h3

theorem RootOf.find_root {T : Type} [DecidableEq T] {m : UMap T T} {k r : T}
    (h : RootOf m k r) : m.find r = some r := by
  induction h with
  | root r hr => exact hr
  | step _ _ _ _ _ _ ih => exact ih

theorem RootOf.find_start {T : Type} [DecidableEq T] {m : UMap T T} {k r : T}
    (h : RootOf m k r) : ∃ p, m.find k = some p := by
  cases h with
  | root _ hr => exact ⟨_, hr⟩
  | step _ p _ hp _ _ => exact ⟨p, hp⟩

/-- On a chain that ends at a root the loop of `find` returns the root and leaves the map as
it is, for every fuel from some bound on. -/
theorem findLoop_of_rootOf {T : Type} [DecidableEq T] [Inhabited T] {m : UMap T T} {k r : T}
    (h : RootOf m k r) : ∃ n, ∀ fuel, n ≤ fuel → findLoop fuel m k = some (r, m) := by
  induction h with
  | root r hr =>
      refine ⟨1, fun fuel hf => ?_⟩
      obtain ⟨f, rfl⟩ : ∃ f, fuel = f + 1 := ⟨fuel - 1, by omega⟩
      simp [findLoop, UMap.index_of_find hr]
  | step k p r hp hne _ ih =>
      obtain ⟨n, hn⟩ := ih
      refine ⟨n + 1, fun fuel hf => ?_⟩
      obtain ⟨f, rfl⟩ : ∃ f, fuel = f + 1 := ⟨fuel - 1, by omega⟩
      simp only [findLoop, UMap.index_of_find hp, ne_eq, hne, not_false_eq_true, if_true]
      exact hn f (by omega)

/-- The chains of a map after `rootMap[r2] = r1`, for two distinct roots. -/
theorem RootOf.assign {T : Type} [DecidableEq T] {m : UMap T T} {r1 r2 : T}
    (h1 : m.find r1 = some r1) (h2 : m.find r2 = some r2) (hne : r1 ≠ r2) {k r : T}
    (h : RootOf m k r) : RootOf (m.assign r2 r1) k (if r = r2 then r1 else r) := by
  have hroot1 : RootOf (m.assign r2 r1) r1 r1 := by
    apply RootOf.root
    rw [UMap.find_assign, if_neg (fun e => hne e.symm)]
    exact h1
  induction h with
  | root r hr =>
      by_cases hr2 : r = r2
      · rw [if_pos hr2, hr2]
        exact RootOf.step r2 r1 r1 (by rw [UMap.find_assign, if_pos rfl]) hne hroot1
      · rw [if_neg hr2]
        apply RootOf.root
        rw [UMap.find_assign, if_neg (fun e => hr2 e.symm)]
        exact hr
  | step k p r hp hpk _ ih =>
      have hk : r2 ≠ k := by
        intro e
        rw [← e, h2] at hp
        exact hpk (e ▸ (Option.some.inj hp).symm)
      exact RootOf.step k p _ (by rw [UMap.find_assign, if_neg hk]; exact hp) hpk ih

/-- The chains of a map after `insert` of a key that was absent. -/
theorem RootOf.cons {T : Type} [DecidableEq T] {m : UMap T T} {x : T}
    (hx : m.find x = none) {k r : T} (h : RootOf m k r) : RootOf ((x, x) :: m) k r := by
  induction h with
  | root r hr =>
      apply RootOf.root
      have : x ≠ r := fun e => by rw [e, hr] at hx; cases hx
      simp [UMap.find, this, hr]
  | step k p r hp hpk _ ih =>
      have : x ≠ k := fun e => by rw [e, hp] at hx; cases hx
      exact RootOf.step k p r (by simp [UMap.find, this, hp]) hpk ih

theorem forest_nil {T : Type} [DecidableEq T] : Forest ([] : UMap T T) := by
  intro k p h; cases h

theorem forest_insert {T : Type} [DecidableEq T] {m : UMap T T} (x : T) (h : Forest m) :
    Forest (m.insert x x) := by
  unfold UMap.insert
  cases hx : m.find x with
  | some w => exact h
  | none =>
      intro k p hk
      by_cases hxk : x = k
      · exact ⟨x, hxk ▸ RootOf.root x (by simp [UMap.find])⟩
      · simp only [UMap.find, hxk, if_false] at hk
        obtain ⟨r, hr⟩ := h k p hk
        exact ⟨r, RootOf.cons hx hr⟩

theorem forest_assign {T : Type} [DecidableEq T] {m : UMap T T} {r1 r2 : T}
    (h1 : m.find r1 = some r1) (h2 : m.find r2 = some r2) (hne : r1 ≠ r2) (h : Forest m) :
    Forest (m.assign r2 r1) := by
  intro k p hk
  rw [UMap.find_assign] at hk
  have hk2 : ∃ q, m.find k = some q := by
    by_cases e : r2 = k
    · exact ⟨r2, e ▸ h2⟩
    · rw [if_neg e] at hk; exact ⟨p, hk⟩
  obtain ⟨q, hq⟩ := hk2
  obtain ⟨r, hr⟩ := h k q hq
  exact ⟨_, RootOf.assign h1 h2 hne hr⟩

/-- The value of `find` on a key of a forest: the root of the key, the structure unchanged. -/
theorem find_of_rootOf {T : Type} [DecidableEq T] [Inhabited T] {u : UnionFind T} {k r : T}
    (h : RootOf u.rootMap k r) : ∃ n, ∀ fuel, n ≤ fuel → find fuel u k = some (r, u) := by
  obtain ⟨n, hn⟩ := findLoop_of_rootOf h
  obtain ⟨p, hp⟩ := h.find_start
  refine ⟨n, fun fuel hf => ?_⟩
  simp [find, hp, hn fuel hf]

/-- The parent map after the body of `unionize`. -/
theorem link_rootMap {T : Type} [DecidableEq T] (u : UnionFind T) (r1 r2 : T) :
    (link u r1 r2).rootMap = u.rootMap ∧ r1 = r2 ∨
    r1 ≠ r2 ∧ ((link u r1 r2).rootMap = u.rootMap.assign r2 r1 ∨
      (link u r1 r2).rootMap = u.rootMap.assign r1 r2) := by
  unfold link
  by_cases h : r1 = r2
  · left; simp [h]
  · right
    refine ⟨h, ?_⟩
    simp only [h, if_false]
    split
    · left; rfl
    · right; rfl

theorem UMap.find_insert_of_find {K V : Type} [DecidableEq K] {m : UMap K V} {j : K} {p : V}
    (k : K) (v : V) (h : m.find j = some p) : (m.insert k v).find j = some p := by
  unfold UMap.insert
  cases hk : m.find k with
  | some w => exact h
  | none =>
      have : k ≠ j := fun e => by rw [e, h] at hk; cases hk
      simp [UMap.find, this, h]

theorem UMap.find_insert_self {K V : Type} [DecidableEq K] (m : UMap K V) (k : K) (v : V) :
    ∃ p, (m.insert k v).find k = some p := by
  unfold UMap.insert
  cases hk : m.find k with
  | some w => exact ⟨w, hk⟩
  | none => exact ⟨v, by simp [UMap.find]⟩

theorem UMap.find_assign_of_find {K V : Type} [DecidableEq K] {m : UMap K V} {j : K} {p : V}
    (k : K) (v : V) (h : m.find j = some p) : ∃ q, (m.assign k v).find j = some q := by
  rw [UMap.find_assign]
  by_cases e : k = j
  · exact ⟨v, by rw [if_pos e]⟩
  · exact ⟨p, by rw [if_neg e]; exact h⟩

/-- On two keys of a forest `unionize` returns, and its result is the body applied to the two
roots. -/
theorem unionize_of_rootOf {T : Type} [DecidableEq T] [Inhabited T] {u : UnionFind T}
    {a b ra rb : T} (ha : RootOf u.rootMap a ra) (hb : RootOf u.rootMap b rb) :
    ∃ n, ∀ fuel, n ≤ fuel → unionize fuel u a b = some (link u ra rb) := by
  obtain ⟨n1, h1⟩ := find_of_rootOf ha
  obtain ⟨n2, h2⟩ := find_of_rootOf hb
  refine ⟨max n1 n2, fun fuel hf => ?_⟩
  simp [unionize, h1 fuel (le_trans (le_max_left _ _) hf),
    h2 fuel (le_trans (le_max_right _ _) hf)]

/-- How the roots move in the body of `unionize`, called on two roots of a forest. -/
theorem link_roots {T : Type} [DecidableEq T] (u : UnionFind T) {ra rb : T}
    (ha : u.rootMap.find ra = some ra) (hb : u.rootMap.find rb = some rb) :
    ∃ σ : T → T, (∀ k r, RootOf u.rootMap k r → RootOf (link u ra rb).rootMap k (σ r)) ∧
      (∀ r s, σ r = σ s ↔ r = s ∨ (r = ra ∧ s = rb) ∨ (r = rb ∧ s = ra)) := by
  have key : ∀ x y : T, x ≠ y → ∀ r s : T,
      ((if r = y then x else r) = (if s = y then x else s) ↔
        r = s ∨ (r = x ∧ s = y) ∨ (r = y ∧ s = x)) := by
    intro x y hxy r s
    by_cases h1 : r = y <;> by_cases h2 : s = y
    · rw [if_pos h1, if_pos h2]
      exact ⟨fun _ => Or.inl (h1.trans h2.symm), fun _ => rfl⟩
    · rw [if_pos h1, if_neg h2]
      constructor
      · intro h; exact Or.inr (Or.inr ⟨h1, h.symm⟩)
      · rintro (h | ⟨_, h4⟩ | ⟨_, h4⟩)
        · exact absurd (h.symm.trans h1) h2
        · exact absurd h4 h2
        · exact h4.symm
    · rw [if_neg h1, if_pos h2]
      constructor
      · intro h; exact Or.inr (Or.inl ⟨h, h2⟩)
      · rintro (h | ⟨h3, _⟩ | ⟨h3, _⟩)
        · exact absurd (h.trans h2) h1
        · exact h3
        · exact absurd h3 h1
    · rw [if_neg h1, if_neg h2]
      constructor
      · intro h; exact Or.inl h
      · rintro (h | ⟨_, h4⟩ | ⟨h3, _⟩)
        · exact h
        · exact absurd h4 h2
        · exact absurd h3 h1
  rcases link_rootMap u ra rb with ⟨hm, he⟩ | ⟨hne, hm | hm⟩
  · refine ⟨id, fun k r h => by rw [hm]; exact h, fun r s => ?_⟩
    subst he
    simp only [id]
    constructor
    · intro h; exact Or.inl h
    · rintro (h | ⟨h1, h2⟩ | ⟨h1, h2⟩)
      · exact h
      · rw [h1, h2]
      · rw [h1, h2]
  · exact ⟨fun r => if r = rb then ra else r,
      fun k r h => by rw [hm]; exact RootOf.assign ha hb hne h, key ra rb hne⟩
  · refine ⟨fun r => if r = ra then rb else r,
      fun k r h => by rw [hm]; exact RootOf.assign hb ha (fun e => hne e.symm) h, fun r s => ?_⟩
    rw [key rb ra (fun e => hne e.symm) r s]
    constructor
    · rintro (h | h | h)
      · exact Or.inl h
      · exact Or.inr (Or.inr h)
      · exact Or.inr (Or.inl h)
    · rintro (h | h | h)
      · exact Or.inl h
      · exact Or.inr (Or.inr h)
      · exact Or.inr (Or.inl h)

theorem forest_link {T : Type} [DecidableEq T] (u : UnionFind T) {ra rb : T}
    (ha : u.rootMap.find ra = some ra) (hb : u.rootMap.find rb = some rb)
    (h : Forest u.rootMap) : Forest (link u ra rb).rootMap := by
  rcases link_rootMap u ra rb with ⟨hm, _⟩ | ⟨hne, hm | hm⟩
  · rw [hm]; exact h
  · rw [hm]; exact forest_assign ha hb hne h
  · rw [hm]; exact forest_assign hb ha (fun e => hne e.symm) h

theorem find_link_of_find {T : Type} [DecidableEq T] (u : UnionFind T) (ra rb : T) {j p : T}
    (h : u.rootMap.find j = some p) : ∃ q, (link u ra rb).rootMap.find j = some q := by
  rcases link_rootMap u ra rb with ⟨hm, _⟩ | ⟨_, hm | hm⟩
  · rw [hm]; exact ⟨p, h⟩
  · rw [hm]; exact UMap.find_assign_of_find _ _ h
  · rw [hm]; exact UMap.find_assign_of_find _ _ h

/-- A sequence of calls in which every `unionize` is called on inserted elements runs to its
end, for every fuel from some bound on, and leaves a forest that has every inserted element
as a key. -/
theorem runCalls_forest {T : Type} [DecidableEq T] [Inhabited T] :
    ∀ (cs : List (Call T)) (u : UnionFind T) (seen : List T), Forest u.rootMap →
      (∀ x ∈ seen, ∃ p, u.rootMap.find x = some p) → onInserted seen cs = true →
      ∃ u1 n, (∀ fuel, n ≤ fuel → runCalls fuel u cs = some u1) ∧ Forest u1.rootMap ∧
        ∀ x, x ∈ inserted cs ∨ x ∈ seen → ∃ p, u1.rootMap.find x = some p
  | [], u, seen, hf, hs, _ =>
      ⟨u, 0, fun _ _ => rfl, hf, fun x hx => hx.elim (fun h => by cases h) (hs x)⟩
  | .insert x :: cs, u, seen, hf, hs, hc => by
      have hs2 : ∀ y ∈ x :: seen, ∃ p, (u.insert x).rootMap.find y = some p := by
        intro y hy
        rcases List.mem_cons.mp hy with e | hy
        · rw [e]; exact UMap.find_insert_self _ _ _
        · obtain ⟨p, hp⟩ := hs y hy
          exact ⟨p, UMap.find_insert_of_find _ _ hp⟩
      obtain ⟨u1, n, hrun, hf1, hk⟩ :=
        runCalls_forest cs (u.insert x) (x :: seen) (forest_insert x hf) hs2 hc
      refine ⟨u1, n, fun fuel h => hrun fuel h, hf1, fun y hy => hk y ?_⟩
      rcases hy with hy | hy
      · rcases List.mem_cons.mp hy with e | hy
        · exact Or.inr (by simp [e])
        · exact Or.inl hy
      · exact Or.inr (by simp [hy])
  | .unionize a b :: cs, u, seen, hf, hs, hc => by
      simp only [onInserted, Bool.and_eq_true, decide_eq_true_eq] at hc
      obtain ⟨⟨ha, hb⟩, hc⟩ := hc
      obtain ⟨pa, hpa⟩ := hs a ha
      obtain ⟨pb, hpb⟩ := hs b hb
      obtain ⟨ra, hra⟩ := hf a pa hpa
      obtain ⟨rb, hrb⟩ := hf b pb hpb
      obtain ⟨n1, hu⟩ := unionize_of_rootOf hra hrb
      have hs2 : ∀ y ∈ seen, ∃ p, (link u ra rb).rootMap.find y = some p := by
        intro y hy
        obtain ⟨p, hp⟩ := hs y hy
        exact find_link_of_find u ra rb hp
      obtain ⟨u1, n, hrun, hf1, hk⟩ :=
        runCalls_forest cs (link u ra rb) seen
          (forest_link u hra.find_root hrb.find_root hf) hs2 hc
      refine ⟨u1, max n1 n, fun fuel h => ?_, hf1, fun y hy => hk y hy⟩
      rw [runCalls, hu fuel (le_trans (le_max_left _ _) h)]
      exact hrun fuel (le_trans (le_max_right _ _) h)

/-- One bound on the fuel for the finitely many elements of a list. -/
theorem uniform_fuel {T : Type} (P : Nat → T → Prop) :
    ∀ l : List T, (∀ k ∈ l, ∃ n, ∀ fuel, n ≤ fuel → P fuel k) →
      ∃ N, ∀ k ∈ l, ∀ fuel, N ≤ fuel → P fuel k
  | [], _ => ⟨0, fun k hk => by cases hk⟩
  | x :: l, h => by
      obtain ⟨n, hn⟩ := h x (by simp)
      obtain ⟨N, hN⟩ := uniform_fuel P l fun k hk => h k (by simp [hk])
      refine ⟨max n N, fun k hk fuel hf => ?_⟩
      rcases List.mem_cons.mp hk with e | hk
      · rw [e]; exact hn fuel (le_trans (le_max_left _ _) hf)
      · exact hN k hk fuel (le_trans (le_max_right _ _) hf)

theorem findRoot_of_rootOf {T : Type} [DecidableEq T] [Inhabited T] {u : UnionFind T}
    {k r : T} (h : RootOf u.rootMap k r) :
    ∃ n, ∀ fuel, n ≤ fuel → findRoot fuel u k = some r := by
  obtain ⟨n, hn⟩ := find_of_rootOf h
  exact ⟨n, fun fuel hf => by rw [findRoot, hn fuel hf]; rfl⟩

/-- C10 (as amended): after a sequence of `insert` and `unionize` calls in which every
`unionize` is called on elements inserted before, `unionize(a, b)` on two inserted elements
returns, `find(a)` and `find(b)` are equal afterwards, and two inserted elements `c`, `d` have
the same `find` afterwards if and only if they had the same `find` before or one had the
`find` of `a` and the other the `find` of `b`. Every call returns for every fuel from `N` on. -/
theorem unionize_merges {T : Type} [DecidableEq T] [Inhabited T] (cs : List (Call T))
    (a b : T) (hcs : onInserted [] cs = true) (ha : a ∈ inserted cs) (hb : b ∈ inserted cs) :
    ∃ u u1 N, ∀ fuel, N ≤ fuel →
      runCalls fuel new cs = some u ∧ unionize fuel u a b = some u1 ∧
      (∃ r, findRoot fuel u1 a = some r ∧ findRoot fuel u1 b = some r) ∧
      ∀ c d, c ∈ inserted cs → d ∈ inserted cs →
        ∃ ra rb rc rd rc1 rd1,
          findRoot fuel u a = some ra ∧ findRoot fuel u b = some rb ∧
          findRoot fuel u c = some rc ∧ findRoot fuel u d = some rd ∧
          findRoot fuel u1 c = some rc1 ∧ findRoot fuel u1 d = some rd1 ∧
          (rc1 = rd1 ↔ rc = rd ∨ (rc = ra ∧ rd = rb) ∨ (rc = rb ∧ rd = ra)) := by
  obtain ⟨u, n0, hrun, hf, hk⟩ :=
    runCalls_forest cs (new : UnionFind T) [] forest_nil (fun x hx => by cases hx) hcs
  obtain ⟨pa, hpa⟩ := hk a (Or.inl ha)
  obtain ⟨pb, hpb⟩ := hk b (Or.inl hb)
  obtain ⟨ra, hra⟩ := hf a pa hpa
  obtain ⟨rb, hrb⟩ := hf b pb hpb
  obtain ⟨n1, hu⟩ := unionize_of_rootOf hra hrb
  obtain ⟨σ, hσ, hiff⟩ := link_roots u hra.find_root hrb.find_root
  obtain ⟨N, hN⟩ := uniform_fuel
    (fun fuel k => ∃ r, RootOf u.rootMap k r ∧ findRoot fuel u k = some r ∧
      findRoot fuel (link u ra rb) k = some (σ r)) (inserted cs) (by
      intro k hkm
      obtain ⟨p, hp⟩ := hk k (Or.inl hkm)
      obtain ⟨r, hr⟩ := hf k p hp
      obtain ⟨m1, h1⟩ := findRoot_of_rootOf hr
      obtain ⟨m2, h2⟩ := findRoot_of_rootOf (hσ k r hr)
      exact ⟨max m1 m2, fun fuel hfu => ⟨r, hr, h1 fuel (le_trans (le_max_left _ _) hfu),
        h2 fuel (le_trans (le_max_right _ _) hfu)⟩⟩)
  refine ⟨u, link u ra rb, max (max n0 n1) N, fun fuel hfu => ?_⟩
  have h0 : n0 ≤ fuel := le_trans (le_trans (le_max_left _ _) (le_max_left _ _)) hfu
  have h1 : n1 ≤ fuel := le_trans (le_trans (le_max_right _ _) (le_max_left _ _)) hfu
  have h2 : N ≤ fuel := le_trans (le_max_right _ _) hfu
  obtain ⟨ra2, hra2, hfa, hfa1⟩ := hN a ha fuel h2
  obtain ⟨rb2, hrb2, hfb, hfb1⟩ := hN b hb fuel h2
  have ea : ra2 = ra := RootOf.same_root hra2 hra
  have eb : rb2 = rb := RootOf.same_root hrb2 hrb
  subst ea eb
  refine ⟨hrun fuel h0, hu fuel h1, ⟨σ ra2, hfa1, ?_⟩, fun c d hc hd => ?_⟩
  · rw [hfb1, (hiff ra2 rb2).mpr (Or.inr (Or.inl ⟨rfl, rfl⟩))]
  · obtain ⟨rc, _, hfc, hfc1⟩ := hN c hc fuel h2
    obtain ⟨rd, _, hfd, hfd1⟩ := hN d hd fuel h2
    exact ⟨ra2, rb2, rc, rd, σ rc, σ rd, hfa, hfb, hfc, hfd, hfc1, hfd1, hiff rc rd⟩

/-- The amended C10 on the calls `insert(1)`, `insert(2)`, `insert(3)`, `unionize(1, 2)`,
with `a = 3` and `b = 2`. -/
theorem unionize_merges_witness :
    (onInserted [] [Call.insert 1, .insert 2, .insert 3, .unionize 1 2] = true ∧
      3 ∈ inserted [Call.insert 1, .insert 2, .insert 3, .unionize 1 2] ∧
      2 ∈ inserted [Call.insert 1, .insert 2, .insert 3, .unionize 1 2]) ∧
    ∃ (u u1 : UnionFind Nat) (N : Nat), ∀ fuel, N ≤ fuel →
      runCalls fuel new [Call.insert 1, .insert 2, .insert 3, .unionize 1 2] = some u ∧
      unionize fuel u 3 2 = some u1 ∧
      ∃ r, findRoot fuel u1 3 = some r ∧ findRoot fuel u1 2 = some r := by
  have h1 : onInserted [] [Call.insert 1, .insert 2, .insert 3, .unionize 1 2] = true := by
    decide
  have h2 : 3 ∈ inserted [Call.insert 1, .insert 2, .insert 3, .unionize 1 2] := by
    simp [inserted]
  have h3 : 2 ∈ inserted [Call.insert 1, .insert 2, .insert 3, .unionize 1 2] := by
    simp [inserted]
  refine ⟨⟨h1, h2, h3⟩, ?_⟩
  obtain ⟨u, u1, N, h⟩ := unionize_merges _ 3 2 h1 h2 h3
  exact ⟨u, u1, N, fun fuel hf => ⟨(h fuel hf).1, (h fuel hf).2.1, (h fuel hf).2.2.1⟩⟩

theorem findLoop_cycle (m : UMap Nat Nat) (h0 : m.find 0 = some 9) (h9 : m.find 9 = some 0) :
    ∀ fuel, findLoop fuel m 0 = none ∧ findLoop fuel m 9 = none
  | 0 => ⟨rfl, rfl⟩
  | fuel + 1 => by
      obtain ⟨i0, i9⟩ := findLoop_cycle m h0 h9 fuel
      constructor
      · simp only [findLoop, UMap.index_of_find h0]
        simpa using i9
      · simp only [findLoop, UMap.index_of_find h9]
        simpa using i0

/-- C10 (the claim as stated fails): the calls `unionize(9, 0)`, `insert(0)`, `insert(5)` on a
new `UnionFind<int>` return and insert 0 and 5; the parent of 0 is then 9, which is not a key,
and `unionize(0, 5)` does not return on any fuel: `find(0)` reads `rootMap[9]`, which inserts
the default parent 0, and walks from 0 to 9 and back for ever. -/
theorem unionize_diverges :
    ∃ u : UnionFind Nat, runCalls 1 new strayCalls = some u ∧
      inserted strayCalls = [0, 5] ∧ ∀ fuel, unionize fuel u 0 5 = none := by
  refine ⟨⟨[(5, 5), (0, 9)], [(5, 1), (9, 0), (0, 0)]⟩, rfl, rfl, fun fuel => ?_⟩
  have hcyc := findLoop_cycle [(9, 0), (5, 5), (0, 9)] (by decide) (by decide)
  have hfind : find fuel (⟨[(5, 5), (0, 9)], [(5, 1), (9, 0), (0, 0)]⟩ : UnionFind Nat) 0
      = none := by
    have hpres : UMap.find ([(5, 5), (0, 9)] : UMap Nat Nat) 0 = some 9 := by decide
    simp only [find, hpres, Option.map_eq_none']
    cases fuel with
    | zero => rfl
    | succ f =>
        cases f with
        | zero => rfl
        | succ g => exact (hcyc g).1
  rw [unionize, hfind]
  rfl

theorem find_stray (fuel : Nat) :
    find fuel (⟨[(5, 5), (0, 9)], [(5, 1), (9, 0), (0, 0)]⟩ : UnionFind Nat) 0 = none := by
  have hcyc := findLoop_cycle [(9, 0), (5, 5), (0, 9)] (by decide) (by decide)
  have hpres : UMap.find ([(5, 5), (0, 9)] : UMap Nat Nat) 0 = some 9 := by decide
  simp only [find, hpres, Option.map_eq_none']
  cases fuel with
  | zero => rfl
  | succ f =>
      cases f with
      | zero => rfl
      | succ g => exact (hcyc g).1

/-- C18 (the claim as stated fails): after the calls `unionize(9, 0)`, `insert(0)`,
`insert(5)` on a new `UnionFind<int>`, which all return, 0 is a key of the parent map and
`find(0)` does not return on any fuel: the parent of 0 is 9, which is not a key, `rootMap[9]`
inserts the default parent 0, and the loop walks from 0 to 9 and back for ever. -/
theorem find_diverges :
    ∃ u : UnionFind Nat, runCalls 1 new strayCalls = some u ∧
      u.rootMap.find 0 = some 9 ∧ u.rootMap.find 9 = none ∧ ∀ fuel, find fuel u 0 = none :=
  ⟨⟨[(5, 5), (0, 9)], [(5, 1), (9, 0), (0, 0)]⟩, rfl, rfl, rfl, find_stray⟩

/-- C18 (as amended): after a sequence of `insert` and `unionize` calls in which every
`unionize` is called on elements inserted before, the parent map is a forest and `find(x)`
returns for every element `x`, for every fuel from `N` on, without changing the structure;
its result `r` is its own parent when `x` is a key, and is `x` itself otherwise. -/
theorem find_terminates {T : Type} [DecidableEq T] [Inhabited T] (cs : List (Call T)) (x : T)
    (hcs : onInserted [] cs = true) :
    ∃ u N, Forest u.rootMap ∧ ∀ fuel, N ≤ fuel →
      runCalls fuel new cs = some u ∧
      ∃ r, find fuel u x = some (r, u) ∧
        ((∃ p, u.rootMap.find x = some p) → u.rootMap.find r = some r) ∧
        (u.rootMap.find x = none → r = x) := by
  obtain ⟨u, n0, hrun, hf, _⟩ :=
    runCalls_forest cs (new : UnionFind T) [] forest_nil (fun x hx => by cases hx) hcs
  cases hx : u.rootMap.find x with
  | none =>
      refine ⟨u, n0, hf, fun fuel hfu => ⟨hrun fuel hfu, x, ?_, ?_, fun _ => rfl⟩⟩
      · simp [find, hx]
      · rintro ⟨p, hp⟩
        rw [hx] at hp; cases hp
  | some p =>
      obtain ⟨r, hr⟩ := hf x p hx
      obtain ⟨n1, h1⟩ := find_of_rootOf hr
      refine ⟨u, max n0 n1, hf, fun fuel hfu => ⟨hrun fuel (le_trans (le_max_left _ _) hfu),
        r, h1 fuel (le_trans (le_max_right _ _) hfu), fun _ => hr.find_root, ?_⟩⟩
      intro h
      rw [hx] at h; cases h

/-- The amended C18 on the calls `insert(1)`, `insert(2)`, `unionize(1, 2)` and `x = 2`. -/
theorem find_terminates_witness :
    onInserted [] [Call.insert 1, .insert 2, .unionize 1 2] = true ∧
    ∃ (u : UnionFind Nat) (N : Nat), Forest u.rootMap ∧ ∀ fuel, N ≤ fuel →
      runCalls fuel new [Call.insert 1, .insert 2, .unionize 1 2] = some u ∧
      ∃ r, find fuel u 2 = some (r, u) := by
  have h1 : onInserted [] [Call.insert 1, .insert 2, .unionize 1 2] = true := by decide
  refine ⟨h1, ?_⟩
  obtain ⟨u, N, hf, h⟩ := find_terminates [Call.insert 1, .insert 2, .unionize 1 2] 2 h1
  refine ⟨u, N, hf, fun fuel hfu => ?_⟩
  obtain ⟨hr, r, hfind, _⟩ := h fuel hfu
  exact ⟨hr, r, hfind⟩

/-- C20 (the claim as stated fails): after `unionize(9, 0)` on a new `UnionFind<int>`, 9 is
not a key of the parent map but has the size 0 in the size map, and `insert(9)` makes it a
root of size 0, not 1. After `unionize(7, 8)` and `find(8)`, which returns 0, the element 0 is
a key of the parent map and not of the size map, and `insert(0)` adds an entry to the size
map. -/
theorem insert_on_stray_keys :
    (∃ u : UnionFind Nat, runCalls 1 new [.unionize 9 0] = some u ∧
      u.rootMap.find 9 = none ∧ (u.insert 9).rootMap.find 9 = some 9 ∧
      (u.insert 9).sizeMap.find 9 = some 0) ∧
    (∃ u u1 : UnionFind Nat, runCalls 1 new [.unionize 7 8] = some u ∧
      find 3 u 8 = some (0, u1) ∧ u1.rootMap.find 0 = some 0 ∧
      u1.sizeMap.find 0 = none ∧ (u1.insert 0).sizeMap.find 0 = some 1) :=
  ⟨⟨⟨[(0, 9)], [(9, 0), (0, 0)]⟩, rfl, rfl, rfl, rfl⟩,
    ⟨⟨[(8, 7)], [(7, 0), (8, 0)]⟩, ⟨[(0, 0), (7, 0), (8, 7)], [(7, 0), (8, 0)]⟩,
      rfl, rfl, rfl, rfl, rfl⟩⟩

/-- C20 (as amended): on every structure in which `x` is a key of the parent map exactly when
it is a key of the size map, `insert(x)` of a present `x` leaves both maps as they are, so
that every `find` returns as before; `insert(x)` of an absent `x` adds the entries `(x, x)`
and `(x, 1)` and changes no other entry, and when the parent map is a forest every key keeps
its root. -/
theorem insert_idempotent {T : Type} [DecidableEq T] [Inhabited T] (u : UnionFind T) (x : T)
    (hkeys : (u.rootMap.find x).isSome = (u.sizeMap.find x).isSome) :
    ((∃ p, u.rootMap.find x = some p) →
      u.insert x = u ∧ ∀ fuel y, find fuel (u.insert x) y = find fuel u y) ∧
    (u.rootMap.find x = none →
      (u.insert x).rootMap = (x, x) :: u.rootMap ∧ (u.insert x).sizeMap = (x, 1) :: u.sizeMap ∧
      (u.insert x).rootMap.find x = some x ∧ (u.insert x).sizeMap.find x = some 1 ∧
      (∀ y, y ≠ x → (u.insert x).rootMap.find y = u.rootMap.find y ∧
        (u.insert x).sizeMap.find y = u.sizeMap.find y) ∧
      (Forest u.rootMap → ∀ y r, RootOf u.rootMap y r → RootOf (u.insert x).rootMap y r)) := by
  constructor
  · rintro ⟨p, hp⟩
    have hs : ∃ s, u.sizeMap.find x = some s := by
      rw [hp] at hkeys
      cases h : u.sizeMap.find x with
      | none => rw [h] at hkeys; cases hkeys
      | some s => exact ⟨s, rfl⟩
    obtain ⟨s, hs⟩ := hs
    have he : u.insert x = u := by
      simp only [insert, UMap.insert_of_find _ hp, UMap.insert_of_find _ hs]
    exact ⟨he, fun fuel y => by rw [he]⟩
  · intro hx
    have hs : u.sizeMap.find x = none := by
      rw [hx] at hkeys
      cases h : u.sizeMap.find x with
      | none => rfl
      | some s => rw [h] at hkeys; cases hkeys
    have hr : (u.insert x).rootMap = (x, x) :: u.rootMap := UMap.insert_of_absent _ hx
    have hz : (u.insert x).sizeMap = (x, 1) :: u.sizeMap := UMap.insert_of_absent _ hs
    refine ⟨hr, hz, by rw [hr]; simp [UMap.find], by rw [hz]; simp [UMap.find], ?_, ?_⟩
    · intro y hy
      have hne : ¬ x = y := fun e => hy e.symm
      rw [hr, hz]
      simp [UMap.find, hne]
    · intro _ y r h
      rw [hr]
      exact RootOf.cons hx h

/-- The amended C20 on the structure after `insert(1)`, `insert(2)`, `unionize(1, 2)`, where
2 has been merged under the root 1: `insert(2)` and `insert(1)` leave the structure as it is
and every `find` returns as before; `insert(5)`, of an absent element, adds the entries
`(5, 5)` and `(5, 1)`. -/
theorem insert_idempotent_witness :
    ∃ u : UnionFind Nat, runCalls 3 new [.insert 1, .insert 2, .unionize 1 2] = some u ∧
      u.rootMap.find 2 = some 1 ∧ u.rootMap.find 1 = some 1 ∧
      (u.rootMap.find 2).isSome = (u.sizeMap.find 2).isSome ∧
      u.insert 2 = u ∧ (∀ fuel y, find fuel (u.insert 2) y = find fuel u y) ∧
      (u.rootMap.find 1).isSome = (u.sizeMap.find 1).isSome ∧
      u.insert 1 = u ∧ (∀ fuel y, find fuel (u.insert 1) y = find fuel u y) ∧
      (u.rootMap.find 5).isSome = (u.sizeMap.find 5).isSome ∧
      (u.insert 5).rootMap = (5, 5) :: u.rootMap ∧ (u.insert 5).sizeMap = (5, 1) :: u.sizeMap := by
  have h2 := (insert_idempotent ⟨[(2, 1), (1, 1)], [(1, 2), (2, 1)]⟩ 2 (by decide)).1
    ⟨1, by decide⟩
  have h1 := (insert_idempotent ⟨[(2, 1), (1, 1)], [(1, 2), (2, 1)]⟩ 1 (by decide)).1
    ⟨1, by decide⟩
  have h5 := (insert_idempotent ⟨[(2, 1), (1, 1)], [(1, 2), (2, 1)]⟩ 5 (by decide)).2
    (by decide)
  exact ⟨⟨[(2, 1), (1, 1)], [(1, 2), (2, 1)]⟩, rfl, by decide, by decide, by decide,
    h2.1, h2.2, by decide, h1.1, h1.2, by decide, h5.1, h5.2.1⟩

theorem UMap.keys_assign {K V : Type} [DecidableEq K] (m : UMap K V) (k : K) (v : V) :
    (m.assign k v).map Prod.fst = k :: (m.map Prod.fst).filter fun j => decide (j ≠ k) := by
  simp only [UMap.assign, List.map_cons, List.filter_map]
  rfl

theorem UMap.find_of_mem_keys {K V : Type} [DecidableEq K] :
    ∀ {m : UMap K V} {k : K}, k ∈ m.map Prod.fst → ∃ v, m.find k = some v
  | [], _, h => by simp at h
  | e :: m, k, h => by
      by_cases he : e.1 = k
      · exact ⟨e.2, by simp [UMap.find, he]⟩
      · have : k ∈ m.map Prod.fst := by
          simp only [List.map_cons, List.mem_cons] at h
          rcases h with h | h
          · exact absurd h.symm he
          · exact h
        obtain ⟨v, hv⟩ := UMap.find_of_mem_keys this
        exact ⟨v, by simp [UMap.find, he, hv]⟩

theorem UMap.nodup_keys_assign {K V : Type} [DecidableEq K] {m : UMap K V} (k : K) (v : V)
    (h : (m.map Prod.fst).Nodup) : ((m.assign k v).map Prod.fst).Nodup := by
  rw [UMap.keys_assign, List.nodup_cons]
  refine ⟨?_, h.filter _⟩
  intro hk
  have := (List.mem_filter.mp hk).2
  simp at this

/-- Counting over a list without repetition, one element taken out and put in front. -/
theorem countP_filter_ne {K : Type} [DecidableEq K] (P : K → Bool) (k : K) :
    ∀ l : List K, l.Nodup → k ∈ l →
      (k :: l.filter fun j => decide (j ≠ k)).countP P = l.countP P
  | [], _, h => by cases h
  | x :: l, hnd, hmem => by
      rw [List.nodup_cons] at hnd
      by_cases hx : x = k
      · subst hx
        have hf : (l.filter fun j => decide (j ≠ x)) = l := by
          rw [List.filter_eq_self]
          intro a ha
          have : a ≠ x := fun e => hnd.1 (e ▸ ha)
          simpa using this
        rw [List.filter_cons_of_neg (by simp), hf]
      · have hmem2 : k ∈ l := by
          rcases List.mem_cons.mp hmem with e | h
          · exact absurd e.symm hx
          · exact h
        have ih := countP_filter_ne P k l hnd.2 hmem2
        rw [List.filter_cons_of_pos (by simpa using hx)]
        simp only [List.countP_cons] at ih ⊢
        omega

theorem UMap.countP_keys_assign {K V : Type} [DecidableEq K] {m : UMap K V} (P : K → Bool)
    {k : K} (v : V) (h : (m.map Prod.fst).Nodup) (hk : k ∈ m.map Prod.fst) :
    ((m.assign k v).map Prod.fst).countP P = (m.map Prod.fst).countP P := by
  rw [UMap.keys_assign]
  exact countP_filter_ne P k _ h hk

/-- The keys whose root becomes `x` when the root `y` is put under `x`. -/
theorem countP_merge {T : Type} [DecidableEq T] (ρ : T → T) {x y : T} (hxy : x ≠ y) :
    ∀ l : List T,
      (l.countP fun k => decide ((if ρ k = y then x else ρ k) = x)) =
        (l.countP fun k => decide (ρ k = x)) + l.countP fun k => decide (ρ k = y)
  | [] => rfl
  | a :: l => by
      have ih := countP_merge ρ hxy l
      simp only [List.countP_cons, ih]
      have hyx : ¬ y = x := fun e => hxy e.symm
      by_cases h1 : ρ a = y
      · simp [h1, hyx]
        omega
      · by_cases h2 : ρ a = x
        · simp [h1, h2, hxy]
          omega
        · simp [h1, h2]

theorem link_eq {T : Type} [DecidableEq T] (u : UnionFind T) {r1 r2 : T} {s1 s2 : Int}
    (hne : r1 ≠ r2) (h1 : u.sizeMap.find r1 = some s1) (h2 : u.sizeMap.find r2 = some s2) :
    link u r1 r2 =
      if s1 ≥ s2 then ⟨u.rootMap.assign r2 r1, u.sizeMap.assign r1 (s1 + s2)⟩
      else ⟨u.rootMap.assign r1 r2, u.sizeMap.assign r2 (s2 + s1)⟩ := by
  simp only [link, hne, if_false, UMap.index_of_find h1, UMap.index_of_find h2]

theorem sized_new {T : Type} [DecidableEq T] : Sized (new : UnionFind T) := by
  refine ⟨List.nodup_nil, forest_nil, fun x => ⟨?_, ?_⟩, id, ?_, ?_⟩
  · rintro ⟨p, hp⟩; cases hp
  · rintro ⟨p, hp⟩; cases hp
  · intro k p h; cases h
  · intro r h; cases h

theorem UMap.find_cons {K V : Type} [DecidableEq K] (m : UMap K V) (k j : K) (v : V) :
    UMap.find ((k, v) :: m) j = if k = j then some v else m.find j := rfl

theorem sized_insert {T : Type} [DecidableEq T] {u : UnionFind T} (x : T) (h : Sized u) :
    Sized (u.insert x) := by
  obtain ⟨hnd, hf, hkeys, ρ, hρ, hsize⟩ := h
  cases hx : u.rootMap.find x with
  | some p =>
      obtain ⟨s, hs⟩ := (hkeys x).mp ⟨p, hx⟩
      have he : u.insert x = u := by
        simp only [insert, UMap.insert_of_find _ hx, UMap.insert_of_find _ hs]
      rw [he]
      exact ⟨hnd, hf, hkeys, ρ, hρ, hsize⟩
  | none =>
      have hs : u.sizeMap.find x = none := by
        cases h : u.sizeMap.find x with
        | none => rfl
        | some s =>
            obtain ⟨p, hp⟩ := (hkeys x).mpr ⟨s, h⟩
            rw [hx] at hp; cases hp
      have hr : (u.insert x).rootMap = (x, x) :: u.rootMap := UMap.insert_of_absent _ hx
      have hz : (u.insert x).sizeMap = (x, 1) :: u.sizeMap := UMap.insert_of_absent _ hs
      have hxk : x ∉ u.rootMap.map Prod.fst := by
        intro hm
        obtain ⟨v, hv⟩ := UMap.find_of_mem_keys hm
        rw [hx] at hv; cases hv
      have hroot_ne : ∀ k p, u.rootMap.find k = some p → ρ k ≠ x := by
        intro k p hk e
        have := (hρ k p hk).find_root
        rw [e, hx] at this; cases this
      have hkey_ne : ∀ k ∈ u.rootMap.map Prod.fst, k ≠ x := fun k hk e => hxk (e ▸ hk)
      refine ⟨?_, ?_, ?_, fun k => if k = x then x else ρ k, ?_, ?_⟩
      · rw [hr, List.map_cons, List.nodup_cons]; exact ⟨hxk, hnd⟩
      · have := forest_insert x hf
        rw [show u.rootMap.insert x x = (u.insert x).rootMap from rfl] at this
        exact this
      · intro k
        rw [hr, hz, UMap.find_cons, UMap.find_cons]
        by_cases e : x = k
        · simp [e]
        · simp only [e, if_false]; exact hkeys k
      · intro k p hk
        rw [hr] at hk ⊢
        rw [UMap.find_cons] at hk
        by_cases e : x = k
        · subst e
          simp only [if_true]
          exact RootOf.root x (by simp [UMap.find_cons])
        · rw [if_neg e] at hk
          have hkx : ¬ k = x := fun h => e h.symm
          simp only [hkx, if_false]
          exact RootOf.cons hx (hρ k p hk)
      · intro r hrr
        rw [hr] at hrr ⊢
        rw [hz]
        rw [UMap.find_cons] at hrr
        rw [UMap.find_cons, List.map_cons, List.countP_cons]
        by_cases e : x = r
        · subst e
          have h0 : (List.countP (fun k => decide ((if k = x then x else ρ k) = x))
              (u.rootMap.map Prod.fst)) = 0 := by
            rw [List.countP_eq_zero]
            intro k hk
            obtain ⟨p, hp⟩ := UMap.find_of_mem_keys hk
            have h1 := hkey_ne k hk
            have h2 := hroot_ne k p hp
            simp [h1, h2]
          rw [h0]
          simp
        · rw [if_neg e] at hrr
          rw [if_neg e, hsize r hrr]
          have hc : (List.countP (fun k => decide ((if k = x then x else ρ k) = r))
              (u.rootMap.map Prod.fst)) =
              List.countP (fun k => decide (ρ k = r)) (u.rootMap.map Prod.fst) := by
            apply List.countP_congr
            intro k hk
            have h1 := hkey_ne k hk
            simp [h1]
          rw [hc]
          have hxr : ¬ x = r := e
          simp [hxr]

/-- The invariant after the root `y` is put under the root `x` and the size of `x` becomes the
sum of the two sizes. -/
theorem sized_merge {T : Type} [DecidableEq T] {m : UMap T T} {sz : UMap T Int} {x y : T}
    {sx sy : Int} (h : Sized ⟨m, sz⟩) (hx : m.find x = some x) (hy : m.find y = some y)
    (hxy : x ≠ y) (hsx : sz.find x = some sx) (hsy : sz.find y = some sy) :
    Sized ⟨m.assign y x, sz.assign x (sx + sy)⟩ := by
  obtain ⟨hnd, hf, hkeys, ρ, hρ, hsize⟩ := h
  simp only at hnd hf hkeys hρ hsize
  have hyk : y ∈ m.map Prod.fst := UMap.mem_keys_of_find hy
  have hkey : ∀ k, (∃ p, (m.assign y x).find k = some p) ↔ ∃ p, m.find k = some p := by
    intro k
    rw [UMap.find_assign]
    by_cases e : y = k
    · subst e; simp [hy]
    · simp [e]
  refine ⟨UMap.nodup_keys_assign y x hnd, forest_assign hx hy hxy hf, ?_,
    fun k => if ρ k = y then x else ρ k, ?_, ?_⟩
  · intro k
    simp only
    rw [hkey k, hkeys k, UMap.find_assign]
    by_cases e : x = k
    · subst e; simp [hsx]
    · simp [e]
  · intro k p hk
    simp only at hk ⊢
    obtain ⟨q, hq⟩ := (hkey k).mp ⟨p, hk⟩
    exact RootOf.assign hx hy hxy (hρ k q hq)
  · intro r hr
    simp only at hr ⊢
    rw [UMap.find_assign] at hr
    have hry : ¬ y = r := by
      intro e
      rw [if_pos e] at hr
      exact hxy ((Option.some.inj hr).trans e.symm)
    rw [if_neg hry] at hr
    rw [UMap.countP_keys_assign _ _ hnd hyk, UMap.find_assign]
    by_cases e : x = r
    · subst e
      rw [if_pos rfl, countP_merge ρ hxy]
      have h1 := hsize x hx
      have h2 := hsize y hy
      rw [hsx] at h1
      rw [hsy] at h2
      rw [Option.some.inj h1, Option.some.inj h2]
      push_cast
      rfl
    · rw [if_neg e, hsize r hr]
      congr 2
      apply List.countP_congr
      intro k _
      by_cases h1 : ρ k = y
      · have : ¬ y = r := hry
        simp [h1, e, this]
      · simp [h1]

theorem sized_link {T : Type} [DecidableEq T] {u : UnionFind T} {ra rb : T}
    (ha : u.rootMap.find ra = some ra) (hb : u.rootMap.find rb = some rb) (h : Sized u) :
    Sized (link u ra rb) := by
  by_cases hne : ra = rb
  · simp only [link, hne, if_true]; exact h
  · obtain ⟨sa, hsa⟩ := (h.2.2.1 ra).mp ⟨ra, ha⟩
    obtain ⟨sb, hsb⟩ := (h.2.2.1 rb).mp ⟨rb, hb⟩
    rw [link_eq u hne hsa hsb]
    split
    · exact sized_merge h ha hb hne hsa hsb
    · exact sized_merge h hb ha (fun e => hne e.symm) hsb hsa

/-- A sequence of calls in which every `unionize` is called on inserted elements runs to its
end and keeps the invariant `Sized`. -/
theorem runCalls_sized {T : Type} [DecidableEq T] [Inhabited T] :
    ∀ (cs : List (Call T)) (u : UnionFind T) (seen : List T), Sized u →
      (∀ x ∈ seen, ∃ p, u.rootMap.find x = some p) → onInserted seen cs = true →
      ∃ u1 n, (∀ fuel, n ≤ fuel → runCalls fuel u cs = some u1) ∧ Sized u1 ∧
        ∀ x, x ∈ inserted cs ∨ x ∈ seen → ∃ p, u1.rootMap.find x = some p
  | [], u, seen, hz, hs, _ =>
      ⟨u, 0, fun _ _ => rfl, hz, fun x hx => hx.elim (fun h => by cases h) (hs x)⟩
  | .insert x :: cs, u, seen, hz, hs, hc => by
      have hs2 : ∀ y ∈ x :: seen, ∃ p, (u.insert x).rootMap.find y = some p := by
        intro y hy
        rcases List.mem_cons.mp hy with e | hy
        · rw [e]; exact UMap.find_insert_self _ _ _
        · obtain ⟨p, hp⟩ := hs y hy
          exact ⟨p, UMap.find_insert_of_find _ _ hp⟩
      obtain ⟨u1, n, hrun, hz1, hk⟩ :=
        runCalls_sized cs (u.insert x) (x :: seen) (sized_insert x hz) hs2 hc
      refine ⟨u1, n, fun fuel h => hrun fuel h, hz1, fun y hy => hk y ?_⟩
      rcases hy with hy | hy
      · rcases List.mem_cons.mp hy with e | hy
        · exact Or.inr (by simp [e])
        · exact Or.inl hy
      · exact Or.inr (by simp [hy])
  | .unionize a b :: cs, u, seen, hz, hs, hc => by
      simp only [onInserted, Bool.and_eq_true, decide_eq_true_eq] at hc
      obtain ⟨⟨ha, hb⟩, hc⟩ := hc
      obtain ⟨pa, hpa⟩ := hs a ha
      obtain ⟨pb, hpb⟩ := hs b hb
      obtain ⟨ra, hra⟩ := hz.2.1 a pa hpa
      obtain ⟨rb, hrb⟩ := hz.2.1 b pb hpb
      obtain ⟨n1, hu⟩ := unionize_of_rootOf hra hrb
      have hs2 : ∀ y ∈ seen, ∃ p, (link u ra rb).rootMap.find y = some p := by
        intro y hy
        obtain ⟨p, hp⟩ := hs y hy
        exact find_link_of_find u ra rb hp
      obtain ⟨u1, n, hrun, hz1, hk⟩ :=
        runCalls_sized cs (link u ra rb) seen
          (sized_link hra.find_root hrb.find_root hz) hs2 hc
      refine ⟨u1, max n1 n, fun fuel h => ?_, hz1, fun y hy => hk y hy⟩
      rw [runCalls, hu fuel (le_trans (le_max_left _ _) h)]
      exact hrun fuel (le_trans (le_max_right _ _) h)

/-- C19: after a sequence of `insert` and `unionize` calls in which every `unionize` is called
on elements inserted before, the two maps have the same keys, and the size stored for a root
is the number of keys whose `find` is that root. For two inserted elements with distinct
roots, `unionize` puts the root of the second under the root of the first when the size of the
second root is not larger, and the root of the first under the root of the second when the
size of the first root is strictly smaller. -/
theorem size_invariant {T : Type} [DecidableEq T] [Inhabited T] (cs : List (Call T))
    (hcs : onInserted [] cs = true) :
    ∃ u N, ∀ fuel, N ≤ fuel →
      runCalls fuel new cs = some u ∧
      (∀ x, (∃ p, u.rootMap.find x = some p) ↔ ∃ s, u.sizeMap.find x = some s) ∧
      (∀ r, u.rootMap.find r = some r →
        u.sizeMap.find r = some (((u.rootMap.map Prod.fst).countP
          fun x => decide (findRoot fuel u x = some r) : Nat) : Int)) ∧
      ∀ a b, a ∈ inserted cs → b ∈ inserted cs →
        ∃ ra rb sa sb u1, findRoot fuel u a = some ra ∧ findRoot fuel u b = some rb ∧
          u.sizeMap.find ra = some sa ∧ u.sizeMap.find rb = some sb ∧
          unionize fuel u a b = some u1 ∧
          (ra ≠ rb →
            (sb ≤ sa → u1.rootMap.find rb = some ra ∧ u1.rootMap.find ra = some ra) ∧
            (sa < sb → u1.rootMap.find ra = some rb ∧ u1.rootMap.find rb = some rb)) := by
  obtain ⟨u, n0, hrun, hz, hk⟩ :=
    runCalls_sized cs (new : UnionFind T) [] sized_new (fun x hx => by cases hx) hcs
  obtain ⟨_, hf, hkeys, ρ, hρ, hsize⟩ := hz
  obtain ⟨N, hN⟩ := uniform_fuel
    (fun fuel k => ∃ r, RootOf u.rootMap k r ∧ find fuel u k = some (r, u))
    (u.rootMap.map Prod.fst) (by
      intro k hkm
      obtain ⟨p, hp⟩ := UMap.find_of_mem_keys hkm
      obtain ⟨r, hr⟩ := hf k p hp
      obtain ⟨m1, h1⟩ := find_of_rootOf hr
      exact ⟨m1, fun fuel hfu => ⟨r, hr, h1 fuel hfu⟩⟩)
  refine ⟨u, max n0 N, fun fuel hfu => ?_⟩
  have h0 : n0 ≤ fuel := le_trans (le_max_left _ _) hfu
  have h2 : N ≤ fuel := le_trans (le_max_right _ _) hfu
  have hfind : ∀ k p, u.rootMap.find k = some p → find fuel u k = some (ρ k, u) := by
    intro k p hp
    obtain ⟨r, hr, hfk⟩ := hN k (UMap.mem_keys_of_find hp) fuel h2
    rw [hfk, RootOf.same_root hr (hρ k p hp)]
  refine ⟨hrun fuel h0, hkeys, ?_, ?_⟩
  · intro r hr
    rw [hsize r hr]
    congr 2
    apply List.countP_congr
    intro k hkm
    obtain ⟨p, hp⟩ := UMap.find_of_mem_keys hkm
    simp [findRoot, hfind k p hp]
  · intro a b ha hb
    obtain ⟨pa, hpa⟩ := hk a (Or.inl ha)
    obtain ⟨pb, hpb⟩ := hk b (Or.inl hb)
    have hra := (hρ a pa hpa).find_root
    have hrb := (hρ b pb hpb).find_root
    obtain ⟨sa, hsa⟩ := (hkeys (ρ a)).mp ⟨_, hra⟩
    obtain ⟨sb, hsb⟩ := (hkeys (ρ b)).mp ⟨_, hrb⟩
    refine ⟨ρ a, ρ b, sa, sb, link u (ρ a) (ρ b), ?_, ?_, hsa, hsb, ?_, fun hne => ?_⟩
    · simp [findRoot, hfind a pa hpa]
    · simp [findRoot, hfind b pb hpb]
    · simp [unionize, hfind a pa hpa, hfind b pb hpb]
    · rw [link_eq u hne hsa hsb]
      constructor
      · intro hle
        rw [if_pos hle]
        simp only
        rw [UMap.find_assign, UMap.find_assign, if_pos rfl, if_neg (fun e => hne e.symm)]
        exact ⟨rfl, hra⟩
      · intro hlt
        rw [if_neg (not_le.mpr hlt)]
        simp only
        rw [UMap.find_assign, UMap.find_assign, if_pos rfl, if_neg hne]
        exact ⟨rfl, hrb⟩

/-- C19 on the calls `insert(1)`, `insert(2)`, `insert(3)`, `unionize(1, 2)`. -/
theorem size_invariant_witness :
    onInserted [] [Call.insert 1, .insert 2, .insert 3, .unionize 1 2] = true ∧
    ∃ (u : UnionFind Nat) (N : Nat), ∀ fuel, N ≤ fuel →
      runCalls fuel new [Call.insert 1, .insert 2, .insert 3, .unionize 1 2] = some u ∧
      ∀ r, u.rootMap.find r = some r →
        u.sizeMap.find r = some (((u.rootMap.map Prod.fst).countP
          fun x => decide (findRoot fuel u x = some r) : Nat) : Int) := by
  have h1 : onInserted [] [Call.insert 1, .insert 2, .insert 3, .unionize 1 2] = true := by
    decide
  refine ⟨h1, ?_⟩
  obtain ⟨u, N, h⟩ := size_invariant [Call.insert 1, .insert 2, .insert 3, .unionize 1 2] h1
  exact ⟨u, N, fun fuel hf => ⟨(h fuel hf).1, (h fuel hf).2.2.1⟩⟩

end UnionFind

/-! ## The two stacks in sequential use -/

namespace LockFreeStackMemLeak
open Mem

theorem leaky_setLocal_same {T : Type} (f : Nat → Local T) (t : Nat) (l : Local T) :
    setLocal f t l t = l := by simp [setLocal]

theorem leaky_setLocal_setLocal {T : Type} (f : Nat → Local T) (t : Nat) (a b : Local T) :
    setLocal (setLocal f t a) t b = setLocal f t b := by
  funext u; by_cases hu : u = t <;> simp [setLocal, hu]

theorem leaky_setLocal_self {T : Type} {f : Nat → Local T} {t : Nat} {l : Local T}
    (h : f t = l) : setLocal f t l = f := by
  funext u; by_cases hu : u = t
  · simp [setLocal, hu, h]
  · simp [setLocal, hu]

theorem leaky_runAlone_idle {T : Type} [Inhabited T] (t fuel : Nat) (c : Config T)
    (h : c.locals t = .idle) : runAlone t fuel c = some c := by
  cases fuel <;> simp [runAlone, h, Local.isIdle]

/-- One step of a thread that runs alone. -/
theorem leaky_runAlone_next {T : Type} [Inhabited T] (t fuel : Nat) (s : Shared T)
    (f : Nat → Local T) (l : Local T) (rs : List T) :
    runAlone t (fuel + 1) ⟨s, setLocal f t l, rs⟩ =
      if l.isIdle = true then some ⟨s, setLocal f t l, rs⟩
      else (step s l).bind fun r =>
        runAlone t fuel ⟨r.1, setLocal f t r.2.1, logReturn r.2.2 rs⟩ := by
  rw [runAlone]
  simp only [leaky_setLocal_same, stepThread, leaky_setLocal_setLocal]
  cases step s l <;> rfl

theorem leaky_pushAlone_eq {T : Type} [Inhabited T] (c : Config T) (t : Nat) (v : T)
    (fuel : Nat) (hidle : c.locals t = .idle) :
    pushAlone t v (fuel + 3) c = some
      { shared :=
          { heap := (c.shared.heap.alloc ⟨v, c.shared.head⟩).2
            head := some c.shared.heap.cells.length }
        locals := c.locals
        returns := c.returns } := by
  obtain ⟨⟨heap, head⟩, locals, returns⟩ := c
  simp only at hidle
  simp only [pushAlone, callPush, hidle, Local.isIdle, if_true, Option.some_bind]
  iterate 3
    rw [leaky_runAlone_next]
    simp only [Local.isIdle, Bool.false_eq_true, if_false, step, logReturn, Option.some_bind,
      Option.map_some', if_true, Heap.alloc_fst, Heap.read_alloc_new, Heap.write_alloc_new]
  rw [leaky_runAlone_idle _ _ _ (by simp [leaky_setLocal_same]), leaky_setLocal_self hidle]

theorem leaky_popAlone_eq {T : Type} [Inhabited T] (c : Config T) (t : Nat) (fuel : Nat)
    (a : Nat) (n : StackNode T) (hidle : c.locals t = .idle) (hhead : c.shared.head = some a)
    (hread : c.shared.heap.read a = some n) :
    popAlone t (fuel + 4) c = some
      { shared := { heap := c.shared.heap, head := n.next }
        locals := c.locals
        returns := c.returns ++ [n.data] } := by
  obtain ⟨⟨heap, head⟩, locals, returns⟩ := c
  simp only at hidle hhead hread
  subst hhead
  simp only [popAlone, callPop, hidle, Local.isIdle, if_true, Option.some_bind]
  iterate 4
    rw [leaky_runAlone_next]
    simp only [Local.isIdle, Bool.false_eq_true, if_false, step, logReturn, Option.some_bind,
      Option.map_some', if_true, hread]
  rw [leaky_runAlone_idle _ _ _ (by simp [leaky_setLocal_same]), leaky_setLocal_self hidle]

theorem leaky_popAlone_empty {T : Type} [Inhabited T] (c : Config T) (t : Nat) (fuel : Nat)
    (hidle : c.locals t = .idle) (hhead : c.shared.head = none) :
    popAlone t (fuel + 3) c = some
      { shared := c.shared
        locals := c.locals
        returns := c.returns ++ [default] } := by
  obtain ⟨⟨heap, head⟩, locals, returns⟩ := c
  simp only at hidle hhead
  subst hhead
  simp only [popAlone, callPop, hidle, Local.isIdle, if_true, Option.some_bind]
  iterate 3
    rw [leaky_runAlone_next]
    simp only [Local.isIdle, Bool.false_eq_true, if_false, step, logReturn, Option.some_bind,
      Option.map_some', if_true]
  rw [leaky_runAlone_idle _ _ _ (by simp [leaky_setLocal_same]), leaky_setLocal_self hidle]

/-- In sequential use the `LockFreeStackMemLeak` returns what a stack returns. -/
theorem leaky_runOps_spec {T : Type} [Inhabited T] (t fuel : Nat) :
    ∀ (ops : List (StackOp T)) (c : Config T) (l : List (Nat × StackNode T)),
      Sequential c t l →
      ∃ c1, runOps t (fuel + 4) c ops = some c1 ∧
        c1.returns = c.returns ++ (StackOp.eval (l.map fun e => e.2.data) ops).2
  | [], c, l, _ => ⟨c, rfl, by simp [StackOp.eval]⟩
  | .push v :: ops, c, l, h => by
      obtain ⟨hidle, hchain⟩ := h
      have hlink : Linked StackNode.next (c.shared.heap.alloc ⟨v, c.shared.head⟩).2
          (some c.shared.heap.cells.length)
          ((c.shared.heap.cells.length, ⟨v, c.shared.head⟩) :: l) := by
        refine ⟨rfl, Heap.read_alloc_new _ _, ?_⟩
        exact Linked.frame hchain fun a ha =>
          Heap.read_alloc_lt _ (Linked.lt_length hchain a ha)
      obtain ⟨c1, hrun, hret⟩ := leaky_runOps_spec t fuel ops
        { shared :=
            { heap := (c.shared.heap.alloc ⟨v, c.shared.head⟩).2
              head := some c.shared.heap.cells.length }
          locals := c.locals
          returns := c.returns } _ ⟨hidle, hlink⟩
      refine ⟨c1, ?_, ?_⟩
      · rw [runOps, show fuel + 4 = fuel + 1 + 3 from rfl, leaky_pushAlone_eq c t v _ hidle]
        exact hrun
      · rw [hret]; simp [StackOp.eval]
  | .pop :: ops, c, l, h => by
      obtain ⟨hidle, hchain⟩ := h
      cases l with
      | nil =>
          have hhead : c.shared.head = none := hchain
          obtain ⟨c1, hrun, hret⟩ := leaky_runOps_spec t fuel ops
            { shared := c.shared
              locals := c.locals
              returns := c.returns ++ [default] } [] ⟨hidle, hchain⟩
          refine ⟨c1, ?_, ?_⟩
          · rw [runOps, show fuel + 4 = fuel + 1 + 3 from rfl,
              leaky_popAlone_empty c t _ hidle hhead]
            exact hrun
          · rw [hret]; simp [StackOp.eval]
      | cons e l =>
          obtain ⟨hhead, hread, hrest⟩ := hchain
          obtain ⟨c1, hrun, hret⟩ := leaky_runOps_spec t fuel ops
            { shared := { heap := c.shared.heap, head := e.2.next }
              locals := c.locals
              returns := c.returns ++ [e.2.data] } l ⟨hidle, hrest⟩
          refine ⟨c1, ?_, ?_⟩
          · rw [runOps, leaky_popAlone_eq c t fuel e.1 e.2 hidle hhead hread]
            exact hrun
          · rw [hret]; simp [StackOp.eval]

end LockFreeStackMemLeak

namespace LockFreeStack
open Mem

/-- In sequential use the pops of the `LockFreeStack` extract into `ret` what a stack
returns. -/
theorem runOps_spec {T : Type} [Inhabited T] (t fuel : Nat) :
    ∀ (ops : List (StackOp T)) (c : Config T) (l : List (Nat × StackNode T)),
      Sequential c t l →
      ∃ c1, runOps t (fuel + 11) c ops = some c1 ∧
        c1.pops = c.pops ++ (StackOp.eval (l.map fun e => e.2.data) ops).2
  | [], c, l, _ => ⟨c, rfl, by simp [StackOp.eval]⟩
  | .push v :: ops, c, l, h => by
      obtain ⟨hidle, hcount, hlimbo, hchain⟩ := h
      have hlink : Linked StackNode.next (c.shared.heap.alloc ⟨v, c.shared.head⟩).2
          (some c.shared.heap.cells.length)
          ((c.shared.heap.cells.length, ⟨v, c.shared.head⟩) :: l) := by
        refine ⟨rfl, Heap.read_alloc_new _ _, ?_⟩
        exact Linked.frame hchain fun a ha =>
          Heap.read_alloc_lt _ (Linked.lt_length hchain a ha)
      obtain ⟨c1, hrun, hret⟩ := runOps_spec t fuel ops
        { shared := { c.shared with
            heap := (c.shared.heap.alloc ⟨v, c.shared.head⟩).2
            head := some c.shared.heap.cells.length }
          locals := c.locals
          pushes := c.pushes ++ [v]
          pops := c.pops } _ ⟨hidle, hcount, hlimbo, hlink⟩
      refine ⟨c1, ?_, ?_⟩
      · rw [runOps, show fuel + 11 = fuel + 8 + 3 from rfl, pushAlone_eq c t v _ hidle]
        exact hrun
      · rw [hret]; simp [StackOp.eval]
  | .pop :: ops, c, l, h => by
      obtain ⟨hidle, hcount, hlimbo, hchain⟩ := h
      cases l with
      | nil =>
          have hhead : c.shared.head = none := hchain
          have hlim : Linked StackNode.next c.shared.heap c.shared.toBeDeleted [] := hlimbo
          have hpop := popAlone_empty c t (fuel + 1) [] hidle hcount hhead hlim
          obtain ⟨c1, hrun, hret⟩ := runOps_spec t fuel ops
            { shared :=
                { heap := c.shared.heap.deleteAll
                    (List.map Prod.fst ([] : List (Nat × StackNode T)))
                  head := none
                  poppingThreads := 0
                  toBeDeleted := none }
              locals := c.locals
              pushes := c.pushes
              pops := c.pops ++ [default] } [] ⟨hidle, rfl, rfl, rfl⟩
          refine ⟨c1, ?_, ?_⟩
          · rw [runOps,
              show fuel + 11 = fuel + 1 + 2 * ([] : List (Nat × StackNode T)).length + 10
                from rfl, hpop]
            exact hrun
          · rw [hret]; simp [StackOp.eval]
      | cons e l =>
          have hnot := Linked.head_not_mem hchain
          obtain ⟨hhead, hread, hrest⟩ := hchain
          have hrest2 : Linked StackNode.next (c.shared.heap.delete (some e.1)) e.2.next l :=
            Linked.frame hrest fun a ha => Heap.read_delete_ne (fun h => hnot (h ▸ ha))
          obtain ⟨c1, hrun, hret⟩ := runOps_spec t fuel ops
            { shared :=
                { heap := c.shared.heap.delete (some e.1)
                  head := e.2.next
                  poppingThreads := 0
                  toBeDeleted := none }
              locals := c.locals
              pushes := c.pushes
              pops := c.pops ++ [e.2.data] } l ⟨hidle, rfl, rfl, hrest2⟩
          refine ⟨c1, ?_, ?_⟩
          · rw [runOps, popAlone_eq c t fuel e.1 e.2 hidle hcount hlimbo hhead hread]
            exact hrun
          · rw [hret]; simp [StackOp.eval]

/-- C17 (the code departs from it): for every sequence of operations run by one thread on the
two stacks after construction, all calls return; the `LockFreeStackMemLeak` returns what a
stack returns, and the pops of the `LockFreeStack` extract the same values into `ret`, but
each of them returns the value of `res` (line 60), so the returned sequences differ as soon as
one of these values is not that of `res`. -/
theorem returns_of_the_two_stacks {T : Type} [Inhabited T] (ops : List (StackOp T)) (res : T)
    (t fuel : Nat) :
    ∃ (c : Config T) (m : LockFreeStackMemLeak.Config T),
      runOps t (fuel + 11) init ops = some c ∧
      LockFreeStackMemLeak.runOps t (fuel + 4) LockFreeStackMemLeak.init ops = some m ∧
      m.returns = (StackOp.eval [] ops).2 ∧ c.pops = m.returns ∧
      c.returned res = List.replicate m.returns.length res := by
  obtain ⟨c, hc, hpops⟩ := runOps_spec t fuel ops (init : Config T) [] (sequential_init t)
  obtain ⟨m, hm, hret⟩ := LockFreeStackMemLeak.leaky_runOps_spec t fuel ops
    (LockFreeStackMemLeak.init : LockFreeStackMemLeak.Config T) [] ⟨rfl, rfl⟩
  have h1 : m.returns = (StackOp.eval [] ops).2 := by
    rw [hret]; simp [LockFreeStackMemLeak.init]
  have h2 : c.pops = m.returns := by
    rw [hpops, h1]; simp [init]
  refine ⟨c, m, hc, hm, h1, h2, ?_⟩
  rw [Config.returned, map_popResult, h2]

/-- The sequence `push(7)`, `pop()` with `res` bound to 0: the `LockFreeStackMemLeak` returns
7 and the `LockFreeStack` returns 0. -/
theorem returns_differ :
    (LockFreeStackMemLeak.runOps 0 4 (LockFreeStackMemLeak.init : LockFreeStackMemLeak.Config Nat)
        [.push 7, .pop]).map (fun m => m.returns) = some [7] ∧
      (runOps 0 11 (init : Config Nat) [.push 7, .pop]).map (fun c => c.returned 0) =
        some [0] := by
  refine ⟨by decide, by decide⟩

end LockFreeStack
